import Mathlib

/-!
# Verification of the neatlacoche ID→grid-mask index

A shallow embedding, in Lean 4, of the core data structures of the
tilezen/neatlacoche repository: the bit-packed `Block` container (pairs mode /
array mode), the sharded `MultiBlock` map, and the worker-level functions
`putWay`, `putNode` / `quadrant`, and the `Sorter`'s block-kind dispatch.

Modelling conventions:
* Go `uint32` / `int64` values are modelled as `Nat`; all Go arithmetic used
  here (`>>`, `&`, `|`, `<<`) acts on non-negative values where Nat semantics
  coincide with the machine semantics.  The `int64` sentinel
  `maxLastId = 2^63 - 1` is kept as a literal constant.
* Go panics are modelled as `Except.error e` with a distinct error constructor
  per panic site; functions that can panic return `Except Err _`.
* Go slices are modelled as `List Nat`.  Indexed reads use `List.getD` and
  indexed writes use `List.set`; at every call site reached by the proofs the
  index is shown to be in bounds, where these totalizations agree with the Go
  slice semantics.  `copy(dst, src)` copies `min |dst| |src|` leading elements
  and keeps the tail of `dst`.
* Loops whose termination in Go rests on data-structure invariants are given
  an explicit iteration budget that provably exceeds any reachable iteration
  count; exhausting it is modelled as the distinguished error `Err.fuel`
  (proved unreachable in the verified states).
-/

namespace Neatlacoche

/-- Constant block parameters, from the source. -/
@[reducible] def BLOCK_IDX_BITS : Nat := 16
@[reducible] def BLOCK_VAL_BITS : Nat := 16
@[reducible] def BLOCK_IDX_MASK : Nat := 0xFFFF
@[reducible] def BLOCK_VAL_MASK : Nat := 0xFFFF
@[reducible] def BLOCK_FULL_LENGTH : Nat := 1 <<< 15
@[reducible] def BLOCK_PACKING_BITS : Nat := 1
@[reducible] def BLOCK_PACKING_MASK : Nat := 1

/-- Every Go `panic` site and error condition in the modelled code gets its own
constructor, so that theorems can talk about which failure occurs.  `fuel` is
the artificial loop-budget exhaustion marker (see the module docstring). -/
inductive Err : Type
  | idRange      -- Block.Append / Block.Lookup: id too large
  | valRange     -- Block.Append: val too large
  | frozen       -- mutation of a frozen block
  | arrayBound   -- Block.Append in array mode: id ≥ Length
  | oobWrite     -- Go slice write out of bounds
  | oobSlice     -- Go slice read / reslice out of bounds
  | copySize     -- Block.CopyFrom: receiver capacity too small
  | mbIdOrder    -- MultiBlock.Append: id < LastId
  | mbValRange   -- MultiBlock.Append: val > BLOCK_VAL_MASK
  | fuel         -- loop budget exhausted (unreachable in verified states)
  | nilDeref     -- dereference of a nil *Block from a missing map key
  deriving DecidableEq, Repr

/-- The Block structure: either a packed list of `(id <<< 16) ||| val` pairs
(`Length ≤ BLOCK_FULL_LENGTH`, `Length` = number of pairs) or a packed array of
2^16 16-bit cells, two per word (`Length > BLOCK_FULL_LENGTH`). -/
structure Block : Type where
  Length : Nat
  Frozen : Bool
  Values : List Nat
  deriving DecidableEq, Repr

/-- `NewAccumulationBlock` from the source: a mutable block pre-allocated at
capacity `BLOCK_FULL_LENGTH`, all words zero. -/
def NewAccumulationBlock : Block :=
  { Length := 0, Frozen := false, Values := List.replicate BLOCK_FULL_LENGTH 0 }

/-- `NewEmptyBlock` from the source: a frozen empty block with no capacity. -/
def NewEmptyBlock : Block :=
  { Length := 0, Frozen := true, Values := [] }

/-- `Block.Copy` from the source: a frozen copy trimmed to the live region
(`Length` words in pairs mode, `BLOCK_FULL_LENGTH` words in array mode).
`make` zero-fills, and Go's `copy` transfers `min` of the two lengths, hence
the zero padding when the source is shorter than the allocation. -/
def Block.Copy (b : Block) : Block :=
  let n := if b.Length > BLOCK_FULL_LENGTH then BLOCK_FULL_LENGTH else b.Length
  { Length := b.Length, Frozen := true,
    Values := b.Values.take n ++ List.replicate (n - b.Values.length) 0 }

/-- `writePacked` from the source: OR `val` into the 16-bit cell `id` of the
packed array `arr` (two cells per word). -/
def writePacked (arr : List Nat) (id val : Nat) : List Nat :=
  let hilo := id &&& BLOCK_PACKING_MASK
  let idx := id >>> BLOCK_PACKING_BITS
  arr.set idx ((arr.getD idx 0) ||| (val <<< (hilo * BLOCK_VAL_BITS)))

/-- `Block.Append` from the source.  The three branches: array mode
(`Length > FULL`), pairs mode with room (`Length < FULL`), and the
pairs→array transition at `Length = FULL`, which replays every existing pair
through `writePacked` into a temporary `FULL`-word buffer and copies it back. -/
def Block.Append (b : Block) (id val : Nat) : Except Err Block :=
  if id > BLOCK_IDX_MASK then .error .idRange
  else if val > BLOCK_VAL_MASK then .error .valRange
  else if b.Frozen then .error .frozen
  else if b.Length > BLOCK_FULL_LENGTH then
    if id ≥ b.Length then .error .arrayBound
    else .ok { b with Values := writePacked b.Values id val }
  else if b.Length < BLOCK_FULL_LENGTH then
    if b.Length < b.Values.length then
      .ok { b with Length := b.Length + 1,
                   Values := b.Values.set b.Length ((id <<< BLOCK_VAL_BITS) ||| val) }
    else .error .oobWrite
  else
    let tmp := b.Values.foldl
      (fun t kv => writePacked t (kv >>> BLOCK_VAL_BITS) (kv &&& BLOCK_VAL_MASK))
      (List.replicate BLOCK_FULL_LENGTH 0)
    let tmp := writePacked tmp id val
    let m := min b.Values.length BLOCK_FULL_LENGTH
    .ok { b with Length := 1 <<< BLOCK_IDX_BITS,
                 Values := tmp.take m ++ b.Values.drop m }

/-- `Block.Reset` from the source: length to zero and the whole backing buffer
zeroed. -/
def Block.Reset (b : Block) : Except Err Block :=
  if b.Frozen then .error .frozen
  else .ok { b with Length := 0, Values := List.replicate b.Values.length 0 }

/-- `search` from the source: binary search over the packed pairs on the upper
16 bits. -/
def search (arr : List Nat) (lb : Nat) : Nat :=
  if _h0 : arr.length = 0 then 0
  else if _h1 : arr.length = 1 then arr.headD 0
  else if lb < (arr.getD (arr.length / 2) 0) >>> BLOCK_VAL_BITS then
    search (arr.take (arr.length / 2)) lb
  else
    search (arr.drop (arr.length / 2)) lb
termination_by arr.length
decreasing_by
  · simp only [List.length_take]; omega
  · simp only [List.length_drop]; omega

/-- `Block.Lookup` from the source. -/
def Block.Lookup (b : Block) (id : Nat) : Except Err Nat :=
  if id > BLOCK_IDX_MASK then .error .idRange
  else if b.Length > BLOCK_FULL_LENGTH then
    let hilo := id &&& BLOCK_PACKING_MASK
    let idx := id >>> BLOCK_PACKING_BITS
    if idx < b.Values.length then
      .ok (((b.Values.getD idx 0) >>> (hilo * BLOCK_VAL_BITS)) &&& BLOCK_VAL_MASK)
    else .error .oobSlice
  else
    if b.Length ≤ b.Values.length then
      let lb := search (b.Values.take b.Length) id
      .ok (if lb >>> BLOCK_VAL_BITS = id then lb &&& BLOCK_VAL_MASK else 0)
    else .error .oobSlice

/-- Inner cell scan of array-mode `Block.UnAppend`: Go's `for j := 1; j ≥ 0`
loop over the two cells of a word, highest first. -/
def unScanWord (v : Nat) : Option (Nat × Nat) :=
  let v1 := (v >>> BLOCK_VAL_BITS) &&& BLOCK_VAL_MASK
  if v1 > 0 then some (1, v1)
  else
    let v0 := v &&& BLOCK_VAL_MASK
    if v0 > 0 then some (0, v0) else none

/-- Outer word scan of array-mode `Block.UnAppend`: Go's
`for i := FULL - 1; i ≥ 0; i--`.  `unScan vals n` scans words
`n-1, n-2, …, 0`. -/
def unScan (vals : List Nat) : Nat → Nat × Nat
  | 0 => (0, 0)
  | i + 1 =>
    let v := vals.getD i 0
    if v > 0 then
      match unScanWord v with
      | some (j, vj) => ((i <<< BLOCK_PACKING_BITS) ||| j, vj)
      | none => unScan vals i
    else unScan vals i

/-- `Block.UnAppend` from the source.  In array mode the highest non-zero cell
is located (but, exactly as in the source, *not* cleared); in pairs mode the
last pair is popped.  Returns `(idx, val, updated block)`. -/
def Block.UnAppend (b : Block) : Except Err (Nat × Nat × Block) :=
  if b.Frozen then .error .frozen
  else
    let r :=
      if b.Length > BLOCK_FULL_LENGTH then
        (unScan b.Values BLOCK_FULL_LENGTH, b)
      else if b.Length > 0 then
        let kv := b.Values.getD (b.Length - 1) 0
        ((kv >>> BLOCK_VAL_BITS, kv &&& BLOCK_VAL_MASK), { b with Length := b.Length - 1 })
      else ((0, 0), b)
    if r.1.1 > BLOCK_IDX_MASK then .error .idRange
    else if r.1.2 > BLOCK_VAL_MASK then .error .valRange
    else .ok (r.1.1, r.1.2, r.2)

/-- `Block.CopyFrom` from the source: reset the receiver, then copy the other
block's words into the receiver's (larger) buffer and adopt its length. -/
def Block.CopyFrom (b b2 : Block) : Except Err Block :=
  if b.Frozen then .error .frozen
  else if b.Values.length < b2.Values.length then .error .copySize
  else .ok { b with Length := b2.Length,
                    Values := b2.Values ++ List.replicate (b.Values.length - b2.Values.length) 0 }

/-- The `Iterator` structure from the source: a block plus a cursor. -/
structure Iterator : Type where
  block : Block
  idx : Nat
  deriving Repr

/-- `Iterator.Valid` from the source. -/
def Iterator.Valid (i : Iterator) : Bool := i.idx < i.block.Length

/-- `Iterator.Index` from the source. -/
def Iterator.Index (i : Iterator) : Nat :=
  if i.block.Length > BLOCK_FULL_LENGTH then i.idx
  else (i.block.Values.getD i.idx 0) >>> BLOCK_VAL_BITS

/-- `Iterator.Value` from the source. -/
def Iterator.Value (i : Iterator) : Nat :=
  if i.block.Length > BLOCK_FULL_LENGTH then
    let hilo := i.idx &&& BLOCK_PACKING_MASK
    let idx := i.idx >>> BLOCK_PACKING_BITS
    ((i.block.Values.getD idx 0) >>> (hilo * BLOCK_VAL_BITS)) &&& BLOCK_VAL_MASK
  else (i.block.Values.getD i.idx 0) &&& BLOCK_VAL_MASK

/-- The word scan of array-mode `Iterator.Next`: Go's
`for j := idx; j < FULL; j++` with the two-cell inner loop and the
`ii > i.idx` guard.  `n` counts the words still to scan, so the call in
`Iterator.Next` passes `n = BLOCK_FULL_LENGTH - j`. -/
def arrayNextAux (vals : List Nat) (origIdx : Nat) : Nat → Nat → Nat
  | _, 0 => 1 <<< BLOCK_IDX_BITS
  | j, n + 1 =>
    if vals.getD j 0 > 0 then
      if ((vals.getD j 0) >>> (0 * BLOCK_VAL_BITS)) &&& BLOCK_VAL_MASK > 0
          ∧ ((j <<< BLOCK_PACKING_BITS) ||| 0) > origIdx then
        (j <<< BLOCK_PACKING_BITS) ||| 0
      else if ((vals.getD j 0) >>> (1 * BLOCK_VAL_BITS)) &&& BLOCK_VAL_MASK > 0
          ∧ ((j <<< BLOCK_PACKING_BITS) ||| 1) > origIdx then
        (j <<< BLOCK_PACKING_BITS) ||| 1
      else arrayNextAux vals origIdx (j + 1) n
    else arrayNextAux vals origIdx (j + 1) n

/-- `Iterator.Next` from the source: in array mode, advance to the next
non-zero cell strictly beyond the cursor (or to the invalidating index
`2^16`); in pairs mode, step the cursor. -/
def Iterator.Next (i : Iterator) : Iterator :=
  if i.block.Length > BLOCK_FULL_LENGTH then
    let j := i.idx >>> BLOCK_PACKING_BITS
    { block := i.block, idx := arrayNextAux i.block.Values i.idx j (BLOCK_FULL_LENGTH - j) }
  else { block := i.block, idx := i.idx + 1 }

/-- `Block.Iterator` from the source: an iterator at the beginning. -/
def Block.Iterator (b : Block) : Iterator := { block := b, idx := 0 }

/-- The merge loop of `Block.ResetAndMergeFrom`: Go's three `while` loops
(lockstep merge, drain 1, drain 2) expressed as one recursion.  The `fuel`
argument bounds the iteration count; `ResetAndMergeFrom` passes a budget that
provably exceeds any iteration count reachable from well-formed blocks, in
which Go's loop terminates (each step strictly advances a cursor bounded by
the block length). -/
def mergeLoop : Nat → Block → Iterator → Iterator → Except Err Block
  | 0, _, _, _ => .error .fuel
  | fuel + 1, b, it1, it2 =>
    if it1.Valid ∧ it2.Valid then
      if it1.Index < it2.Index then do
        let b ← b.Append it1.Index it1.Value
        mergeLoop fuel b it1.Next it2
      else if it1.Index = it2.Index then do
        let b ← b.Append it1.Index (it1.Value ||| it2.Value)
        mergeLoop fuel b it1.Next it2.Next
      else do
        let b ← b.Append it2.Index it2.Value
        mergeLoop fuel b it1 it2.Next
    else if it1.Valid then do
      let b ← b.Append it1.Index it1.Value
      mergeLoop fuel b it1.Next it2
    else if it2.Valid then do
      let b ← b.Append it2.Index it2.Value
      mergeLoop fuel b it1 it2.Next
    else .ok b

/-- `Block.ResetAndMergeFrom` from the source: reset the receiver, then merge
the two blocks' iterator streams into it in ascending-index order, OR-ing the
values at index ties. -/
def Block.ResetAndMergeFrom (b block1 block2 : Block) : Except Err Block := do
  let b ← b.Reset
  mergeLoop (block1.Length + block2.Length + 1) b block1.Iterator block2.Iterator

/-! ## Abstraction: entry lists

A `Block` reachable by appends is described by its list of `(id, val)`
entries, in append order.  `listOr E id` is the OR of all values recorded
under `id` — the abstract lookup. -/

/-- The OR of all values appended under `id` in the entry list `E`. -/
def listOr (E : List (Nat × Nat)) (id : Nat) : Nat :=
  E.foldl (fun a p => if p.1 = id then a ||| p.2 else a) 0

/-- Entry lists that a pairs-mode block can faithfully hold: strictly
ascending ids, ids and values within 16 bits. -/
def GoodE (E : List (Nat × Nat)) : Prop :=
  E.Pairwise (fun p q => p.1 < q.1) ∧
  ∀ p ∈ E, p.1 ≤ BLOCK_IDX_MASK ∧ p.2 ≤ BLOCK_VAL_MASK

instance : DecidablePred GoodE := fun E => by
  unfold GoodE; infer_instance

/-- The packed words of a pairs-mode block holding the entries `E`. -/
def pairsVals (E : List (Nat × Nat)) : List Nat :=
  E.map (fun p => (p.1 <<< BLOCK_VAL_BITS) ||| p.2)

/-- The packed words of an array-mode block holding the entries `E`. -/
def arrayVals (E : List (Nat × Nat)) : List Nat :=
  E.foldl (fun a p => writePacked a p.1 p.2) (List.replicate BLOCK_FULL_LENGTH 0)

/-- The 16-bit cell `id` of a packed array. -/
def cellVal (vals : List Nat) (id : Nat) : Nat :=
  ((vals.getD (id >>> BLOCK_PACKING_BITS) 0) >>> ((id &&& BLOCK_PACKING_MASK) * BLOCK_VAL_BITS))
    &&& BLOCK_VAL_MASK

/-- A mutable pairs-mode block holding entries `E`, with arbitrary words
`junk` beyond the live region (the accumulation buffer keeps stale words
there; they are never read). -/
def pairsB (E : List (Nat × Nat)) (junk : List Nat) : Block :=
  { Length := E.length, Frozen := false, Values := pairsVals E ++ junk }

/-- A mutable array-mode block holding entries `E`. -/
def arrayB (E : List (Nat × Nat)) : Block :=
  { Length := 1 <<< BLOCK_IDX_BITS, Frozen := false, Values := arrayVals E }

/-- Run a list of appends on a block. -/
def appendList (b : Block) (E : List (Nat × Nat)) : Except Err Block :=
  E.foldlM (fun b p => b.Append p.1 p.2) b

/-! ## Bit-level toolkit -/

theorem shiftRight_lor (a b n : Nat) : (a ||| b) >>> n = (a >>> n) ||| (b >>> n) := by
  apply Nat.eq_of_testBit_eq
  intro i
  simp [Nat.testBit_shiftRight, Nat.testBit_or]

theorem mask_eq : BLOCK_VAL_MASK = 2 ^ 16 - 1 := rfl

theorem idxmask_eq : BLOCK_IDX_MASK = 2 ^ 16 - 1 := rfl

theorem shiftRight_zero_of_lt {v : Nat} (h : v ≤ BLOCK_VAL_MASK) : v >>> 16 = 0 := by
  rw [Nat.shiftRight_eq_div_pow]
  exact Nat.div_eq_of_lt (by rw [mask_eq] at h; omega)

theorem and_mask_of_le {v : Nat} (h : v ≤ BLOCK_VAL_MASK) : v &&& BLOCK_VAL_MASK = v := by
  rw [mask_eq] at h ⊢
  exact Nat.and_pow_two_sub_one_of_lt_two_pow (by omega)

theorem and_mask_le (v : Nat) : v &&& BLOCK_VAL_MASK ≤ BLOCK_VAL_MASK := by
  have h := Nat.and_lt_two_pow v (y := BLOCK_VAL_MASK) (n := 16) (by rw [mask_eq]; omega)
  rw [mask_eq] at h ⊢
  omega

theorem shiftLeft_and_mask (k : Nat) : (k <<< 16) &&& BLOCK_VAL_MASK = 0 := by
  rw [mask_eq, Nat.and_pow_two_sub_one_eq_mod, Nat.shiftLeft_eq, Nat.mul_mod_left]

/-- Upper half of a packed pair. -/
theorem pack_hi {k v : Nat} (hv : v ≤ BLOCK_VAL_MASK) :
    ((k <<< 16) ||| v) >>> 16 = k := by
  rw [shiftRight_lor, Nat.shiftLeft_shiftRight, shiftRight_zero_of_lt hv, Nat.or_zero]

/-- Lower half of a packed pair. -/
theorem pack_lo {k v : Nat} (hv : v ≤ BLOCK_VAL_MASK) :
    ((k <<< 16) ||| v) &&& BLOCK_VAL_MASK = v := by
  rw [Nat.and_distrib_right, shiftLeft_and_mask, and_mask_of_le hv, Nat.zero_or]

/-- The 16-bit cell `h ∈ {0,1}` of a packed word. -/
def extractCell (w h : Nat) : Nat := (w >>> (h * BLOCK_VAL_BITS)) &&& BLOCK_VAL_MASK

theorem extractCell_lor (a b h : Nat) :
    extractCell (a ||| b) h = extractCell a h ||| extractCell b h := by
  unfold extractCell
  rw [shiftRight_lor, Nat.and_distrib_right]

theorem extractCell_zero (h : Nat) : extractCell 0 h = 0 := by
  unfold extractCell
  simp [Nat.zero_shiftRight]

theorem extractCell_le (w h : Nat) : extractCell w h ≤ BLOCK_VAL_MASK := and_mask_le _

theorem extractCell_shiftLeft_same {v : Nat} (hv : v ≤ BLOCK_VAL_MASK) (h : Nat) :
    extractCell (v <<< (h * BLOCK_VAL_BITS)) h = v := by
  unfold extractCell
  rw [Nat.shiftLeft_shiftRight]
  exact and_mask_of_le hv

theorem extractCell_shiftLeft_ne {v : Nat} (hv : v ≤ BLOCK_VAL_MASK) {h h' : Nat}
    (hh : h ≤ 1) (hh' : h' ≤ 1) (hne : h ≠ h') :
    extractCell (v <<< (h * BLOCK_VAL_BITS)) h' = 0 := by
  unfold extractCell
  interval_cases h <;> interval_cases h' <;> simp_all [BLOCK_VAL_BITS]
  · rw [shiftRight_zero_of_lt hv]
    simp [Nat.zero_and]
  · exact shiftLeft_and_mask v

theorem cellVal_eq_extract (vals : List Nat) (id : Nat) :
    cellVal vals id = extractCell (vals.getD (id >>> 1) 0) (id &&& 1) := rfl

/-- `id &&& 1` and `id >>> 1` recover `id`. -/
theorem id_decomp (id : Nat) : id = 2 * (id >>> 1) + (id &&& 1) := by
  rw [Nat.and_one_is_mod, Nat.shiftRight_eq_div_pow]
  omega

theorem and_one_le (id : Nat) : id &&& 1 ≤ 1 := by
  rw [Nat.and_one_is_mod]; omega

theorem idx_lt_full {id : Nat} (h : id ≤ BLOCK_IDX_MASK) : id >>> 1 < BLOCK_FULL_LENGTH := by
  rw [Nat.shiftRight_eq_div_pow]
  have : BLOCK_IDX_MASK = 65535 := rfl
  have : BLOCK_FULL_LENGTH = 32768 := rfl
  omega

/-! ## List access helpers -/

theorem getD_set_eq {a : List Nat} {n : Nat} (h : n < a.length) (x d : Nat) :
    (a.set n x).getD n d = x := by
  simp [List.getD_eq_getElem?_getD, List.getElem?_set_self h]

theorem getD_set_ne {a : List Nat} {n m : Nat} (h : n ≠ m) (x d : Nat) :
    (a.set n x).getD m d = a.getD m d := by
  simp [List.getD_eq_getElem?_getD, List.getElem?_set_ne h]

theorem getD_replicate_zero (n m : Nat) : (List.replicate n 0).getD m 0 = 0 := by
  simp only [List.getD_eq_getElem?_getD, List.getElem?_replicate]
  split <;> simp

/-! ## listOr lemmas -/

theorem listOr_acc (E : List (Nat × Nat)) (a id : Nat) :
    E.foldl (fun a p => if p.1 = id then a ||| p.2 else a) a = a ||| listOr E id := by
  induction E generalizing a with
  | nil =>
    show a = a ||| 0
    rw [Nat.or_zero]
  | cons p E ih =>
    have hr : listOr (p :: E) id
        = (if p.1 = id then (0 : Nat) ||| p.2 else 0) ||| listOr E id := by
      show List.foldl _ (if p.1 = id then (0 : Nat) ||| p.2 else 0) E = _
      exact ih _
    rw [List.foldl_cons, ih, hr]
    by_cases h : p.1 = id
    · rw [if_pos h, if_pos h, Nat.zero_or, Nat.or_assoc]
    · rw [if_neg h, if_neg h, Nat.zero_or]

theorem listOr_cons (p : Nat × Nat) (E : List (Nat × Nat)) (id : Nat) :
    listOr (p :: E) id = (if p.1 = id then p.2 else 0) ||| listOr E id := by
  show List.foldl _ (if p.1 = id then (0 : Nat) ||| p.2 else 0) E = _
  rw [listOr_acc]
  by_cases h : p.1 = id
  · rw [if_pos h, if_pos h, Nat.zero_or]
  · rw [if_neg h, if_neg h, Nat.zero_or]

theorem listOr_append (E1 E2 : List (Nat × Nat)) (id : Nat) :
    listOr (E1 ++ E2) id = listOr E1 id ||| listOr E2 id := by
  simp only [listOr, List.foldl_append]
  rw [listOr_acc]
  rfl

theorem listOr_singleton (i v id : Nat) :
    listOr [(i, v)] id = if i = id then v else 0 := by
  rw [listOr_cons]
  simp [listOr]

theorem listOr_eq_zero_of_not_mem {E : List (Nat × Nat)} {id : Nat}
    (h : ∀ p ∈ E, p.1 ≠ id) : listOr E id = 0 := by
  induction E with
  | nil => rfl
  | cons p E ih =>
    rw [listOr_cons, if_neg (h p (List.mem_cons_self p E)), ih fun q hq => h q (List.mem_cons_of_mem p hq)]
    rfl

theorem listOr_le_mask {E : List (Nat × Nat)} (hE : ∀ p ∈ E, p.2 ≤ BLOCK_VAL_MASK) (id : Nat) :
    listOr E id ≤ BLOCK_VAL_MASK := by
  induction E with
  | nil => exact Nat.zero_le _
  | cons p E ih =>
    rw [listOr_cons]
    have h1 : (if p.1 = id then p.2 else 0) ≤ BLOCK_VAL_MASK := by
      split
      · exact hE p (List.mem_cons_self p E)
      · exact Nat.zero_le _
    have h2 := ih fun q hq => hE q (List.mem_cons_of_mem p hq)
    rw [mask_eq] at h1 h2 ⊢
    have := Nat.or_lt_two_pow (x := if p.1 = id then p.2 else 0) (y := listOr E id) (n := 16)
      (by omega) (by omega)
    omega

theorem listOr_eq_of_mem_strict {E : List (Nat × Nat)} {id v : Nat}
    (hp : E.Pairwise (fun p q => p.1 < q.1)) (hm : (id, v) ∈ E) : listOr E id = v := by
  induction E with
  | nil => cases hm
  | cons p E ih =>
    rw [List.pairwise_cons] at hp
    rcases List.mem_cons.mp hm with h | h
    · subst h
      rw [listOr_cons, if_pos rfl,
        listOr_eq_zero_of_not_mem (fun q hq => Nat.ne_of_gt (hp.1 q hq)), Nat.or_zero]
    · have hne : p.1 ≠ id := by
        have := hp.1 _ h
        omega
      rw [listOr_cons, if_neg hne, ih hp.2 h, Nat.zero_or]

/-! ## writePacked and cell lemmas -/

theorem writePacked_length (a : List Nat) (i v : Nat) :
    (writePacked a i v).length = a.length := by
  simp [writePacked]

theorem cellVal_writePacked {a : List Nat} (ha : a.length = BLOCK_FULL_LENGTH)
    {i v : Nat} (hi : i ≤ BLOCK_IDX_MASK) (hv : v ≤ BLOCK_VAL_MASK) {id : Nat}
    (hid : id ≤ BLOCK_IDX_MASK) :
    cellVal (writePacked a i v) id = if id = i then cellVal a id ||| v else cellVal a id := by
  have hwi : i >>> 1 < a.length := ha ▸ idx_lt_full hi
  simp only [cellVal, writePacked, BLOCK_PACKING_BITS, BLOCK_PACKING_MASK]
  by_cases hw : id >>> 1 = i >>> 1
  · by_cases hc : id &&& 1 = i &&& 1
    · have hideq : id = i := by
        have h1 := id_decomp id
        have h2 := id_decomp i
        omega
      subst hideq
      rw [if_pos rfl, getD_set_eq hwi]
      show extractCell _ (id &&& 1) = extractCell _ (id &&& 1) ||| v
      rw [extractCell_lor, extractCell_shiftLeft_same hv]
    · have hne : id ≠ i := fun h => hc (h ▸ rfl)
      rw [if_neg hne, hw, getD_set_eq hwi]
      show extractCell _ (id &&& 1) = extractCell _ (id &&& 1)
      rw [extractCell_lor,
        extractCell_shiftLeft_ne hv (and_one_le i) (and_one_le id) (fun h => hc (h.symm)),
        Nat.or_zero]
  · have hne : id ≠ i := fun h => hw (h ▸ rfl)
    rw [if_neg hne, getD_set_ne (fun h => hw h.symm)]

theorem foldl_writePacked_length (E : List (Nat × Nat)) (a : List Nat) :
    (E.foldl (fun a p => writePacked a p.1 p.2) a).length = a.length := by
  induction E generalizing a with
  | nil => rfl
  | cons p E ih => simp [List.foldl_cons, ih, writePacked_length]

theorem arrayVals_length (E : List (Nat × Nat)) : (arrayVals E).length = BLOCK_FULL_LENGTH := by
  unfold arrayVals
  rw [foldl_writePacked_length]
  simp

theorem cellVal_foldl {E : List (Nat × Nat)} (hE : ∀ p ∈ E, p.1 ≤ BLOCK_IDX_MASK ∧ p.2 ≤ BLOCK_VAL_MASK)
    {a : List Nat} (ha : a.length = BLOCK_FULL_LENGTH) {id : Nat} (hid : id ≤ BLOCK_IDX_MASK) :
    cellVal (E.foldl (fun a p => writePacked a p.1 p.2) a) id = cellVal a id ||| listOr E id := by
  induction E generalizing a with
  | nil => simp [listOr]
  | cons p E ih =>
    have hp := hE p (List.mem_cons_self p E)
    have hE2 : ∀ q ∈ E, q.1 ≤ BLOCK_IDX_MASK ∧ q.2 ≤ BLOCK_VAL_MASK :=
      fun q hq => hE q (List.mem_cons_of_mem p hq)
    have ha2 : (writePacked a p.1 p.2).length = BLOCK_FULL_LENGTH := by
      rw [writePacked_length]; exact ha
    simp only [List.foldl_cons]
    rw [ih hE2 ha2, cellVal_writePacked ha hp.1 hp.2 hid, listOr_cons]
    by_cases h : id = p.1
    · rw [if_pos h, if_pos h.symm, Nat.or_assoc]
    · rw [if_neg h, if_neg (fun hh => h hh.symm), Nat.zero_or]

theorem cellVal_replicate_zero (id : Nat) : cellVal (List.replicate BLOCK_FULL_LENGTH 0) id = 0 := by
  unfold cellVal
  rw [getD_replicate_zero]
  exact extractCell_zero _

theorem cellVal_arrayVals {E : List (Nat × Nat)}
    (hE : ∀ p ∈ E, p.1 ≤ BLOCK_IDX_MASK ∧ p.2 ≤ BLOCK_VAL_MASK) {id : Nat}
    (hid : id ≤ BLOCK_IDX_MASK) :
    cellVal (arrayVals E) id = listOr E id := by
  unfold arrayVals
  rw [cellVal_foldl hE (by simp) hid, cellVal_replicate_zero, Nat.zero_or]

theorem cellVal_le (vals : List Nat) (id : Nat) : cellVal vals id ≤ BLOCK_VAL_MASK :=
  and_mask_le _

/-! ## Canonical append-step lemmas

A block built by appends from a fresh accumulation block is in one of two
canonical shapes: `pairsB E junk` (pairs mode, entries `E`, stale words `junk`)
or `arrayB E` (array mode).  The three lemmas below are the three branches of
`Block.Append`. -/

theorem pairsVals_length (E : List (Nat × Nat)) : (pairsVals E).length = E.length :=
  List.length_map E _

theorem append_pairsB {E : List (Nat × Nat)} {junk : List Nat} {i v : Nat}
    (hlen : E.length < BLOCK_FULL_LENGTH) (hj : junk ≠ [])
    (hi : i ≤ BLOCK_IDX_MASK) (hv : v ≤ BLOCK_VAL_MASK) :
    (pairsB E junk).Append i v = .ok (pairsB (E ++ [(i, v)]) junk.tail) := by
  obtain ⟨j, t, rfl⟩ : ∃ j t, junk = j :: t := by
    cases junk with
    | nil => exact absurd rfl hj
    | cons j t => exact ⟨j, t, rfl⟩
  unfold Block.Append pairsB
  rw [if_neg (by omega), if_neg (by omega), if_neg (by simp)]
  have hL : (pairsVals E ++ j :: t).length = E.length + (t.length + 1) := by
    simp [pairsVals_length]
  rw [if_neg (by simp only []; omega), if_pos (by simp only []; exact hlen),
    if_pos (by simp only []; omega)]
  simp only [Except.ok.injEq]
  congr 1
  · simp
  · rw [List.set_append_right _ _ (by rw [pairsVals_length])]
    simp only [pairsVals_length, Nat.sub_self, List.set_cons_zero]
    simp [pairsVals]

theorem unpack_foldl {E : List (Nat × Nat)}
    (hE : ∀ p ∈ E, p.1 ≤ BLOCK_IDX_MASK ∧ p.2 ≤ BLOCK_VAL_MASK) (a : List Nat) :
    (pairsVals E).foldl
        (fun t kv => writePacked t (kv >>> BLOCK_VAL_BITS) (kv &&& BLOCK_VAL_MASK)) a
      = E.foldl (fun t p => writePacked t p.1 p.2) a := by
  induction E generalizing a with
  | nil => rfl
  | cons p E ih =>
    have hp := hE p (List.mem_cons_self p E)
    show List.foldl _ (writePacked a _ _) _ = _
    rw [pack_hi hp.2, pack_lo hp.2]
    exact ih (fun q hq => hE q (List.mem_cons_of_mem p hq)) _

theorem append_pairsB_full {E : List (Nat × Nat)} {i v : Nat}
    (hE : ∀ p ∈ E, p.1 ≤ BLOCK_IDX_MASK ∧ p.2 ≤ BLOCK_VAL_MASK)
    (hlen : E.length = BLOCK_FULL_LENGTH)
    (hi : i ≤ BLOCK_IDX_MASK) (hv : v ≤ BLOCK_VAL_MASK) :
    (pairsB E []).Append i v = .ok (arrayB (E ++ [(i, v)])) := by
  unfold Block.Append pairsB
  simp only [List.append_nil]
  rw [if_neg (by omega), if_neg (by omega), if_neg (by simp)]
  rw [if_neg (by show ¬ E.length > BLOCK_FULL_LENGTH; omega),
    if_neg (by show ¬ E.length < BLOCK_FULL_LENGTH; omega)]
  have hvl : (pairsVals E).length = BLOCK_FULL_LENGTH := by
    rw [pairsVals_length, hlen]
  have htmp : (pairsVals E).foldl
      (fun t kv => writePacked t (kv >>> BLOCK_VAL_BITS) (kv &&& BLOCK_VAL_MASK))
      (List.replicate BLOCK_FULL_LENGTH 0) = arrayVals E := unpack_foldl hE _
  have h1 : arrayVals (E ++ [(i, v)]) = writePacked (arrayVals E) i v := by
    unfold arrayVals
    rw [List.foldl_append]
    rfl
  have h3 : (arrayVals (E ++ [(i, v)])).length = BLOCK_FULL_LENGTH := arrayVals_length _
  simp only [arrayB, Except.ok.injEq, Block.mk.injEq]
  refine ⟨trivial, trivial, ?_⟩
  rw [htmp, hvl, Nat.min_self, ← h1, ← h3, List.take_length, h3, ← hvl,
    List.drop_length, List.append_nil]

theorem append_arrayB {E : List (Nat × Nat)} {i v : Nat}
    (hi : i ≤ BLOCK_IDX_MASK) (hv : v ≤ BLOCK_VAL_MASK) :
    (arrayB E).Append i v = .ok (arrayB (E ++ [(i, v)])) := by
  unfold Block.Append arrayB
  rw [if_neg (by omega), if_neg (by omega), if_neg (by simp)]
  rw [if_pos (by show (1 : Nat) <<< BLOCK_IDX_BITS > BLOCK_FULL_LENGTH; decide),
    if_neg (by
      show ¬ i ≥ (1 : Nat) <<< BLOCK_IDX_BITS
      have h16 : (1 : Nat) <<< BLOCK_IDX_BITS = 65536 := rfl
      have hm : BLOCK_IDX_MASK = 65535 := rfl
      omega)]
  simp only [Except.ok.injEq, Block.mk.injEq]
  refine ⟨trivial, trivial, ?_⟩
  unfold arrayVals
  rw [List.foldl_append]
  rfl

/-- The canonical accumulation-block shape after appending the entry list `E`
to a fresh accumulation block. -/
def accOf (E : List (Nat × Nat)) : Block :=
  if E.length ≤ BLOCK_FULL_LENGTH then
    pairsB E (List.replicate (BLOCK_FULL_LENGTH - E.length) 0)
  else arrayB E

theorem accOf_nil : accOf [] = NewAccumulationBlock := by
  unfold accOf pairsB NewAccumulationBlock pairsVals
  rw [if_pos (by simp)]
  simp

theorem accOf_append {E : List (Nat × Nat)} {i v : Nat}
    (hE : ∀ p ∈ E, p.1 ≤ BLOCK_IDX_MASK ∧ p.2 ≤ BLOCK_VAL_MASK)
    (hi : i ≤ BLOCK_IDX_MASK) (hv : v ≤ BLOCK_VAL_MASK) :
    (accOf E).Append i v = .ok (accOf (E ++ [(i, v)])) := by
  have hlen2 : (E ++ [(i, v)]).length = E.length + 1 := by
    rw [List.length_append, List.length_singleton]
  rcases Nat.lt_trichotomy E.length BLOCK_FULL_LENGTH with h | h | h
  · have c1 : E.length ≤ BLOCK_FULL_LENGTH := Nat.le_of_lt h
    have c2 : (E ++ [(i, v)]).length ≤ BLOCK_FULL_LENGTH := by omega
    rw [accOf, if_pos c1, accOf, if_pos c2]
    have hj : List.replicate (BLOCK_FULL_LENGTH - E.length) 0 ≠ ([] : List Nat) := by
      intro hc
      have := congrArg List.length hc
      simp only [List.length_replicate, List.length_nil] at this
      omega
    rw [append_pairsB h hj hi hv]
    have hrep : (List.replicate (BLOCK_FULL_LENGTH - E.length) 0).tail
        = List.replicate (BLOCK_FULL_LENGTH - (E ++ [(i, v)]).length) 0 := by
      cases hr : BLOCK_FULL_LENGTH - E.length with
      | zero => omega
      | succ n =>
        rw [List.replicate_succ, List.tail_cons]
        congr 1
        omega
    rw [hrep]
  · have c1 : E.length ≤ BLOCK_FULL_LENGTH := Nat.le_of_eq h
    have c2 : ¬ (E ++ [(i, v)]).length ≤ BLOCK_FULL_LENGTH := by omega
    rw [accOf, if_pos c1, accOf, if_neg c2]
    rw [show BLOCK_FULL_LENGTH - E.length = 0 by omega, List.replicate_zero]
    exact append_pairsB_full hE h hi hv
  · have c1 : ¬ E.length ≤ BLOCK_FULL_LENGTH := by omega
    have c2 : ¬ (E ++ [(i, v)]).length ≤ BLOCK_FULL_LENGTH := by omega
    rw [accOf, if_neg c1, accOf, if_neg c2]
    exact append_arrayB hi hv

theorem appendList_append (b : Block) (E1 E2 : List (Nat × Nat)) :
    appendList b (E1 ++ E2) = (appendList b E1).bind (fun b => appendList b E2) := by
  unfold appendList
  induction E1 generalizing b with
  | nil =>
    cases appendList b E2 <;> rfl
  | cons p E1 ih =>
    simp only [List.cons_append, List.foldlM_cons]
    cases b.Append p.1 p.2 with
    | error e => rfl
    | ok b2 => exact ih b2

/-! ## Binary-search correctness -/

theorem search_mem_aux (n : Nat) :
    ∀ (arr : List Nat) (lb : Nat), arr.length ≤ n → arr ≠ [] → search arr lb ∈ arr := by
  induction n with
  | zero =>
    intro arr lb hle hne
    cases arr with
    | nil => exact absurd rfl hne
    | cons x xs => simp at hle
  | succ n ih =>
    intro arr lb hle hne
    have h0 : ¬ arr.length = 0 := fun h => hne (List.length_eq_zero.mp h)
    rw [search.eq_def, dif_neg h0]
    by_cases h1 : arr.length = 1
    · rw [dif_pos h1]
      obtain ⟨x, rfl⟩ := List.length_eq_one.mp h1
      exact List.mem_singleton_self x
    · rw [dif_neg h1]
      have h2 : 2 ≤ arr.length := by omega
      split
      · have hlen : (arr.take (arr.length / 2)).length ≤ n := by
          rw [List.length_take]; omega
        have hne2 : arr.take (arr.length / 2) ≠ [] := by
          refine List.length_pos.mp ?_
          rw [List.length_take]
          omega
        exact List.take_subset _ _ (ih _ lb hlen hne2)
      · have hlen : (arr.drop (arr.length / 2)).length ≤ n := by
          rw [List.length_drop]; omega
        have hne2 : arr.drop (arr.length / 2) ≠ [] := by
          refine List.length_pos.mp ?_
          rw [List.length_drop]
          omega
        exact List.drop_subset _ _ (ih _ lb hlen hne2)

theorem search_mem {arr : List Nat} {lb : Nat} (hne : arr ≠ []) : search arr lb ∈ arr :=
  search_mem_aux arr.length arr lb (Nat.le_refl _) hne

/-- The relation between packed words that mirrors strictly ascending ids. -/
def UpLT (a b : Nat) : Prop := a >>> BLOCK_VAL_BITS < b >>> BLOCK_VAL_BITS

theorem search_hit_aux (n : Nat) :
    ∀ (arr : List Nat) (lb w : Nat), arr.length ≤ n → arr.Pairwise UpLT →
      w ∈ arr → w >>> BLOCK_VAL_BITS = lb → search arr lb = w := by
  induction n with
  | zero =>
    intro arr lb w hle hp hm hw
    cases arr with
    | nil => cases hm
    | cons x xs => simp at hle
  | succ n ih =>
    intro arr lb w hle hp hm hw
    have h0 : ¬ arr.length = 0 := by
      intro h
      rw [List.length_eq_zero.mp h] at hm
      cases hm
    rw [search.eq_def, dif_neg h0]
    by_cases h1 : arr.length = 1
    · rw [dif_pos h1]
      obtain ⟨x, rfl⟩ := List.length_eq_one.mp h1
      rw [List.mem_singleton.mp hm]
      rfl
    · rw [dif_neg h1]
      have h2 : 2 ≤ arr.length := by omega
      have hmidlt : arr.length / 2 < arr.length := by omega
      have hmid1 : 1 ≤ arr.length / 2 := by omega
      have hgetd : arr.getD (arr.length / 2) 0 = arr.get ⟨arr.length / 2, hmidlt⟩ := by
        simp [List.getD_eq_getElem?_getD, List.getElem?_eq_getElem hmidlt]
      have hdropeq : arr.drop (arr.length / 2)
          = arr.get ⟨arr.length / 2, hmidlt⟩ :: arr.drop (arr.length / 2 + 1) := by
        rw [List.drop_eq_getElem_cons hmidlt]
        rfl
      have hsplit : arr.take (arr.length / 2) ++ arr.drop (arr.length / 2) = arr :=
        List.take_append_drop _ _
      have hptake : (arr.take (arr.length / 2)).Pairwise UpLT :=
        hp.sublist (List.take_sublist _ _)
      have hpdrop : (arr.drop (arr.length / 2)).Pairwise UpLT :=
        hp.sublist (List.drop_sublist _ _)
      split
      · rename_i hlt
        rw [hgetd] at hlt
        -- the hit must be in the left half
        have hmtake : w ∈ arr.take (arr.length / 2) := by
          rcases (List.mem_append.mp (hsplit ▸ hm)) with h | h
          · exact h
          · exfalso
            rw [hdropeq] at h
            rcases List.mem_cons.mp h with h | h
            · rw [h] at hw
              omega
            · have := (List.pairwise_cons.mp (hdropeq ▸ hpdrop)).1 w h
              unfold UpLT at this
              omega
        exact ih _ lb w (by rw [List.length_take]; omega) hptake hmtake hw
      · rename_i hge
        rw [hgetd] at hge
        -- the hit must be in the right half
        have hmdrop : w ∈ arr.drop (arr.length / 2) := by
          rcases (List.mem_append.mp (hsplit ▸ hm)) with h | h
          · exfalso
            have hmem_mid : arr.get ⟨arr.length / 2, hmidlt⟩ ∈ arr.drop (arr.length / 2) := by
              rw [hdropeq]
              exact List.mem_cons_self _ _
            have hpw := (List.pairwise_append.mp (hsplit ▸ hp)).2.2 w h _ hmem_mid
            unfold UpLT at hpw
            omega
          · exact h
        exact ih _ lb w (by rw [List.length_drop]; omega) hpdrop hmdrop hw

theorem search_hit {arr : List Nat} {lb w : Nat} (hp : arr.Pairwise UpLT)
    (hm : w ∈ arr) (hw : w >>> BLOCK_VAL_BITS = lb) : search arr lb = w :=
  search_hit_aux arr.length arr lb w (Nat.le_refl _) hp hm hw

/-! ## Block.Lookup correctness on canonical shapes -/

theorem pairsVals_pairwise {E : List (Nat × Nat)} (hE : GoodE E) :
    (pairsVals E).Pairwise UpLT := by
  unfold pairsVals
  rw [List.pairwise_map]
  have hb := hE.2
  refine (hE.1.imp_of_mem ?_)
  intro p q hpm hqm hlt
  unfold UpLT
  rw [pack_hi (hb p hpm).2, pack_hi (hb q hqm).2]
  exact hlt

theorem lookup_pairsB {E : List (Nat × Nat)} {junk : List Nat} {id : Nat}
    (hE : GoodE E) (hlen : E.length ≤ BLOCK_FULL_LENGTH) (hid : id ≤ BLOCK_IDX_MASK) :
    (pairsB E junk).Lookup id = .ok (listOr E id) := by
  unfold Block.Lookup pairsB
  rw [if_neg (by omega),
    if_neg (by show ¬ E.length > BLOCK_FULL_LENGTH; omega),
    if_pos (by
      show E.length ≤ (pairsVals E ++ junk).length
      rw [List.length_append, pairsVals_length]
      omega)]
  have htake : (pairsVals E ++ junk).take E.length = pairsVals E := by
    rw [← pairsVals_length E, List.take_left]
  rw [htake]
  show Except.ok (if (search (pairsVals E) id) >>> BLOCK_VAL_BITS = id
      then (search (pairsVals E) id) &&& BLOCK_VAL_MASK else 0) = Except.ok (listOr E id)
  by_cases hcase : ∃ p ∈ E, p.1 = id
  · obtain ⟨p, hmem, hp1⟩ := hcase
    have hv := (hE.2 _ hmem).2
    have hw : ((p.1 <<< BLOCK_VAL_BITS) ||| p.2) ∈ pairsVals E :=
      List.mem_map.mpr ⟨p, hmem, rfl⟩
    rw [search_hit (pairsVals_pairwise hE) hw (by rw [pack_hi hv, hp1])]
    rw [if_pos (by rw [pack_hi hv, hp1]), pack_lo hv]
    have hpe : (id, p.2) ∈ E := by rw [← hp1]; exact hmem
    rw [listOr_eq_of_mem_strict hE.1 hpe]
  · push_neg at hcase
    rw [listOr_eq_zero_of_not_mem hcase]
    rcases List.eq_nil_or_concat E with rfl | hconc
    · have h0 : search (pairsVals []) id = 0 := by
        rw [search.eq_def, dif_pos (show (pairsVals ([] : List (Nat × Nat))).length = 0 from rfl)]
      rw [h0]
      split <;> rfl
    · have hne : pairsVals E ≠ [] := by
        refine List.length_pos.mp ?_
        rw [pairsVals_length]
        obtain ⟨l2, p2, rfl⟩ := hconc
        simp
      have hmm : search (pairsVals E) id ∈ pairsVals E := search_mem hne
      obtain ⟨p, hpm, hpack0⟩ := List.mem_map.mp hmm
      have hpack : (p.1 <<< BLOCK_VAL_BITS) ||| p.2 = search (pairsVals E) id := hpack0
      rw [← hpack, if_neg (by rw [pack_hi (hE.2 p hpm).2]; exact hcase p hpm)]

theorem lookup_arrayB {E : List (Nat × Nat)} {id : Nat}
    (hE : ∀ p ∈ E, p.1 ≤ BLOCK_IDX_MASK ∧ p.2 ≤ BLOCK_VAL_MASK)
    (hid : id ≤ BLOCK_IDX_MASK) :
    (arrayB E).Lookup id = .ok (listOr E id) := by
  unfold Block.Lookup arrayB
  rw [if_neg (by omega),
    if_pos (by show (1 : Nat) <<< BLOCK_IDX_BITS > BLOCK_FULL_LENGTH; decide),
    if_pos (by rw [arrayVals_length]; exact idx_lt_full hid)]
  show Except.ok (cellVal (arrayVals E) id) = _
  rw [cellVal_arrayVals hE hid]

theorem lookup_accOf {E : List (Nat × Nat)} {id : Nat} (hE : GoodE E)
    (hid : id ≤ BLOCK_IDX_MASK) :
    (accOf E).Lookup id = .ok (listOr E id) := by
  unfold accOf
  split
  · exact lookup_pairsB hE (by omega) hid
  · exact lookup_arrayB hE.2 hid

theorem search_one (w lb : Nat) : search [w] lb = w := by
  rw [search.eq_def, dif_neg (by simp), dif_pos (by simp)]
  rfl

theorem search_two (w1 w2 lb : Nat) :
    search [w1, w2] lb = if lb < w2 >>> BLOCK_VAL_BITS then w1 else w2 := by
  rw [search.eq_def, dif_neg (by simp), dif_neg (by simp)]
  norm_num
  by_cases h : lb < w2 >>> BLOCK_VAL_BITS
  · rw [if_pos h, if_pos h, search_one]
  · rw [if_neg h, if_neg h, search_one]

/-- Running a list of (bounded) appends on a fresh accumulation block lands in
the canonical shape `accOf E`. -/
theorem appendList_acc {E : List (Nat × Nat)}
    (hE : ∀ p ∈ E, p.1 ≤ BLOCK_IDX_MASK ∧ p.2 ≤ BLOCK_VAL_MASK) :
    appendList NewAccumulationBlock E = .ok (accOf E) := by
  induction E using List.reverseRecOn with
  | nil => rw [accOf_nil]; rfl
  | append_singleton E p ih =>
    have hE1 : ∀ q ∈ E, q.1 ≤ BLOCK_IDX_MASK ∧ q.2 ≤ BLOCK_VAL_MASK :=
      fun q hq => hE q (List.mem_append_left _ hq)
    have hp := hE p (List.mem_append_right _ (List.mem_singleton_self p))
    rw [appendList_append, ih hE1]
    show appendList (accOf E) [p] = _
    unfold appendList
    simp only [List.foldlM_cons, List.foldlM_nil]
    rw [accOf_append hE1 hp.1 hp.2]
    rfl

/-! ## Claim C1 -/

/-- C1 (amended): for any sequence of strictly ascending-ID appends to a fresh
accumulation Block (each id < 2^16, each val < 2^16, each id appended at most
once), the appends all succeed and `Block.Lookup id` returns the OR of all
vals appended under `id` (`listOr`), and 0 for any id never appended,
regardless of whether the block is in pairs or array mode at query time. -/
theorem C1_block_append_lookup {E : List (Nat × Nat)} (hE : GoodE E) :
    ∃ b, appendList NewAccumulationBlock E = .ok b ∧
      ∀ id, id ≤ BLOCK_IDX_MASK → b.Lookup id = .ok (listOr E id) :=
  ⟨accOf E, appendList_acc hE.2, fun _ hid => lookup_accOf hE hid⟩

/-- C1 witness: the amended theorem applied at a concrete strictly ascending
append sequence. -/
theorem C1_block_append_lookup_witness :
    GoodE [(2, 15), (7, 1)] ∧
    ∃ b, appendList NewAccumulationBlock [(2, 15), (7, 1)] = .ok b ∧
      ∀ id, id ≤ BLOCK_IDX_MASK → b.Lookup id = .ok (listOr [(2, 15), (7, 1)] id) :=
  ⟨by decide, C1_block_append_lookup (by decide)⟩

/-- C1 counterexample: append `(0, 1)` then `(0, 2)` (ascending but not
strictly) to a fresh accumulation block.  The claim says `Lookup 0` returns
the OR of all vals appended under id 0, which is `1 ||| 2 = 3`; but the block,
still in pairs mode, returns 2 — the value of the last pair — because the
binary search lands on the last entry with upper half 0. -/
theorem C1_counterexample :
    appendList NewAccumulationBlock [(0, 1), (0, 2)] = .ok (accOf [(0, 1), (0, 2)])
    ∧ (accOf [(0, 1), (0, 2)]).Lookup 0 = .ok 2
    ∧ (1 : Nat) ||| 2 = 3 := by
  refine ⟨appendList_acc (by decide), ?_, by decide⟩
  have hc : [((0 : Nat), (1 : Nat)), (0, 2)].length ≤ BLOCK_FULL_LENGTH := by decide
  rw [accOf, if_pos hc]
  unfold Block.Lookup pairsB
  have hn1 : ¬ ((0 : Nat) > BLOCK_IDX_MASK) := by decide
  have hn2 : ¬ ([((0 : Nat), (1 : Nat)), (0, 2)].length > BLOCK_FULL_LENGTH) := by decide
  have hp3 : [((0 : Nat), (1 : Nat)), (0, 2)].length
      ≤ (pairsVals [(0, 1), (0, 2)]
          ++ List.replicate (BLOCK_FULL_LENGTH - [((0 : Nat), (1 : Nat)), (0, 2)].length)
            0).length := by
    rw [List.length_append, pairsVals_length]
    omega
  rw [if_neg hn1, if_neg hn2, if_pos hp3]
  have htake : (pairsVals [((0 : Nat), (1 : Nat)), (0, 2)]
      ++ List.replicate (BLOCK_FULL_LENGTH - [((0 : Nat), (1 : Nat)), (0, 2)].length) 0).take
        [((0 : Nat), (1 : Nat)), (0, 2)].length = pairsVals [(0, 1), (0, 2)] := by
    rw [← pairsVals_length, List.take_left]
  rw [htake]
  have hpv : pairsVals [((0 : Nat), (1 : Nat)), (0, 2)] = [1, 2] := by decide
  rw [hpv]
  show Except.ok (if (search [1, 2] 0) >>> BLOCK_VAL_BITS = 0
      then (search [1, 2] 0) &&& BLOCK_VAL_MASK else 0) = Except.ok 2
  rw [search_two]
  have h1 : ¬ ((0 : Nat) < (2 : Nat) >>> BLOCK_VAL_BITS) := by decide
  rw [if_neg h1]
  have h2 : (2 : Nat) >>> BLOCK_VAL_BITS = 0 := by decide
  rw [if_pos h2]
  rfl

/-! ## Claim C9 -/

/-- C9: for a frozen empty block (as returned by `NewEmptyBlock`, length 0,
zero-length storage), `Lookup id` succeeds with value 0 for every
`id < 2^16` — no panic and no out-of-bounds access. -/
theorem C9_empty_block_lookup (id : Nat) (hid : id < 2 ^ 16) :
    NewEmptyBlock.Lookup id = .ok 0 := by
  unfold Block.Lookup NewEmptyBlock
  rw [if_neg (by show ¬ id > BLOCK_IDX_MASK; rw [idxmask_eq]; omega),
    if_neg (by decide), if_pos (by decide)]
  have h0 : search (([] : List Nat).take 0) id = 0 := by
    rw [search.eq_def, dif_pos (by decide)]
  show Except.ok (if (search (([] : List Nat).take 0) id) >>> BLOCK_VAL_BITS = id
      then (search (([] : List Nat).take 0) id) &&& BLOCK_VAL_MASK else 0) = Except.ok 0
  rw [h0]
  split <;> rfl

/-- C9 witness: the empty-block lookup theorem applied at a concrete id. -/
theorem C9_empty_block_lookup_witness :
    (7 : Nat) < 2 ^ 16 ∧ NewEmptyBlock.Lookup 7 = .ok 0 :=
  ⟨by decide, C9_empty_block_lookup 7 (by decide)⟩

/-! ## Iterator streams

An `Iterator` over a block yields a finite stream of `(Index, Value)` pairs.
`ItStream it s` says the iterator `it`, stepped with `Next` until invalid,
yields exactly the list `s`. -/

inductive ItStream : Iterator → List (Nat × Nat) → Prop where
  | nil {it : Iterator} (h : it.Valid = false) : ItStream it []
  | cons {it : Iterator} {s : List (Nat × Nat)} {i v : Nat}
      (hv : it.Valid = true) (hi : it.Index = i) (hval : it.Value = v)
      (hs : ItStream it.Next s) : ItStream it ((i, v) :: s)

/-- In pairs mode, the iterator at position `k` streams the entries from
position `k` on. -/
theorem pairs_stream {E : List (Nat × Nat)} {b : Block}
    (hL : b.Length = E.length) (hlen : E.length ≤ BLOCK_FULL_LENGTH)
    (htake : b.Values.take E.length = pairsVals E)
    (hE : ∀ p ∈ E, p.1 ≤ BLOCK_IDX_MASK ∧ p.2 ≤ BLOCK_VAL_MASK) :
    ∀ k, ItStream { block := b, idx := k } (E.drop k) := by
  suffices h : ∀ d k, E.length - k = d → ItStream { block := b, idx := k } (E.drop k) by
    intro k
    exact h _ k rfl
  intro d
  induction d with
  | zero =>
    intro k hd
    have hk : E.length ≤ k := by omega
    rw [List.drop_eq_nil_of_le hk]
    exact ItStream.nil (by
      show decide (k < b.Length) = false
      rw [hL]
      simp
      omega)
  | succ n ih =>
    intro k hd
    have hk : k < E.length := by omega
    have hne : ¬ b.Length > BLOCK_FULL_LENGTH := by omega
    have hgd : b.Values.getD k 0 = (E.get ⟨k, hk⟩).1 <<< BLOCK_VAL_BITS ||| (E.get ⟨k, hk⟩).2 := by
      have h1 : (b.Values.take E.length).getD k 0 = b.Values.getD k 0 := by
        simp only [List.getD_eq_getElem?_getD, List.getElem?_take]
        rw [if_pos hk]
      rw [← h1, htake]
      simp only [List.getD_eq_getElem?_getD, pairsVals]
      rw [List.getElem?_map, List.getElem?_eq_getElem hk]
      rfl
    have hdrop : E.drop k = E.get ⟨k, hk⟩ :: E.drop (k + 1) := by
      rw [List.drop_eq_getElem_cons hk]
      rfl
    rw [hdrop]
    have hmem : E.get ⟨k, hk⟩ ∈ E := List.get_mem E k hk
    refine ItStream.cons ?_ ?_ ?_ ?_
    · show decide (k < b.Length) = true
      rw [hL]
      simp
      omega
    · show Iterator.Index _ = _
      unfold Iterator.Index
      rw [if_neg hne]
      show b.Values.getD k 0 >>> BLOCK_VAL_BITS = _
      rw [hgd, pack_hi (hE _ hmem).2]
    · show Iterator.Value _ = _
      unfold Iterator.Value
      rw [if_neg hne]
      show b.Values.getD k 0 &&& BLOCK_VAL_MASK = _
      rw [hgd, pack_lo (hE _ hmem).2]
    · have hnext : Iterator.Next { block := b, idx := k } = { block := b, idx := k + 1 } := by
        unfold Iterator.Next
        rw [if_neg hne]
      rw [hnext]
      exact ih (k + 1) (by omega)

/-! ## Array-mode iterator correctness -/

theorem cell_pack (j k : Nat) (hk : k ≤ 1) : (j <<< 1) ||| k = 2 * j + k := by
  have h1 : j <<< 1 = 2 * j := by
    rw [Nat.shiftLeft_eq]
    omega
  have h2 := Nat.mul_add_lt_is_or (i := 1) (b := k) (by omega) j
  rw [h1]
  norm_num at h2
  exact h2.symm


theorem cell_unpack (j k : Nat) (hk : k ≤ 1) :
    ((j <<< 1) ||| k) >>> 1 = j ∧ ((j <<< 1) ||| k) &&& 1 = k := by
  rw [cell_pack j k hk, Nat.shiftRight_eq_div_pow, Nat.and_one_is_mod]
  omega

theorem cellVal_pack (vals : List Nat) (j k : Nat) (hk : k ≤ 1) :
    cellVal vals ((j <<< 1) ||| k) = extractCell (vals.getD j 0) k := by
  unfold cellVal
  rw [(cell_unpack j k hk).1, (cell_unpack j k hk).2]
  rfl

theorem arrayNextAux_spec (vals : List Nat) (origIdx : Nat)
    (hidx : origIdx < 1 <<< BLOCK_IDX_BITS) :
    ∀ n j, j + n = BLOCK_FULL_LENGTH →
      (∀ m, origIdx < m → m < 2 * j → cellVal vals m = 0) →
      origIdx < arrayNextAux vals origIdx j n ∧
      arrayNextAux vals origIdx j n ≤ 1 <<< BLOCK_IDX_BITS ∧
      (arrayNextAux vals origIdx j n < 1 <<< BLOCK_IDX_BITS →
        cellVal vals (arrayNextAux vals origIdx j n) ≠ 0) ∧
      (∀ m, origIdx < m → m < arrayNextAux vals origIdx j n → cellVal vals m = 0) := by
  intro n
  induction n with
  | zero =>
    intro j hj hpre
    have h16 : (1 : Nat) <<< BLOCK_IDX_BITS = 65536 := rfl
    have hful : BLOCK_FULL_LENGTH = 32768 := rfl
    have hR : arrayNextAux vals origIdx j 0 = 1 <<< BLOCK_IDX_BITS := rfl
    rw [hR]
    refine ⟨hidx, Nat.le_refl _, fun h => absurd h (Nat.lt_irrefl _), ?_⟩
    intro m h1 h2
    exact hpre m h1 (by omega)
  | succ n ih =>
    intro j hj hpre
    have hjf : j < BLOCK_FULL_LENGTH := by omega
    have hc0 : cellVal vals ((j <<< BLOCK_PACKING_BITS) ||| 0)
        = ((vals.getD j 0) >>> (0 * BLOCK_VAL_BITS)) &&& BLOCK_VAL_MASK :=
      cellVal_pack vals j 0 (by omega)
    have hc1 : cellVal vals ((j <<< BLOCK_PACKING_BITS) ||| 1)
        = ((vals.getD j 0) >>> (1 * BLOCK_VAL_BITS)) &&& BLOCK_VAL_MASK :=
      cellVal_pack vals j 1 (by omega)
    have hp0 : (j <<< BLOCK_PACKING_BITS) ||| 0 = 2 * j := cell_pack j 0 (by omega)
    have hp1 : (j <<< BLOCK_PACKING_BITS) ||| 1 = 2 * j + 1 := cell_pack j 1 (by omega)
    have h16 : (1 : Nat) <<< BLOCK_IDX_BITS = 65536 := rfl
    have hful : BLOCK_FULL_LENGTH = 32768 := rfl
    simp only [arrayNextAux]
    split_ifs with h1 h2 h3
    · -- cell 0 of word j hits
      rw [hp0] at hc0 h2 ⊢
      refine ⟨by omega, by omega, fun _ => ?_, fun m hm1 hm2 => hpre m hm1 (by omega)⟩
      rw [hc0]
      omega
    · -- cell 1 of word j hits
      rw [hp0] at hc0 h2
      rw [hp1] at hc1 h3 ⊢
      refine ⟨by omega, by omega, fun _ => ?_, ?_⟩
      · rw [hc1]
        omega
      · intro m hm1 hm2
        rcases Nat.lt_or_ge m (2 * j) with h | h
        · exact hpre m hm1 h
        · have hmeq : m = 2 * j := by omega
          subst hmeq
          rw [hc0]
          rcases Decidable.not_and_iff_or_not.mp h2 with h5 | h5
          · omega
          · omega
    · -- word j exhausted, both guards failed: recurse
      rw [hp0] at hc0 h2
      rw [hp1] at hc1 h3
      refine ih (j + 1) (by omega) ?_
      intro m hm1 hm2
      rcases Nat.lt_or_ge m (2 * j) with h | h
      · exact hpre m hm1 h
      · rcases Nat.lt_or_ge (2 * j + 1) m with h4 | h4
        · exact absurd h4 (by omega)
        · rcases Nat.lt_or_ge m (2 * j + 1) with h6 | h6
          · have hmeq : m = 2 * j := by omega
            subst hmeq
            rw [hc0]
            rcases Decidable.not_and_iff_or_not.mp h2 with h5 | h5
            · omega
            · omega
          · have hmeq : m = 2 * j + 1 := by omega
            subst hmeq
            rw [hc1]
            rcases Decidable.not_and_iff_or_not.mp h3 with h5 | h5
            · omega
            · omega
    · -- word j is zero: recurse
      have hv0 : vals.getD j 0 = 0 := by omega
      rw [hv0] at hc0 hc1
      rw [hp0] at hc0
      rw [hp1] at hc1
      refine ih (j + 1) (by omega) ?_
      intro m hm1 hm2
      rcases Nat.lt_or_ge m (2 * j) with h | h
      · exact hpre m hm1 h
      · rcases Nat.lt_or_ge m (2 * j + 1) with h6 | h6
        · have hmeq : m = 2 * j := by omega
          subst hmeq
          rw [hc0]
          simp
        · have hmeq : m = 2 * j + 1 := by omega
          subst hmeq
          rw [hc1]
          simp

theorem idx_shift_le {idx : Nat} (h : idx < 1 <<< BLOCK_IDX_BITS) :
    idx >>> 1 ≤ BLOCK_FULL_LENGTH ∧ 2 * (idx >>> 1) ≤ idx := by
  have hd := id_decomp idx
  have h16 : (1 : Nat) <<< BLOCK_IDX_BITS = 65536 := rfl
  have hful : BLOCK_FULL_LENGTH = 32768 := rfl
  constructor <;> omega

/-- The `Next` step of an array-mode iterator, in terms of `arrayNextAux`. -/
theorem array_next_eq {b : Block} (hgt : b.Length > BLOCK_FULL_LENGTH) (idx : Nat) :
    Iterator.Next { block := b, idx := idx }
      = { block := b,
          idx := arrayNextAux b.Values idx (idx >>> 1)
            (BLOCK_FULL_LENGTH - (idx >>> 1)) } := by
  unfold Iterator.Next
  rw [if_pos hgt]

/-- Array-mode iterator stream: from any cursor `idx`, the iterator yields
`(idx, cell idx)` followed by all later non-zero cells in ascending order.
Stated existentially with the properties the merge proof needs. -/
theorem array_stream_aux {b : Block}
    (hL : b.Length = 1 <<< BLOCK_IDX_BITS) :
    ∀ d idx, (1 <<< BLOCK_IDX_BITS) - idx = d → idx < 1 <<< BLOCK_IDX_BITS →
      ∃ s, ItStream { block := b, idx := idx } ((idx, cellVal b.Values idx) :: s) ∧
        (∀ p ∈ s, idx < p.1 ∧ p.1 < 1 <<< BLOCK_IDX_BITS ∧ p.2 = cellVal b.Values p.1) ∧
        ((idx, cellVal b.Values idx) :: s).Pairwise (fun p q => p.1 < q.1) ∧
        (∀ id, idx < id → id < 1 <<< BLOCK_IDX_BITS → listOr s id = cellVal b.Values id) ∧
        (∀ id, id ≤ idx ∨ 1 <<< BLOCK_IDX_BITS ≤ id → listOr s id = 0) := by
  intro d
  induction d using Nat.strong_induction_on with
  | _ d ih =>
    intro idx hd hidx
    have h16 : (1 : Nat) <<< BLOCK_IDX_BITS = 65536 := rfl
    have hful : BLOCK_FULL_LENGTH = 32768 := rfl
    have hsh := idx_shift_le hidx
    have hspec := arrayNextAux_spec b.Values idx hidx
      (BLOCK_FULL_LENGTH - (idx >>> 1)) (idx >>> 1)
      (by omega) (fun m hm1 hm2 => absurd hm2 (by omega))
    set R := arrayNextAux b.Values idx (idx >>> 1)
      (BLOCK_FULL_LENGTH - (idx >>> 1)) with hR
    obtain ⟨hR1, hR2, hR3, hR4⟩ := hspec
    have hvalid : Iterator.Valid { block := b, idx := idx } = true := by
      show decide (idx < b.Length) = true
      rw [hL]
      simp
      omega
    have hgtb : b.Length > BLOCK_FULL_LENGTH := by omega
    have hindex : Iterator.Index { block := b, idx := idx } = idx := by
      unfold Iterator.Index
      rw [if_pos hgtb]
    have hvalue : Iterator.Value { block := b, idx := idx } = cellVal b.Values idx := by
      unfold Iterator.Value cellVal
      rw [if_pos hgtb]
    have hnext := array_next_eq (b := b) hgtb idx
    rcases Nat.lt_or_ge R (1 <<< BLOCK_IDX_BITS) with hRlt | hRge
    · -- a further non-zero cell exists at R
      obtain ⟨s2, hstr, hmem, hpw, hor1, hor2⟩ := ih (1 <<< BLOCK_IDX_BITS - R)
        (by omega) R rfl hRlt
      refine ⟨(R, cellVal b.Values R) :: s2, ?_, ?_, ?_, ?_, ?_⟩
      · refine ItStream.cons hvalid hindex hvalue ?_
        rw [hnext, ← hR]
        exact hstr
      · intro p hp
        rcases List.mem_cons.mp hp with h | h
        · rw [h]
          exact ⟨hR1, hRlt, rfl⟩
        · obtain ⟨ha, hb2, hc⟩ := hmem p h
          exact ⟨by omega, hb2, hc⟩
      · rw [List.pairwise_cons]
        refine ⟨?_, hpw⟩
        intro q hq
        rcases List.mem_cons.mp hq with h | h
        · rw [h]
          exact hR1
        · have := hmem q h
          omega
      · intro id hid1 hid2
        rw [listOr_cons]
        rcases Nat.lt_trichotomy id R with h | h | h
        · rw [if_neg (by omega), hor2 id (Or.inl (by omega)), hR4 id hid1 h]
          rfl
        · rw [if_pos h.symm, hor2 id (Or.inl (by omega)), Nat.or_zero, h]
        · rw [if_neg (by omega), hor1 id h hid2, Nat.zero_or]
      · intro id hid
        rw [listOr_cons, if_neg (by omega)]
        rcases hid with h | h
        · rw [hor2 id (Or.inl (by omega))]
          rfl
        · rw [hor2 id (Or.inr h)]
          rfl
    · -- no further non-zero cell: the stream ends after idx
      have hReq : R = 1 <<< BLOCK_IDX_BITS := by omega
      refine ⟨[], ?_, by simp, ?_, ?_, ?_⟩
      · refine ItStream.cons hvalid hindex hvalue ?_
        rw [hnext, ← hR]
        refine ItStream.nil ?_
        show decide (R < b.Length) = false
        rw [hL]
        simp
        omega
      · simp
      · intro id hid1 hid2
        rw [hR4 id hid1 (by omega)]
        rfl
      · intro id hid
        rfl

theorem length_le_of_pairwise {s : List (Nat × Nat)} {N : Nat}
    (hp : s.Pairwise (fun p q => p.1 < q.1)) (hb : ∀ p ∈ s, p.1 < N) :
    s.length ≤ N := by
  have hids : (s.map Prod.fst).Pairwise (· < ·) := by
    rw [List.pairwise_map]
    exact hp
  have hnd : (s.map Prod.fst).Nodup := hids.imp Nat.ne_of_lt
  have hsub : (s.map Prod.fst).toFinset ⊆ Finset.range N := by
    intro x hx
    rw [List.mem_toFinset, List.mem_map] at hx
    obtain ⟨p, hpm, rfl⟩ := hx
    rw [Finset.mem_range]
    exact hb p hpm
  have hcard := Finset.card_le_card hsub
  rw [Finset.card_range, List.toFinset_card_of_nodup hnd, List.length_map] at hcard
  exact hcard

theorem lor4 (a b c d : Nat) : (a ||| b) ||| (c ||| d) = (a ||| c) ||| (b ||| d) := by
  apply Nat.eq_of_testBit_eq
  intro i
  simp only [Nat.testBit_or]
  cases a.testBit i <;> cases b.testBit i <;> cases c.testBit i <;> cases d.testBit i <;> rfl

/-- The two canonical representations of a block holding entries `E`: pairs
mode (live region is `pairsVals E`) and array mode (`arrayVals E`).  Covers
both the mutable canonical shapes and their frozen copies. -/
def Rep (b : Block) (E : List (Nat × Nat)) : Prop :=
  (b.Length = E.length ∧ E.length ≤ BLOCK_FULL_LENGTH ∧
    b.Values.take E.length = pairsVals E) ∨
  (b.Length = 1 <<< BLOCK_IDX_BITS ∧ b.Values = arrayVals E)

theorem rep_accOf (E : List (Nat × Nat)) : Rep (accOf E) E := by
  unfold accOf
  split
  · refine Or.inl ⟨rfl, by omega, ?_⟩
    show (pairsVals E ++ _).take E.length = pairsVals E
    rw [← pairsVals_length E, List.take_left]
  · exact Or.inr ⟨rfl, rfl⟩

/-- A block in canonical representation yields an iterator stream whose
abstract content (`listOr`) agrees with its entry list. -/
theorem rep_stream {b : Block} {E : List (Nat × Nat)} (hrep : Rep b E) (hE : GoodE E) :
    ∃ s, ItStream b.Iterator s ∧ GoodE s ∧ s.length ≤ b.Length ∧
      ∀ id, listOr s id = listOr E id := by
  rcases hrep with ⟨hL, hlen, htake⟩ | ⟨hL, hV⟩
  · refine ⟨E, ?_, hE, by omega, fun _ => rfl⟩
    have := pairs_stream hL hlen htake hE.2 0
    rw [List.drop_zero] at this
    exact this
  · have h16 : (1 : Nat) <<< BLOCK_IDX_BITS = 65536 := rfl
    obtain ⟨s2, hstr, hmem, hpw, hor1, hor2⟩ :=
      array_stream_aux hL (1 <<< BLOCK_IDX_BITS) 0 rfl (by omega)
    have hcell : ∀ id, id ≤ BLOCK_IDX_MASK → cellVal b.Values id = listOr E id := by
      intro id hid
      rw [hV]
      exact cellVal_arrayVals hE.2 hid
    refine ⟨(0, cellVal b.Values 0) :: s2, hstr, ?_, ?_, ?_⟩
    · constructor
      · exact hpw
      · intro p hp
        rcases List.mem_cons.mp hp with h | h
        · rw [h]
          exact ⟨by rw [idxmask_eq]; omega, cellVal_le _ _⟩
        · obtain ⟨_, hb2, hc⟩ := hmem p h
          refine ⟨by rw [idxmask_eq]; omega, ?_⟩
          rw [hc]
          exact cellVal_le _ _
    · rw [hL]
      refine length_le_of_pairwise hpw ?_
      intro p hp
      rcases List.mem_cons.mp hp with h | h
      · rw [h]
        omega
      · have := hmem p h
        omega
    · intro id
      rw [listOr_cons]
      rcases Nat.lt_or_ge id (1 <<< BLOCK_IDX_BITS) with hlt | hge
      · rcases Nat.eq_zero_or_pos id with rfl | hpos
        · rw [if_pos rfl, hor2 0 (Or.inl (Nat.le_refl _)), Nat.or_zero,
            hcell 0 (by rw [idxmask_eq]; omega)]
        · rw [if_neg (by omega), hor1 id (by omega) hlt, Nat.zero_or,
            hcell id (by rw [idxmask_eq]; omega)]
      · rw [if_neg (by omega), hor2 id (Or.inr hge), Nat.zero_or]
        rw [listOr_eq_zero_of_not_mem]
        intro p hp
        have := (hE.2 p hp).1
        rw [idxmask_eq] at this
        omega

/-! ## Merging two ascending streams -/

/-- The abstract result of the `ResetAndMergeFrom` loop: merge two streams by
ascending index, OR-ing the values at index ties. -/
def mergeStreams : List (Nat × Nat) → List (Nat × Nat) → List (Nat × Nat)
  | [], s2 => s2
  | p :: s1, [] => p :: s1
  | p :: s1, q :: s2 =>
    if p.1 < q.1 then p :: mergeStreams s1 (q :: s2)
    else if p.1 = q.1 then (p.1, p.2 ||| q.2) :: mergeStreams s1 s2
    else q :: mergeStreams (p :: s1) s2
termination_by s1 s2 => s1.length + s2.length

theorem mergeStreams_nil_left (s2 : List (Nat × Nat)) : mergeStreams [] s2 = s2 := by
  rw [mergeStreams.eq_def]

theorem mergeStreams_nil_right (p : Nat × Nat) (s1 : List (Nat × Nat)) :
    mergeStreams (p :: s1) [] = p :: s1 := by
  rw [mergeStreams.eq_def]

theorem mergeStreams_cons_cons (p q : Nat × Nat) (s1 s2 : List (Nat × Nat)) :
    mergeStreams (p :: s1) (q :: s2)
      = if p.1 < q.1 then p :: mergeStreams s1 (q :: s2)
        else if p.1 = q.1 then (p.1, p.2 ||| q.2) :: mergeStreams s1 s2
        else q :: mergeStreams (p :: s1) s2 := by
  rw [mergeStreams.eq_def]

theorem mergeStreams_listOr (s1 s2 : List (Nat × Nat)) (id : Nat) :
    listOr (mergeStreams s1 s2) id = listOr s1 id ||| listOr s2 id := by
  suffices h : ∀ n s1 s2, s1.length + s2.length = n →
      listOr (mergeStreams s1 s2) id = listOr s1 id ||| listOr s2 id by
    exact h _ s1 s2 rfl
  intro n
  induction n using Nat.strong_induction_on with
  | _ n ih =>
    intro s1 s2 hn
    cases s1 with
    | nil =>
      rw [mergeStreams_nil_left]
      show listOr s2 id = listOr [] id ||| listOr s2 id
      rw [show listOr [] id = 0 from rfl, Nat.zero_or]
    | cons p s1 =>
      cases s2 with
      | nil =>
        rw [mergeStreams_nil_right]
        show listOr (p :: s1) id = listOr (p :: s1) id ||| 0
        rw [Nat.or_zero]
      | cons q s2 =>
        rw [mergeStreams_cons_cons]
        split_ifs with h1 h2
        · rw [listOr_cons, ih _ (by simp only [List.length_cons] at hn ⊢; omega) s1 (q :: s2) rfl,
            listOr_cons (E := s1), Nat.or_assoc]
        · rw [listOr_cons, ih _ (by simp only [List.length_cons] at hn ⊢; omega) s1 s2 rfl,
            listOr_cons (E := s1), listOr_cons (E := s2), h2]
          by_cases hq : q.1 = id
          · rw [if_pos hq, if_pos hq, if_pos hq]
            rw [lor4]
          · rw [if_neg hq, if_neg hq, if_neg hq]
            rw [lor4]
            simp
        · rw [listOr_cons, ih _ (by simp only [List.length_cons] at hn ⊢; omega) (p :: s1) s2 rfl,
            listOr_cons (E := s2)]
          rw [← Nat.or_assoc, Nat.or_comm (if q.1 = id then q.2 else 0), Nat.or_assoc]

theorem mergeStreams_id_mem (s1 s2 : List (Nat × Nat)) :
    ∀ r ∈ mergeStreams s1 s2,
      (∃ p ∈ s1, r.1 = p.1) ∨ (∃ q ∈ s2, r.1 = q.1) := by
  suffices h : ∀ n s1 s2, s1.length + s2.length = n → ∀ r ∈ mergeStreams s1 s2,
      (∃ p ∈ s1, r.1 = p.1) ∨ (∃ q ∈ s2, r.1 = q.1) by
    exact h _ s1 s2 rfl
  intro n
  induction n using Nat.strong_induction_on with
  | _ n ih =>
    intro s1 s2 hn
    cases s1 with
    | nil =>
      rw [mergeStreams_nil_left]
      intro r hr
      exact Or.inr ⟨r, hr, rfl⟩
    | cons p s1 =>
      cases s2 with
      | nil =>
        rw [mergeStreams_nil_right]
        intro r hr
        exact Or.inl ⟨r, hr, rfl⟩
      | cons q s2 =>
        rw [mergeStreams_cons_cons]
        split_ifs with h1 h2
        · intro r hr
          rcases List.mem_cons.mp hr with h | h
          · exact Or.inl ⟨p, List.mem_cons_self p s1, by rw [h]⟩
          · rcases ih _ (by simp only [List.length_cons] at hn ⊢; omega) s1 (q :: s2) rfl r h with ⟨p2, hp2, he⟩ | h
            · exact Or.inl ⟨p2, List.mem_cons_of_mem p hp2, he⟩
            · exact Or.inr h
        · intro r hr
          rcases List.mem_cons.mp hr with h | h
          · exact Or.inl ⟨p, List.mem_cons_self p s1, by rw [h]⟩
          · rcases ih _ (by simp only [List.length_cons] at hn ⊢; omega) s1 s2 rfl r h with ⟨p2, hp2, he⟩ | ⟨q2, hq2, he⟩
            · exact Or.inl ⟨p2, List.mem_cons_of_mem p hp2, he⟩
            · exact Or.inr ⟨q2, List.mem_cons_of_mem q hq2, he⟩
        · intro r hr
          rcases List.mem_cons.mp hr with h | h
          · exact Or.inr ⟨q, List.mem_cons_self q s2, by rw [h]⟩
          · rcases ih _ (by simp only [List.length_cons] at hn ⊢; omega) (p :: s1) s2 rfl r h with h | ⟨q2, hq2, he⟩
            · exact Or.inl h
            · exact Or.inr ⟨q2, List.mem_cons_of_mem q hq2, he⟩

theorem mergeStreams_good {s1 s2 : List (Nat × Nat)} (h1 : GoodE s1) (h2 : GoodE s2) :
    GoodE (mergeStreams s1 s2) := by
  suffices h : ∀ n s1 s2, GoodE s1 → GoodE s2 → s1.length + s2.length = n →
      GoodE (mergeStreams s1 s2) by
    exact h _ s1 s2 h1 h2 rfl
  clear h1 h2 s1 s2
  intro n
  induction n using Nat.strong_induction_on with
  | _ n ih =>
    intro s1 s2 h1 h2 hn
    cases s1 with
    | nil =>
      rw [mergeStreams_nil_left]
      exact h2
    | cons p s1 =>
      cases s2 with
      | nil =>
        rw [mergeStreams_nil_right]
        exact h1
      | cons q s2 =>
        have hp1 := (List.pairwise_cons.mp h1.1).1
        have hp2 := (List.pairwise_cons.mp h2.1).1
        have h1t : GoodE s1 :=
          ⟨(List.pairwise_cons.mp h1.1).2, fun r hr => h1.2 r (List.mem_cons_of_mem p hr)⟩
        have h2t : GoodE s2 :=
          ⟨(List.pairwise_cons.mp h2.1).2, fun r hr => h2.2 r (List.mem_cons_of_mem q hr)⟩
        have hb1 := h1.2 p (List.mem_cons_self p s1)
        have hb2 := h2.2 q (List.mem_cons_self q s2)
        rw [mergeStreams_cons_cons]
        split_ifs with hc1 hc2
        · have hrec := ih _ (by simp only [List.length_cons] at hn ⊢; omega) s1 (q :: s2) h1t h2 rfl
          refine ⟨List.pairwise_cons.mpr ⟨?_, hrec.1⟩, ?_⟩
          · intro r hr
            rcases mergeStreams_id_mem s1 (q :: s2) r hr with ⟨p2, hp2m, he⟩ | ⟨q2, hq2m, he⟩
            · rw [he]
              exact hp1 p2 hp2m
            · rw [he]
              rcases List.mem_cons.mp hq2m with h | h
              · rw [h]
                exact hc1
              · have := hp2 q2 h
                omega
          · intro r hr
            rcases List.mem_cons.mp hr with h | h
            · rw [h]
              exact hb1
            · exact hrec.2 r h
        · have hrec := ih _ (by simp only [List.length_cons] at hn ⊢; omega) s1 s2 h1t h2t rfl
          refine ⟨List.pairwise_cons.mpr ⟨?_, hrec.1⟩, ?_⟩
          · intro r hr
            rcases mergeStreams_id_mem s1 s2 r hr with ⟨p2, hp2m, he⟩ | ⟨q2, hq2m, he⟩
            · rw [he]
              exact hp1 p2 hp2m
            · rw [he]
              show p.1 < q2.1
              rw [hc2]
              exact hp2 q2 hq2m
          · intro r hr
            rcases List.mem_cons.mp hr with h | h
            · rw [h]
              refine ⟨hb1.1, ?_⟩
              show p.2 ||| q.2 ≤ BLOCK_VAL_MASK
              have ha := hb1.2
              have hc := hb2.2
              rw [mask_eq] at ha hc ⊢
              have := Nat.or_lt_two_pow (x := p.2) (y := q.2) (n := 16) (by omega) (by omega)
              omega
            · exact hrec.2 r h
        · have hrec := ih _ (by simp only [List.length_cons] at hn ⊢; omega) (p :: s1) s2 h1 h2t rfl
          refine ⟨List.pairwise_cons.mpr ⟨?_, hrec.1⟩, ?_⟩
          · intro r hr
            rcases mergeStreams_id_mem (p :: s1) s2 r hr with ⟨p2, hp2m, he⟩ | ⟨q2, hq2m, he⟩
            · rw [he]
              rcases List.mem_cons.mp hp2m with h | h
              · rw [h]
                omega
              · have := hp1 p2 h
                omega
            · rw [he]
              exact hp2 q2 hq2m
          · intro r hr
            rcases List.mem_cons.mp hr with h | h
            · rw [h]
              exact hb2
            · exact hrec.2 r h

/-! ## The merge loop refines mergeStreams -/

theorem mergeLoop_spec :
    ∀ fuel (s1 s2 : List (Nat × Nat)) (it1 it2 : Iterator) (E0 : List (Nat × Nat)),
      ItStream it1 s1 → ItStream it2 s2 →
      s1.length + s2.length < fuel →
      (∀ p ∈ s1, p.1 ≤ BLOCK_IDX_MASK ∧ p.2 ≤ BLOCK_VAL_MASK) →
      (∀ p ∈ s2, p.1 ≤ BLOCK_IDX_MASK ∧ p.2 ≤ BLOCK_VAL_MASK) →
      (∀ p ∈ E0, p.1 ≤ BLOCK_IDX_MASK ∧ p.2 ≤ BLOCK_VAL_MASK) →
      mergeLoop fuel (accOf E0) it1 it2 = .ok (accOf (E0 ++ mergeStreams s1 s2)) := by
  intro fuel
  induction fuel with
  | zero =>
    intro s1 s2 it1 it2 E0 _ _ hlen _ _ _
    omega
  | succ fuel ih =>
    intro s1 s2 it1 it2 E0 h1 h2 hlen hb1 hb2 hbE
    cases h1 with
    | nil hv1 =>
      cases h2 with
      | nil hv2 =>
        show mergeLoop (fuel + 1) (accOf E0) it1 it2 = _
        rw [mergeLoop, hv1, hv2, if_neg (by simp), if_neg (by simp), if_neg (by simp),
          mergeStreams_nil_left, List.append_nil]
      | cons hv2 hi2 hval2 hs2 =>
        rename_i s2 qi qv
        have hq1 : qi ≤ BLOCK_IDX_MASK := (hb2 (qi, qv) (List.mem_cons_self _ _)).1
        have hq2 : qv ≤ BLOCK_VAL_MASK := (hb2 (qi, qv) (List.mem_cons_self _ _)).2
        show mergeLoop (fuel + 1) (accOf E0) it1 it2 = _
        rw [mergeLoop, hv1, hv2, if_neg (by simp), if_neg (by simp), if_pos rfl,
          hi2, hval2, accOf_append hbE hq1 hq2]
        show mergeLoop fuel (accOf (E0 ++ [(qi, qv)])) it1 it2.Next = _
        rw [ih [] s2 it1 it2.Next (E0 ++ [(qi, qv)]) (ItStream.nil hv1) hs2
          (by simp at hlen ⊢; omega) (by intro r hr; cases hr)
          (fun r hr => hb2 r (List.mem_cons_of_mem _ hr))
          (by
            intro r hr
            rcases List.mem_append.mp hr with h | h
            · exact hbE r h
            · rw [List.mem_singleton.mp h]
              exact ⟨hq1, hq2⟩)]
        rw [mergeStreams_nil_left, mergeStreams_nil_left]
        have he : E0 ++ [(qi, qv)] ++ s2 = E0 ++ (qi, qv) :: s2 := by simp
        rw [he]
    | cons hv1 hi1 hval1 hs1 =>
      rename_i s1 pi pv
      have hp1 : pi ≤ BLOCK_IDX_MASK := (hb1 (pi, pv) (List.mem_cons_self _ _)).1
      have hp2 : pv ≤ BLOCK_VAL_MASK := (hb1 (pi, pv) (List.mem_cons_self _ _)).2
      cases h2 with
      | nil hv2 =>
        show mergeLoop (fuel + 1) (accOf E0) it1 it2 = _
        rw [mergeLoop, hv1, hv2, if_neg (by simp), if_pos rfl,
          hi1, hval1, accOf_append hbE hp1 hp2]
        show mergeLoop fuel (accOf (E0 ++ [(pi, pv)])) it1.Next it2 = _
        rw [ih s1 [] it1.Next it2 (E0 ++ [(pi, pv)]) hs1 (ItStream.nil hv2)
          (by simp at hlen ⊢; omega)
          (fun r hr => hb1 r (List.mem_cons_of_mem _ hr)) (by intro r hr; cases hr)
          (by
            intro r hr
            rcases List.mem_append.mp hr with h | h
            · exact hbE r h
            · rw [List.mem_singleton.mp h]
              exact ⟨hp1, hp2⟩)]
        cases s1 with
        | nil =>
          rw [mergeStreams_nil_left, mergeStreams_nil_right]
          have he : E0 ++ [(pi, pv)] ++ ([] : List (Nat × Nat)) = E0 ++ [(pi, pv)] := by simp
          rw [he]
        | cons r s1 =>
          rw [mergeStreams_nil_right, mergeStreams_nil_right]
          have he : E0 ++ [(pi, pv)] ++ (r :: s1) = E0 ++ (pi, pv) :: r :: s1 := by simp
          rw [he]
      | cons hv2 hi2 hval2 hs2 =>
        rename_i s2 qi qv
        have hq1 : qi ≤ BLOCK_IDX_MASK := (hb2 (qi, qv) (List.mem_cons_self _ _)).1
        have hq2 : qv ≤ BLOCK_VAL_MASK := (hb2 (qi, qv) (List.mem_cons_self _ _)).2
        show mergeLoop (fuel + 1) (accOf E0) it1 it2 = _
        rw [mergeLoop, hv1, hv2, if_pos ⟨rfl, rfl⟩, hi1, hi2, hval1, hval2,
          mergeStreams_cons_cons]
        show _ = Except.ok (accOf (E0 ++
          if pi < qi then (pi, pv) :: mergeStreams s1 ((qi, qv) :: s2)
          else if pi = qi then (pi, pv ||| qv) :: mergeStreams s1 s2
          else (qi, qv) :: mergeStreams ((pi, pv) :: s1) s2))
        rcases Nat.lt_trichotomy pi qi with hc | hc | hc
        · rw [if_pos hc, if_pos hc, accOf_append hbE hp1 hp2]
          show mergeLoop fuel (accOf (E0 ++ [(pi, pv)])) it1.Next it2 = _
          have h2r : ItStream it2 ((qi, qv) :: s2) := ItStream.cons hv2 hi2 hval2 hs2
          rw [ih s1 ((qi, qv) :: s2) it1.Next it2 (E0 ++ [(pi, pv)]) hs1 h2r
            (by simp at hlen ⊢; omega)
            (fun r hr => hb1 r (List.mem_cons_of_mem _ hr)) hb2
            (by
              intro r hr
              rcases List.mem_append.mp hr with h | h
              · exact hbE r h
              · rw [List.mem_singleton.mp h]
                exact ⟨hp1, hp2⟩)]
          have he : E0 ++ [(pi, pv)] ++ mergeStreams s1 ((qi, qv) :: s2)
              = E0 ++ (pi, pv) :: mergeStreams s1 ((qi, qv) :: s2) := by simp
          rw [he]
        · have hn : ¬ pi < qi := by omega
          rw [if_neg hn, if_neg hn, if_pos hc, if_pos hc]
          have hor : pv ||| qv ≤ BLOCK_VAL_MASK := by
            rw [mask_eq] at hp2 hq2 ⊢
            have := Nat.or_lt_two_pow (x := pv) (y := qv) (n := 16) (by omega) (by omega)
            omega
          rw [accOf_append hbE hp1 hor]
          show mergeLoop fuel (accOf (E0 ++ [(pi, pv ||| qv)])) it1.Next it2.Next = _
          rw [ih s1 s2 it1.Next it2.Next (E0 ++ [(pi, pv ||| qv)]) hs1 hs2
            (by simp at hlen ⊢; omega)
            (fun r hr => hb1 r (List.mem_cons_of_mem _ hr))
            (fun r hr => hb2 r (List.mem_cons_of_mem _ hr))
            (by
              intro r hr
              rcases List.mem_append.mp hr with h | h
              · exact hbE r h
              · rw [List.mem_singleton.mp h]
                exact ⟨hp1, hor⟩)]
          have he : E0 ++ [(pi, pv ||| qv)] ++ mergeStreams s1 s2
              = E0 ++ (pi, pv ||| qv) :: mergeStreams s1 s2 := by simp
          rw [he]
        · have hn1 : ¬ pi < qi := by omega
          have hn2 : ¬ pi = qi := by omega
          rw [if_neg hn1, if_neg hn1, if_neg hn2, if_neg hn2]
          rw [accOf_append hbE hq1 hq2]
          show mergeLoop fuel (accOf (E0 ++ [(qi, qv)])) it1 it2.Next = _
          have h1r : ItStream it1 ((pi, pv) :: s1) := ItStream.cons hv1 hi1 hval1 hs1
          rw [ih ((pi, pv) :: s1) s2 it1 it2.Next (E0 ++ [(qi, qv)]) h1r hs2
            (by simp at hlen ⊢; omega) hb1
            (fun r hr => hb2 r (List.mem_cons_of_mem _ hr))
            (by
              intro r hr
              rcases List.mem_append.mp hr with h | h
              · exact hbE r h
              · rw [List.mem_singleton.mp h]
                exact ⟨hq1, hq2⟩)]
          have he : E0 ++ [(qi, qv)] ++ mergeStreams ((pi, pv) :: s1) s2
              = E0 ++ (qi, qv) :: mergeStreams ((pi, pv) :: s1) s2 := by simp
          rw [he]

/-- Master correctness of `Block.ResetAndMergeFrom` on canonical blocks. -/
theorem resetAndMergeFrom_full {c a b : Block} {Ea Eb : List (Nat × Nat)}
    (hcf : c.Frozen = false) (hcap : c.Values.length = BLOCK_FULL_LENGTH)
    (hra : Rep a Ea) (hrb : Rep b Eb) (hga : GoodE Ea) (hgb : GoodE Eb) :
    ∃ EM, Block.ResetAndMergeFrom c a b = .ok (accOf EM) ∧ GoodE EM ∧
      ∀ id, listOr EM id = listOr Ea id ||| listOr Eb id := by
  obtain ⟨sa, hsa, hgsa, hla, hoa⟩ := rep_stream hra hga
  obtain ⟨sb, hsb, hgsb, hlb, hob⟩ := rep_stream hrb hgb
  refine ⟨mergeStreams sa sb, ?_, mergeStreams_good hgsa hgsb, ?_⟩
  · unfold Block.ResetAndMergeFrom
    have hreset : c.Reset = .ok NewAccumulationBlock := by
      unfold Block.Reset
      rw [if_neg (by rw [hcf]; simp), hcap]
      show Except.ok { c with Length := 0, Values := List.replicate BLOCK_FULL_LENGTH 0 } = _
      rw [NewAccumulationBlock.eq_def]
      simp only [Except.ok.injEq, Block.mk.injEq]
      exact ⟨trivial, hcf, trivial⟩
    rw [hreset]
    show mergeLoop (a.Length + b.Length + 1) NewAccumulationBlock a.Iterator b.Iterator = _
    rw [← accOf_nil,
      mergeLoop_spec (a.Length + b.Length + 1) sa sb a.Iterator b.Iterator [] hsa hsb
        (by omega) hgsa.2 hgsb.2 (by intro r hr; cases hr),
      List.nil_append]
  · intro id
    rw [mergeStreams_listOr, hoa, hob]

/-! ## Claim C3 -/

/-- C3: for any two blocks `a`, `b` built by (strictly) ascending-ID appends
and any mutable accumulation block `c`, `c.ResetAndMergeFrom a b` succeeds and
the result looks up every id < 2^16 to the OR of the two sources' lookups. -/
theorem C3_reset_and_merge_from {Ea Eb : List (Nat × Nat)} {c : Block}
    (hga : GoodE Ea) (hgb : GoodE Eb)
    (hcf : c.Frozen = false) (hcap : c.Values.length = BLOCK_FULL_LENGTH) :
    ∃ a b m, appendList NewAccumulationBlock Ea = .ok a ∧
      appendList NewAccumulationBlock Eb = .ok b ∧
      c.ResetAndMergeFrom a b = .ok m ∧
      ∀ id, id ≤ BLOCK_IDX_MASK →
        ∃ va vb, a.Lookup id = .ok va ∧ b.Lookup id = .ok vb ∧
          m.Lookup id = .ok (va ||| vb) := by
  obtain ⟨EM, hm, hgm, hor⟩ :=
    resetAndMergeFrom_full hcf hcap (rep_accOf Ea) (rep_accOf Eb) hga hgb
  refine ⟨accOf Ea, accOf Eb, accOf EM, appendList_acc hga.2, appendList_acc hgb.2, hm, ?_⟩
  intro id hid
  exact ⟨listOr Ea id, listOr Eb id, lookup_accOf hga hid, lookup_accOf hgb hid,
    by rw [lookup_accOf hgm hid, hor]⟩

/-- C3 witness: the theorem applied at concrete entry lists, with the fresh
accumulation block as the receiver. -/
theorem C3_reset_and_merge_from_witness :
    GoodE [(0, 1), (2, 4)] ∧ GoodE [(1, 2), (2, 2)] ∧
    NewAccumulationBlock.Frozen = false ∧
    NewAccumulationBlock.Values.length = BLOCK_FULL_LENGTH ∧
    (∃ a b m, appendList NewAccumulationBlock [(0, 1), (2, 4)] = .ok a ∧
      appendList NewAccumulationBlock [(1, 2), (2, 2)] = .ok b ∧
      NewAccumulationBlock.ResetAndMergeFrom a b = .ok m ∧
      ∀ id, id ≤ BLOCK_IDX_MASK →
        ∃ va vb, a.Lookup id = .ok va ∧ b.Lookup id = .ok vb ∧
          m.Lookup id = .ok (va ||| vb)) :=
  ⟨by decide, by decide, rfl,
    by
      show (List.replicate BLOCK_FULL_LENGTH 0).length = BLOCK_FULL_LENGTH
      rw [List.length_replicate],
    C3_reset_and_merge_from (by decide) (by decide) rfl
      (by
        show (List.replicate BLOCK_FULL_LENGTH 0).length = BLOCK_FULL_LENGTH
        rw [List.length_replicate])⟩

/-! ## MultiBlock: definitions

The Go `MultiBlock` keeps a `map[int64]*Block` of frozen shard blocks keyed by
the upper 48 bits of the ID, a mutable accumulation block `Current` for the
shard being filled, and a pending `(LastId, LastVal)` pair.  The map is
modelled as an association list; `Merge` iterates it in list order (Go map
iteration order is unspecified, but each iteration reads and writes only its
own key, so all orders produce the same mapping). -/

structure MultiBlock : Type where
  Blocks : List (Nat × Block)
  Current : Block
  LastId : Nat
  LastVal : Nat
  deriving Repr

/-- Association-list read, standing for the Go map read `m[k]`. -/
def lookupB : List (Nat × Block) → Nat → Option Block
  | [], _ => none
  | q :: t, k => if q.1 = k then some q.2 else lookupB t k

/-- Association-list write, standing for the Go map write `m[k] = b`. -/
def insertB : List (Nat × Block) → Nat → Block → List (Nat × Block)
  | [], k, b => [(k, b)]
  | q :: t, k, b => if q.1 = k then (k, b) :: t else q :: insertB t k b

/-- Association-list delete, standing for the Go `delete(m, k)`. -/
def eraseB : List (Nat × Block) → Nat → List (Nat × Block)
  | [], _ => []
  | q :: t, k => if q.1 = k then t else q :: eraseB t k

/-- `NewMultiBlock` from the source. -/
def NewMultiBlock : MultiBlock :=
  { Blocks := [], Current := NewAccumulationBlock, LastId := 0, LastVal := 0 }

/-- `maxLastId` from the source: the maximum `int64` value, used as the
marker of a pushed multi-block. -/
def maxLastId : Nat := 2 ^ 63 - 1

/-- `MultiBlock.Append` from the source.  The two `panic`s become errors; the
collapse path ORs into the pending value; otherwise the pending pair is
flushed to `Current`, and on a shard change `Current` is copied into the map
and reset. -/
def MultiBlock.Append (m : MultiBlock) (id val : Nat) : Except Err MultiBlock :=
  if id < m.LastId then .error .mbIdOrder
  else if val > BLOCK_VAL_MASK then .error .mbValRange
  else if id = m.LastId then .ok { m with LastVal := m.LastVal ||| val }
  else do
    let cur ← m.Current.Append (m.LastId &&& BLOCK_IDX_MASK) m.LastVal
    if id >>> BLOCK_IDX_BITS ≠ m.LastId >>> BLOCK_IDX_BITS then
      let block := cur.Copy
      let cur ← cur.Reset
      .ok { Blocks := insertB m.Blocks (m.LastId >>> BLOCK_IDX_BITS) block,
            Current := cur, LastId := id, LastVal := val }
    else
      .ok { m with Current := cur, LastId := id, LastVal := val }

/-- `MultiBlock.pushCurrent` from the source. -/
def MultiBlock.pushCurrent (m : MultiBlock) : Except Err MultiBlock := do
  let cur ← m.Current.Append (m.LastId &&& BLOCK_IDX_MASK) m.LastVal
  let block := cur.Copy
  let cur ← cur.Reset
  .ok { Blocks := insertB m.Blocks (m.LastId >>> BLOCK_IDX_BITS) block,
        Current := cur, LastId := maxLastId, LastVal := 0 }

/-- `MultiBlock.sortedBlockKeys` from the source: the map keys in ascending
order. -/
def MultiBlock.sortedBlockKeys (m : MultiBlock) : List Nat :=
  (m.Blocks.map Prod.fst).mergeSort (fun a b => a ≤ b)

/-- `MultiBlock.unPushCurrent` from the source.  A missing map key would give
a nil `*Block` in Go and crash in `CopyFrom`; that is the `nilDeref` error. -/
def MultiBlock.unPushCurrent (m : MultiBlock) : Except Err MultiBlock :=
  let blockKeys := m.sortedBlockKeys
  if blockKeys.length > 0 then
    let lastKey := blockKeys.getD (blockKeys.length - 1) 0
    match lookupB m.Blocks lastKey with
    | none => .error .nilDeref
    | some lastBlock => do
      let cur ← m.Current.CopyFrom lastBlock
      let (lastIdx, lastVal, cur2) ← cur.UnAppend
      .ok { Blocks := eraseB m.Blocks lastKey, Current := cur2,
            LastId := (lastKey <<< BLOCK_IDX_BITS) ||| lastIdx, LastVal := lastVal }
  else do
    let cur ← m.Current.Reset
    .ok { m with Current := cur, LastId := 0, LastVal := 0 }

/-- `MultiBlock.Lookup` from the source. -/
def MultiBlock.Lookup (m : MultiBlock) (id : Nat) : Except Err Nat :=
  if id = m.LastId then .ok m.LastVal
  else if id >>> BLOCK_IDX_BITS = m.LastId >>> BLOCK_IDX_BITS then
    m.Current.Lookup (id &&& BLOCK_IDX_MASK)
  else match lookupB m.Blocks (id >>> BLOCK_IDX_BITS) with
    | some block => block.Lookup (id &&& BLOCK_IDX_MASK)
    | none => .ok 0

/-- The `for upper, block2 := range mb2.Blocks` loop of `MultiBlock.Merge`,
threading the receiver map and the reused `new_block`. -/
def mergeBlocksLoop : List (Nat × Block) → List (Nat × Block) → Block →
    Except Err (List (Nat × Block) × Block)
  | [], acc, nb => .ok (acc, nb)
  | q :: rest, acc, nb =>
    match lookupB acc q.1 with
    | some block => do
      let nb ← nb.ResetAndMergeFrom block q.2
      mergeBlocksLoop rest (insertB acc q.1 nb.Copy) nb
    | none => mergeBlocksLoop rest (insertB acc q.1 q.2) nb

/-- `MultiBlock.Merge` from the source: push both sides, merge the shard maps,
un-push the receiver, and drain the argument. -/
def MultiBlock.Merge (mb mb2 : MultiBlock) : Except Err (MultiBlock × MultiBlock) := do
  let mb ← mb.pushCurrent
  let mb2 ← mb2.pushCurrent
  let br ← mergeBlocksLoop mb2.Blocks mb.Blocks NewAccumulationBlock
  let mb ← MultiBlock.unPushCurrent { mb with Blocks := br.1 }
  .ok (mb, { Blocks := [], Current := NewEmptyBlock, LastId := 0, LastVal := 0 })

/-! ## MultiBlock: abstraction layer -/

/-- Run a list of appends on a multi-block. -/
def mbAppendList (m : MultiBlock) (L : List (Nat × Nat)) : Except Err MultiBlock :=
  L.foldlM (fun m p => m.Append p.1 p.2) m

/-- The frozen copy of the canonical accumulation block for entries `E`:
the shape of every block resident in a `MultiBlock`'s map. -/
def frozenOf (E : List (Nat × Nat)) : Block := (accOf E).Copy

/-- Project an entry's id to its low 16 bits. -/
def lowOf (p : Nat × Nat) : Nat × Nat := (p.1 &&& BLOCK_IDX_MASK, p.2)

/-- Association-list read over abstract shard entry lists. -/
def lookupE : List (Nat × List (Nat × Nat)) → Nat → Option (List (Nat × Nat))
  | [], _ => none
  | q :: t, k => if q.1 = k then some q.2 else lookupE t k

/-- The value an abstract shard map holds for a full id: the OR of the entries
under the id's low 16 bits in the shard of its upper bits. -/
def shardsOr (S : List (Nat × List (Nat × Nat))) (id : Nat) : Nat :=
  match lookupE S (id >>> BLOCK_IDX_BITS) with
  | some E => listOr E (id &&& BLOCK_IDX_MASK)
  | none => 0

/-- One step of the record history: OR into the last record when the id
repeats, otherwise append a new record. -/
def collapseSnoc (R : List (Nat × Nat)) (i v : Nat) : List (Nat × Nat) :=
  match R.getLast? with
  | some p => if i = p.1 then R.dropLast ++ [(p.1, p.2 ||| v)] else R ++ [(i, v)]
  | none => [(i, v)]

/-- The record history after running the appends `K` from history `R`. -/
def mbRun (R : List (Nat × Nat)) (K : List (Nat × Nat)) : List (Nat × Nat) :=
  K.foldl (fun R p => collapseSnoc R p.1 p.2) R

/-- Well-formed record histories: non-empty, strictly ascending ids, values
within 16 bits. -/
def GoodR (R : List (Nat × Nat)) : Prop :=
  R ≠ [] ∧ (R.map Prod.fst).Chain' (· < ·) ∧ ∀ p ∈ R, p.2 ≤ BLOCK_VAL_MASK

/-- Appendable input lists after a last id `last`: ids non-decreasing from
`last`, values within 16 bits. -/
def GoodK (last : Nat) (K : List (Nat × Nat)) : Prop :=
  List.Chain (fun a b => a ≤ b) last (K.map Prod.fst) ∧ ∀ p ∈ K, p.2 ≤ BLOCK_VAL_MASK

/-- The shapes of the mutable `Current` block: a pairs-mode block whose junk
pads the capacity to `BLOCK_FULL_LENGTH`, or (beyond that) the array form. -/
def CurRep (b : Block) (C : List (Nat × Nat)) : Prop :=
  (∃ junk, C.length + junk.length = BLOCK_FULL_LENGTH ∧ b = pairsB C junk) ∨
  (C.length > BLOCK_FULL_LENGTH ∧ b = arrayB C)

/-- The invariant of append-reachable multi-block states with record history
`R`: the pending pair is the last record, `Current` holds the low projections
`C` of the already-flushed records of the pending shard, the map is the frozen
image of abstract shards `S` with ascending keys below the pending shard, and
every lookup decomposes accordingly. -/
def MBInv (m : MultiBlock) (R : List (Nat × Nat)) : Prop :=
  ∃ (S : List (Nat × List (Nat × Nat))) (C : List (Nat × Nat)) (p : Nat × Nat),
    R.getLast? = some p ∧
    m.LastId = p.1 ∧ m.LastVal = p.2 ∧
    CurRep m.Current C ∧ GoodE C ∧
    (∀ q ∈ C, q.1 < p.1 &&& BLOCK_IDX_MASK) ∧
    m.Blocks = S.map (fun q => (q.1, frozenOf q.2)) ∧
    (S.map Prod.fst).Chain' (fun a b => a < b) ∧
    (∀ q ∈ S, q.1 < p.1 >>> BLOCK_IDX_BITS ∧ GoodE q.2) ∧
    (∀ id, listOr R id =
      if id = p.1 then p.2
      else if id >>> BLOCK_IDX_BITS = p.1 >>> BLOCK_IDX_BITS then
        listOr C (id &&& BLOCK_IDX_MASK)
      else shardsOr S id)

/-! ## MultiBlock: basic lemmas -/

theorem and_idxmask_mod (a : Nat) : a &&& BLOCK_IDX_MASK = a % 2 ^ 16 := by
  have h := Nat.and_pow_two_sub_one_eq_mod a 16
  have h2 : BLOCK_IDX_MASK = 2 ^ 16 - 1 := rfl
  rw [h2]
  norm_num at h ⊢
  omega

theorem shiftr_idx_div (a : Nat) : a >>> BLOCK_IDX_BITS = a / 2 ^ 16 := by
  rw [Nat.shiftRight_eq_div_pow]

theorem nat_decomp (a : Nat) :
    ((a >>> BLOCK_IDX_BITS) <<< BLOCK_IDX_BITS) ||| (a &&& BLOCK_IDX_MASK) = a := by
  apply Nat.eq_of_testBit_eq
  intro i
  simp only [Nat.testBit_or, Nat.testBit_and, Nat.testBit_shiftLeft, Nat.testBit_shiftRight]
  rcases Nat.lt_or_ge i 16 with h | h
  · have hm : (BLOCK_IDX_MASK : Nat).testBit i = true := by
      have : BLOCK_IDX_MASK = 2 ^ 16 - 1 := rfl
      rw [this, Nat.testBit_two_pow_sub_one]
      simp [h]
    show ((decide (BLOCK_IDX_BITS ≤ i)) && _ ||
      (a.testBit i && (BLOCK_IDX_MASK : Nat).testBit i)) = a.testBit i
    have hb : decide (BLOCK_IDX_BITS ≤ i) = false := by
      refine decide_eq_false ?_
      show ¬ (16 ≤ i)
      omega
    rw [hb, hm]
    simp
  · have hm : (BLOCK_IDX_MASK : Nat).testBit i = false := by
      have h2 : BLOCK_IDX_MASK = 2 ^ 16 - 1 := rfl
      rw [h2, Nat.testBit_two_pow_sub_one]
      exact decide_eq_false (by omega)
    have hb : decide (BLOCK_IDX_BITS ≤ i) = true := by
      refine decide_eq_true ?_
      show (16 : Nat) ≤ i
      omega
    rw [hm, hb]
    have hs : BLOCK_IDX_BITS + (i - BLOCK_IDX_BITS) = i := by
      show 16 + (i - 16) = i
      omega
    simp [hs]

theorem eq_of_upper_low {a b : Nat} (hu : a >>> BLOCK_IDX_BITS = b >>> BLOCK_IDX_BITS)
    (hl : a &&& BLOCK_IDX_MASK = b &&& BLOCK_IDX_MASK) : a = b := by
  rw [← nat_decomp a, ← nat_decomp b, hu, hl]

theorem low_lt_of_lt_same_upper {a b : Nat} (hab : a < b)
    (hu : a >>> BLOCK_IDX_BITS = b >>> BLOCK_IDX_BITS) :
    a &&& BLOCK_IDX_MASK < b &&& BLOCK_IDX_MASK := by
  rw [and_idxmask_mod, and_idxmask_mod]
  rw [shiftr_idx_div, shiftr_idx_div] at hu
  omega

theorem upper_le_of_le {a b : Nat} (hab : a ≤ b) :
    a >>> BLOCK_IDX_BITS ≤ b >>> BLOCK_IDX_BITS := by
  rw [shiftr_idx_div, shiftr_idx_div]
  exact Nat.div_le_div_right hab

theorem low_le_idxmask (a : Nat) : a &&& BLOCK_IDX_MASK ≤ BLOCK_IDX_MASK := and_mask_le a

theorem or_le_mask {a b : Nat} (ha : a ≤ BLOCK_VAL_MASK) (hb : b ≤ BLOCK_VAL_MASK) :
    a ||| b ≤ BLOCK_VAL_MASK := by
  rw [mask_eq] at ha hb ⊢
  have := Nat.or_lt_two_pow (x := a) (y := b) (n := 16) (by omega) (by omega)
  omega

theorem upper_pack {k I : Nat} (hI : I ≤ BLOCK_IDX_MASK) :
    ((k <<< BLOCK_IDX_BITS) ||| I) >>> BLOCK_IDX_BITS = k := pack_hi hI

theorem low_pack {k I : Nat} (hI : I ≤ BLOCK_IDX_MASK) :
    ((k <<< BLOCK_IDX_BITS) ||| I) &&& BLOCK_IDX_MASK = I := pack_lo hI

/-! ### Association-list lemmas -/

theorem lookupB_insertB_self (l : List (Nat × Block)) (k : Nat) (b : Block) :
    lookupB (insertB l k b) k = some b := by
  induction l with
  | nil => simp [insertB, lookupB]
  | cons q t ih =>
    by_cases h : q.1 = k
    · rw [insertB, if_pos h, lookupB, if_pos rfl]
    · rw [insertB, if_neg h, lookupB, if_neg h, ih]

theorem lookupB_insertB_ne (l : List (Nat × Block)) {k k' : Nat} (b : Block)
    (hne : k' ≠ k) : lookupB (insertB l k b) k' = lookupB l k' := by
  induction l with
  | nil =>
    show lookupB [(k, b)] k' = lookupB [] k'
    rw [show lookupB [(k, b)] k' = if k = k' then some b else lookupB [] k' from rfl,
      if_neg (fun h => hne h.symm)]
  | cons q t ih =>
    by_cases h : q.1 = k
    · rw [insertB, if_pos h, lookupB, if_neg (by omega), lookupB, if_neg (by omega)]
    · by_cases h2 : q.1 = k'
      · rw [insertB, if_neg h, lookupB, if_pos h2, lookupB, if_pos h2]
      · rw [insertB, if_neg h, lookupB, if_neg h2, lookupB, if_neg h2, ih]

theorem insertB_of_not_mem {l : List (Nat × Block)} {k : Nat} (b : Block)
    (h : ∀ q ∈ l, q.1 ≠ k) : insertB l k b = l ++ [(k, b)] := by
  induction l with
  | nil => rfl
  | cons q t ih =>
    rw [insertB, if_neg (h q (List.mem_cons_self q t)),
      ih (fun r hr => h r (List.mem_cons_of_mem q hr)), List.cons_append]

theorem mem_insertB {l : List (Nat × Block)} {k : Nat} {b : Block} {q : Nat × Block}
    (h : q ∈ insertB l k b) : q = (k, b) ∨ q ∈ l := by
  induction l with
  | nil =>
    rw [insertB, List.mem_singleton] at h
    exact Or.inl h
  | cons r t ih =>
    rw [insertB] at h
    split at h
    · rcases List.mem_cons.mp h with h | h
      · exact Or.inl h
      · exact Or.inr (List.mem_cons_of_mem r h)
    · rcases List.mem_cons.mp h with h | h
      · exact Or.inr (h ▸ List.mem_cons_self r t)
      · rcases ih h with h | h
        · exact Or.inl h
        · exact Or.inr (List.mem_cons_of_mem r h)

theorem lookupB_eraseB_ne (l : List (Nat × Block)) {k k' : Nat} (hne : k' ≠ k) :
    lookupB (eraseB l k) k' = lookupB l k' := by
  induction l with
  | nil => rfl
  | cons q t ih =>
    by_cases h : q.1 = k
    · rw [eraseB, if_pos h, lookupB, if_neg (by omega)]
    · by_cases h2 : q.1 = k'
      · rw [eraseB, if_neg h, lookupB, if_pos h2, lookupB, if_pos h2]
      · rw [eraseB, if_neg h, lookupB, if_neg h2, lookupB, if_neg h2, ih]

theorem mem_eraseB {l : List (Nat × Block)} {k : Nat} {q : Nat × Block}
    (h : q ∈ eraseB l k) : q ∈ l := by
  induction l with
  | nil => exact absurd h (List.not_mem_nil q)
  | cons r t ih =>
    rw [eraseB] at h
    split at h
    · exact List.mem_cons_of_mem r h
    · rcases List.mem_cons.mp h with h | h
      · exact h ▸ List.mem_cons_self r t
      · exact List.mem_cons_of_mem r (ih h)

theorem lookupE_eq_none {S : List (Nat × List (Nat × Nat))} {k : Nat}
    (h : ∀ q ∈ S, q.1 ≠ k) : lookupE S k = none := by
  induction S with
  | nil => rfl
  | cons q t ih =>
    rw [lookupE, if_neg (h q (List.mem_cons_self q t))]
    exact ih (fun r hr => h r (List.mem_cons_of_mem q hr))

theorem lookupE_append (S T : List (Nat × List (Nat × Nat))) (k : Nat) :
    lookupE (S ++ T) k =
      match lookupE S k with
      | some E => some E
      | none => lookupE T k := by
  induction S with
  | nil => rfl
  | cons q t ih =>
    by_cases h : q.1 = k
    · show (if q.1 = k then some q.2 else lookupE (t ++ T) k) =
        match (if q.1 = k then some q.2 else lookupE t k) with
        | some E => some E
        | none => lookupE T k
      rw [if_pos h, if_pos h]
    · show (if q.1 = k then some q.2 else lookupE (t ++ T) k) =
        match (if q.1 = k then some q.2 else lookupE t k) with
        | some E => some E
        | none => lookupE T k
      rw [if_neg h, if_neg h]
      exact ih

theorem lookupB_map_frozen (S : List (Nat × List (Nat × Nat))) (k : Nat) :
    lookupB (S.map (fun q => (q.1, frozenOf q.2))) k = (lookupE S k).map frozenOf := by
  induction S with
  | nil => rfl
  | cons q t ih =>
    by_cases h : q.1 = k
    · rw [List.map_cons, lookupB, lookupE]
      show (if q.1 = k then _ else _) = _
      rw [if_pos h, if_pos h]
      rfl
    · rw [List.map_cons, lookupB, lookupE]
      show (if q.1 = k then _ else _) = _
      rw [if_neg h, if_neg h, ih]

/-! ### Canonical block shapes: frozen copies, resets, CurRep -/

theorem accOf_frozen (E : List (Nat × Nat)) : (accOf E).Frozen = false := by
  unfold accOf
  split <;> rfl

theorem accOf_values_length (E : List (Nat × Nat)) :
    (accOf E).Values.length = BLOCK_FULL_LENGTH := by
  unfold accOf
  split
  · show (pairsVals E ++ _).length = _
    rw [List.length_append, pairsVals_length, List.length_replicate]
    omega
  · exact arrayVals_length E

theorem reset_accOf (E : List (Nat × Nat)) : (accOf E).Reset = .ok NewAccumulationBlock := by
  unfold Block.Reset
  rw [if_neg (by rw [accOf_frozen]; simp), accOf_values_length]
  rw [NewAccumulationBlock.eq_def]
  simp only [Except.ok.injEq, Block.mk.injEq]
  exact ⟨by trivial, accOf_frozen E, by trivial⟩

theorem frozenOf_eq_pairs {E : List (Nat × Nat)} (h : E.length ≤ BLOCK_FULL_LENGTH) :
    frozenOf E = { Length := E.length, Frozen := true, Values := pairsVals E } := by
  unfold frozenOf accOf
  rw [if_pos h]
  unfold Block.Copy pairsB
  simp only [Block.mk.injEq]
  rw [if_neg (by omega)]
  refine ⟨by trivial, by trivial, ?_⟩
  rw [← pairsVals_length E, List.take_left, pairsVals_length]
  have hz : E.length - (pairsVals E ++ List.replicate (BLOCK_FULL_LENGTH - E.length) 0).length
      = 0 := by
    rw [List.length_append, pairsVals_length, List.length_replicate]
    omega
  rw [hz, List.replicate_zero, List.append_nil]

theorem frozenOf_eq_array {E : List (Nat × Nat)} (h : E.length > BLOCK_FULL_LENGTH) :
    frozenOf E = { Length := 1 <<< BLOCK_IDX_BITS, Frozen := true, Values := arrayVals E } := by
  unfold frozenOf accOf
  rw [if_neg (by omega)]
  unfold Block.Copy arrayB
  simp only [Block.mk.injEq]
  rw [if_pos (by decide)]
  refine ⟨by trivial, by trivial, ?_⟩
  rw [show BLOCK_FULL_LENGTH - (arrayVals E).length = 0 by rw [arrayVals_length]; omega,
    List.replicate_zero, List.append_nil, ← arrayVals_length E, List.take_length]

theorem frozenOf_frozen (E : List (Nat × Nat)) : (frozenOf E).Frozen = true := rfl

theorem lookup_frozen_irrel (L : Nat) (f f' : Bool) (V : List Nat) (id : Nat) :
    Block.Lookup { Length := L, Frozen := f, Values := V } id
      = Block.Lookup { Length := L, Frozen := f', Values := V } id := rfl

theorem lookup_frozenOf {E : List (Nat × Nat)} {id : Nat} (hE : GoodE E)
    (hid : id ≤ BLOCK_IDX_MASK) : (frozenOf E).Lookup id = .ok (listOr E id) := by
  rcases le_or_lt E.length BLOCK_FULL_LENGTH with h | h
  · rw [frozenOf_eq_pairs h, lookup_frozen_irrel E.length true false (pairsVals E) id]
    have hp : pairsB E [] = { Length := E.length, Frozen := false, Values := pairsVals E } := by
      unfold pairsB
      rw [List.append_nil]
    rw [← hp]
    exact lookup_pairsB hE h hid
  · rw [frozenOf_eq_array h, lookup_frozen_irrel _ true false _ id]
    show (arrayB E).Lookup id = _
    exact lookup_arrayB hE.2 hid

theorem rep_frozenOf (E : List (Nat × Nat)) : Rep (frozenOf E) E := by
  rcases le_or_lt E.length BLOCK_FULL_LENGTH with h | h
  · rw [frozenOf_eq_pairs h]
    refine Or.inl ⟨rfl, h, ?_⟩
    show (pairsVals E).take E.length = pairsVals E
    rw [← pairsVals_length E, List.take_length]
  · rw [frozenOf_eq_array h]
    exact Or.inr ⟨rfl, rfl⟩

theorem copyFrom_frozenOf (E : List (Nat × Nat)) :
    NewAccumulationBlock.CopyFrom (frozenOf E) = .ok (accOf E) := by
  rcases le_or_lt E.length BLOCK_FULL_LENGTH with h | h
  · rw [frozenOf_eq_pairs h]
    unfold Block.CopyFrom NewAccumulationBlock
    rw [if_neg (by simp),
      if_neg (by
        show ¬ (List.replicate BLOCK_FULL_LENGTH 0).length < (pairsVals E).length
        rw [List.length_replicate, pairsVals_length]
        omega)]
    simp only [Except.ok.injEq]
    unfold accOf
    rw [if_pos h]
    unfold pairsB
    simp only [Block.mk.injEq]
    refine ⟨by trivial, by trivial, ?_⟩
    rw [List.length_replicate, pairsVals_length]
  · rw [frozenOf_eq_array h]
    unfold Block.CopyFrom NewAccumulationBlock
    rw [if_neg (by simp),
      if_neg (by
        show ¬ (List.replicate BLOCK_FULL_LENGTH 0).length < (arrayVals E).length
        rw [List.length_replicate, arrayVals_length]
        omega)]
    simp only [Except.ok.injEq]
    unfold accOf
    rw [if_neg (by omega)]
    unfold arrayB
    simp only [Block.mk.injEq]
    refine ⟨by trivial, by trivial, ?_⟩
    rw [List.length_replicate, arrayVals_length, Nat.sub_self, List.replicate_zero,
      List.append_nil]

theorem curRep_new : CurRep NewAccumulationBlock [] := by
  refine Or.inl ⟨List.replicate BLOCK_FULL_LENGTH 0, ?_, ?_⟩
  · rw [List.length_nil, List.length_replicate, Nat.zero_add]
  · unfold NewAccumulationBlock pairsB
    simp only [Block.mk.injEq]
    refine ⟨by trivial, by trivial, ?_⟩
    rw [show pairsVals [] = [] from rfl, List.nil_append]

theorem curRep_accOf (E : List (Nat × Nat)) (h : E.length > BLOCK_FULL_LENGTH ∨ True) :
    CurRep (accOf E) E := by
  unfold accOf
  split
  · rename_i hle
    exact Or.inl ⟨List.replicate (BLOCK_FULL_LENGTH - E.length) 0,
      by rw [List.length_replicate]; omega, rfl⟩
  · rename_i hgt
    exact Or.inr ⟨by omega, rfl⟩

theorem curRep_copy {b : Block} {C : List (Nat × Nat)} (h : CurRep b C) :
    b.Copy = frozenOf C := by
  rcases h with ⟨junk, hlen, rfl⟩ | ⟨hlen, rfl⟩
  · rw [frozenOf_eq_pairs (by omega)]
    unfold Block.Copy pairsB
    simp only [Block.mk.injEq]
    rw [if_neg (by omega)]
    refine ⟨by trivial, by trivial, ?_⟩
    rw [← pairsVals_length C, List.take_left, pairsVals_length]
    have hz : C.length - (pairsVals C ++ junk).length = 0 := by
      rw [List.length_append, pairsVals_length]
      omega
    rw [hz, List.replicate_zero, List.append_nil]
  · rw [frozenOf_eq_array hlen]
    unfold Block.Copy arrayB
    simp only [Block.mk.injEq]
    rw [if_pos (by decide)]
    refine ⟨by trivial, by trivial, ?_⟩
    rw [show BLOCK_FULL_LENGTH - (arrayVals C).length = 0 by rw [arrayVals_length]; omega,
      List.replicate_zero, List.append_nil, ← arrayVals_length C, List.take_length]

theorem curRep_reset {b : Block} {C : List (Nat × Nat)} (h : CurRep b C) :
    b.Reset = .ok NewAccumulationBlock := by
  rcases h with ⟨junk, hlen, rfl⟩ | ⟨hlen, rfl⟩
  · unfold Block.Reset pairsB
    rw [if_neg (by simp)]
    simp only [Except.ok.injEq]
    unfold NewAccumulationBlock
    simp only [Block.mk.injEq]
    refine ⟨by trivial, by trivial, ?_⟩
    rw [List.length_append, pairsVals_length]
    rw [show C.length + junk.length = BLOCK_FULL_LENGTH from hlen]
  · unfold Block.Reset arrayB
    rw [if_neg (by simp)]
    simp only [Except.ok.injEq]
    unfold NewAccumulationBlock
    simp only [Block.mk.injEq]
    exact ⟨by trivial, by trivial, by rw [arrayVals_length]⟩

theorem curRep_lookup {b : Block} {C : List (Nat × Nat)} {id : Nat} (h : CurRep b C)
    (hC : GoodE C) (hid : id ≤ BLOCK_IDX_MASK) : b.Lookup id = .ok (listOr C id) := by
  rcases h with ⟨junk, hlen, rfl⟩ | ⟨hlen, rfl⟩
  · exact lookup_pairsB hC (by omega) hid
  · exact lookup_arrayB hC.2 hid

theorem curRep_append {b : Block} {C : List (Nat × Nat)} {i v : Nat} (h : CurRep b C)
    (hC : GoodE C) (hi : i ≤ BLOCK_IDX_MASK) (hv : v ≤ BLOCK_VAL_MASK) :
    ∃ b2, b.Append i v = .ok b2 ∧ CurRep b2 (C ++ [(i, v)]) := by
  rcases h with ⟨junk, hlen, rfl⟩ | ⟨hlen, rfl⟩
  · rcases Nat.lt_or_ge C.length BLOCK_FULL_LENGTH with hlt | hge
    · have hj : junk ≠ [] := by
        intro hc
        rw [hc, List.length_nil] at hlen
        omega
      refine ⟨pairsB (C ++ [(i, v)]) junk.tail, append_pairsB hlt hj hi hv, Or.inl ⟨junk.tail, ?_, rfl⟩⟩
      rw [List.length_append, List.length_singleton, List.length_tail]
      omega
    · have hje : junk = [] := by
        rw [← List.length_eq_zero]
        omega
      subst hje
      have hCl : C.length = BLOCK_FULL_LENGTH := by
        rw [List.length_nil] at hlen
        omega
      refine ⟨arrayB (C ++ [(i, v)]), append_pairsB_full hC.2 hCl hi hv, Or.inr ⟨?_, rfl⟩⟩
      rw [List.length_append, List.length_singleton]
      omega
  · refine ⟨arrayB (C ++ [(i, v)]), append_arrayB hi hv, Or.inr ⟨?_, rfl⟩⟩
    rw [List.length_append, List.length_singleton]
    omega

/-! ### GoodE / GoodR / listOr helpers -/

theorem goodE_append {C : List (Nat × Nat)} {i v : Nat} (hC : GoodE C)
    (hlt : ∀ q ∈ C, q.1 < i) (hi : i ≤ BLOCK_IDX_MASK) (hv : v ≤ BLOCK_VAL_MASK) :
    GoodE (C ++ [(i, v)]) := by
  constructor
  · rw [List.pairwise_append]
    refine ⟨hC.1, List.pairwise_singleton _ _, ?_⟩
    intro q hq r hr
    rw [List.mem_singleton.mp hr]
    exact hlt q hq
  · intro q hq
    rcases List.mem_append.mp hq with h | h
    · exact hC.2 q h
    · rw [List.mem_singleton.mp h]
      exact ⟨hi, hv⟩

theorem goodR_pairwise {R : List (Nat × Nat)} (hR : GoodR R) :
    R.Pairwise (fun p q => p.1 < q.1) := by
  have h := List.chain'_iff_pairwise.mp hR.2.1
  rwa [List.pairwise_map] at h

theorem goodR_getLast_max {R : List (Nat × Nat)} {p : Nat × Nat} (hR : GoodR R)
    (hlast : R.getLast? = some p) : ∀ q ∈ R.dropLast, q.1 < p.1 := by
  intro q hq
  have hd : R.dropLast ++ [p] = R := by
    have hne : R ≠ [] := hR.1
    have h2 := List.dropLast_concat_getLast hne
    rw [List.getLast?_eq_getLast _ hne, Option.some_inj] at hlast
    rw [hlast] at h2
    exact h2
  have hpw := goodR_pairwise hR
  rw [← hd, List.pairwise_append] at hpw
  exact hpw.2.2 q hq p (List.mem_singleton_self p)

theorem listOr_dropLast {R : List (Nat × Nat)} {p : Nat × Nat} {id : Nat}
    (hne : R ≠ []) (hlast : R.getLast? = some p) :
    listOr R id = listOr R.dropLast id ||| (if p.1 = id then p.2 else 0) := by
  have hd : R.dropLast ++ [p] = R := by
    have h2 := List.dropLast_concat_getLast hne
    rw [List.getLast?_eq_getLast _ hne, Option.some_inj] at hlast
    rw [hlast] at h2
    exact h2
  conv_lhs => rw [← hd]
  rw [listOr_append, listOr_singleton]

theorem getLast_snoc {R : List (Nat × Nat)} (p : Nat × Nat) :
    (R ++ [p]).getLast? = some p := by
  rw [List.getLast?_concat]

theorem getLast_decomp {R : List (Nat × Nat)} {p : Nat × Nat}
    (hlast : R.getLast? = some p) : R.dropLast ++ [p] = R := by
  have hne : R ≠ [] := by rintro rfl; simp at hlast
  have h2 := List.dropLast_concat_getLast hne
  rw [List.getLast?_eq_getLast _ hne, Option.some_inj] at hlast
  rw [hlast] at h2
  exact h2

theorem goodR_le_getLast {R : List (Nat × Nat)} {p : Nat × Nat} (hR : GoodR R)
    (hlast : R.getLast? = some p) : ∀ q ∈ R, q.1 ≤ p.1 := by
  intro q hq
  rw [← getLast_decomp hlast] at hq
  rcases List.mem_append.mp hq with h | h
  · exact Nat.le_of_lt (goodR_getLast_max hR hlast q h)
  · rw [List.mem_singleton.mp h]

theorem shardsOr_append_ne {S : List (Nat × List (Nat × Nat))} {k : Nat}
    {E : List (Nat × Nat)} {id : Nat} (h : id >>> BLOCK_IDX_BITS ≠ k) :
    shardsOr (S ++ [(k, E)]) id = shardsOr S id := by
  unfold shardsOr
  rw [lookupE_append]
  cases hl : lookupE S (id >>> BLOCK_IDX_BITS) with
  | some E2 => rfl
  | none =>
    show (match lookupE [(k, E)] (id >>> BLOCK_IDX_BITS) with
      | some E2 => listOr E2 (id &&& BLOCK_IDX_MASK)
      | none => 0) = 0
    rw [show lookupE [(k, E)] (id >>> BLOCK_IDX_BITS)
        = if k = id >>> BLOCK_IDX_BITS then some E else none from rfl,
      if_neg (fun hc => h hc.symm)]

theorem shardsOr_append_self {S : List (Nat × List (Nat × Nat))} {k : Nat}
    {E : List (Nat × Nat)} {id : Nat}
    (hnone : lookupE S (id >>> BLOCK_IDX_BITS) = none) (h : id >>> BLOCK_IDX_BITS = k) :
    shardsOr (S ++ [(k, E)]) id = listOr E (id &&& BLOCK_IDX_MASK) := by
  unfold shardsOr
  rw [lookupE_append, hnone]
  show (match lookupE [(k, E)] (id >>> BLOCK_IDX_BITS) with
    | some E2 => listOr E2 (id &&& BLOCK_IDX_MASK)
    | none => 0) = _
  rw [show lookupE [(k, E)] (id >>> BLOCK_IDX_BITS)
      = if k = id >>> BLOCK_IDX_BITS then some E else none from rfl,
    if_pos h.symm]

theorem shardsOr_none {S : List (Nat × List (Nat × Nat))} {id : Nat}
    (hnone : lookupE S (id >>> BLOCK_IDX_BITS) = none) : shardsOr S id = 0 := by
  unfold shardsOr
  rw [hnone]

theorem bind_ok_reduce {ε α β : Type} (a : α) (f : α → Except ε β) :
    (do let x ← (Except.ok a : Except ε α); f x) = f a := rfl

/-- One `MultiBlock.Append` step preserves the invariant, tracking the record
history through `collapseSnoc`. -/
theorem mbInv_append {m : MultiBlock} {R : List (Nat × Nat)} {i v : Nat}
    (hinv : MBInv m R) (hR : GoodR R) (hle : m.LastId ≤ i) (hv : v ≤ BLOCK_VAL_MASK) :
    ∃ m2, m.Append i v = .ok m2 ∧ MBInv m2 (collapseSnoc R i v) ∧
      GoodR (collapseSnoc R i v) ∧ m2.LastId = i := by
  obtain ⟨S, C, p, hlast, hLid, hLval, hcur, hgC, hClt, hBlocks, hSchain, hSlt, hglue⟩ := hinv
  have hp2 : p.2 ≤ BLOCK_VAL_MASK :=
    hR.2.2 p (List.mem_of_mem_getLast? (by rw [hlast]; rfl))
  have hRd : R.dropLast ++ [p] = R := getLast_decomp hlast
  have hRne : R ≠ [] := hR.1
  rw [hLid] at hle
  have hcs : collapseSnoc R i v =
      if i = p.1 then R.dropLast ++ [(p.1, p.2 ||| v)] else R ++ [(i, v)] := by
    unfold collapseSnoc
    rw [hlast]
  by_cases hip : i = p.1
  · -- collapse into the pending pair
    rw [hcs, if_pos hip]
    refine ⟨{ m with LastVal := p.2 ||| v }, ?_, ?_, ?_, hLid.trans hip.symm⟩
    · unfold MultiBlock.Append
      rw [hLid, hLval, if_neg (by omega), if_neg (by omega), if_pos hip]
    · refine ⟨S, C, (p.1, p.2 ||| v), getLast_snoc _, hLid, rfl, hcur, hgC, hClt,
        hBlocks, hSchain, hSlt, ?_⟩
      intro id
      show listOr (R.dropLast ++ [(p.1, p.2 ||| v)]) id =
        if id = p.1 then p.2 ||| v
        else if id >>> BLOCK_IDX_BITS = p.1 >>> BLOCK_IDX_BITS then
          listOr C (id &&& BLOCK_IDX_MASK)
        else shardsOr S id
      rw [listOr_append, listOr_singleton]
      by_cases hid : id = p.1
      · rw [if_pos hid, if_pos hid.symm,
          listOr_eq_zero_of_not_mem
            (fun q hq => by have := goodR_getLast_max hR hlast q hq; omega),
          Nat.zero_or]
      · rw [if_neg hid, if_neg (fun h => hid h.symm), Nat.or_zero]
        have hdl : listOr R.dropLast id = listOr R id := by
          rw [listOr_dropLast hRne hlast, if_neg (fun h => hid h.symm), Nat.or_zero]
        rw [hdl, hglue id, if_neg hid]
    · refine ⟨by simp, ?_, ?_⟩
      · have hids : ((R.dropLast ++ [(p.1, p.2 ||| v)]).map Prod.fst) = R.map Prod.fst := by
          conv_rhs => rw [← hRd]
          simp [List.map_append]
        rw [hids]
        exact hR.2.1
      · intro q hq
        rcases List.mem_append.mp hq with h | h
        · exact hR.2.2 q (List.dropLast_subset R h)
        · rw [List.mem_singleton.mp h]
          exact or_le_mask hp2 hv
  · -- a fresh id: flush the pending pair
    have hgt : p.1 < i := by omega
    rw [hcs, if_neg hip]
    obtain ⟨cur2, hap, hrep2⟩ := curRep_append hcur hgC (low_le_idxmask p.1) hp2
    have hgC2 : GoodE (C ++ [(p.1 &&& BLOCK_IDX_MASK, p.2)]) :=
      goodE_append hgC hClt (low_le_idxmask p.1) hp2
    have hRne2 : R ++ [(i, v)] ≠ [] := by simp
    have hchain2 : ((R ++ [(i, v)]).map Prod.fst).Chain' (fun a b => a < b) := by
      rw [List.map_append, List.chain'_append]
      refine ⟨hR.2.1, List.chain'_singleton _, ?_⟩
      intro x hx y hy
      rw [List.getLast?_map, hlast] at hx
      simp only [Option.map_some', Option.mem_def, Option.some_inj] at hx
      simp only [List.map_cons, List.map_nil, List.head?_cons, Option.mem_def,
        Option.some_inj] at hy
      rw [← hx, ← hy]
      exact hgt
    have hvals2 : ∀ q ∈ R ++ [(i, v)], q.2 ≤ BLOCK_VAL_MASK := by
      intro q hq
      rcases List.mem_append.mp hq with h | h
      · exact hR.2.2 q h
      · rw [List.mem_singleton.mp h]
        exact hv
    have hR0 : listOr R i = 0 :=
      listOr_eq_zero_of_not_mem
        (fun q hq => by have := goodR_le_getLast hR hlast q hq; omega)
    by_cases hup : i >>> BLOCK_IDX_BITS = p.1 >>> BLOCK_IDX_BITS
    · -- same shard: flush into Current
      refine ⟨{ m with Current := cur2, LastId := i, LastVal := v }, ?_, ?_,
        ⟨hRne2, hchain2, hvals2⟩, rfl⟩
      · unfold MultiBlock.Append
        rw [hLid, hLval, if_neg (by omega), if_neg (by omega), if_neg hip, hap,
          bind_ok_reduce, if_neg (fun hc => hc hup)]
      · refine ⟨S, C ++ [(p.1 &&& BLOCK_IDX_MASK, p.2)], (i, v), getLast_snoc _, rfl, rfl,
          hrep2, hgC2, ?_, hBlocks, hSchain, ?_, ?_⟩
        · intro q hq
          show q.1 < i &&& BLOCK_IDX_MASK
          have hll : p.1 &&& BLOCK_IDX_MASK < i &&& BLOCK_IDX_MASK :=
            low_lt_of_lt_same_upper hgt hup.symm
          rcases List.mem_append.mp hq with h | h
          · have := hClt q h
            omega
          · rw [List.mem_singleton.mp h]
            exact hll
        · intro q hq
          refine ⟨?_, (hSlt q hq).2⟩
          show q.1 < i >>> BLOCK_IDX_BITS
          rw [hup]
          exact (hSlt q hq).1
        · intro id
          show listOr (R ++ [(i, v)]) id =
            if id = i then v
            else if id >>> BLOCK_IDX_BITS = i >>> BLOCK_IDX_BITS then
              listOr (C ++ [(p.1 &&& BLOCK_IDX_MASK, p.2)]) (id &&& BLOCK_IDX_MASK)
            else shardsOr S id
          rw [listOr_append, listOr_singleton]
          by_cases hidi : id = i
          · rw [if_pos hidi, if_pos hidi.symm, hidi, hR0, Nat.zero_or]
          · rw [if_neg hidi, if_neg (fun h => hidi h.symm), Nat.or_zero, hglue id]
            by_cases hidp : id = p.1
            · rw [if_pos hidp, if_pos (by rw [hidp, ← hup]),
                listOr_append, listOr_singleton,
                listOr_eq_zero_of_not_mem
                  (fun q hq => by have := hClt q hq; rw [hidp]; omega),
                if_pos (by rw [hidp]), Nat.zero_or]
            · rw [if_neg hidp]
              by_cases hidup : id >>> BLOCK_IDX_BITS = p.1 >>> BLOCK_IDX_BITS
              · rw [if_pos hidup, if_pos (by rw [hidup, hup]),
                  listOr_append, listOr_singleton,
                  if_neg (fun hc => hidp (eq_of_upper_low hidup hc.symm)),
                  Nat.or_zero]
              · rw [if_neg hidup, if_neg (fun hc => hidup (hc.trans hup))]
    · -- new shard: push Current into the map
      have hpu : p.1 >>> BLOCK_IDX_BITS < i >>> BLOCK_IDX_BITS := by
        have := upper_le_of_le (Nat.le_of_lt hgt)
        omega
      have hkne : ∀ q ∈ S.map (fun q => (q.1, frozenOf q.2)),
          q.1 ≠ p.1 >>> BLOCK_IDX_BITS := by
        intro q hq
        obtain ⟨r, hr, rfl⟩ := List.mem_map.mp hq
        have := (hSlt r hr).1
        omega
      have hSnone : ∀ u, p.1 >>> BLOCK_IDX_BITS ≤ u → lookupE S u = none := by
        intro u hu
        refine lookupE_eq_none (fun q hq => ?_)
        have := (hSlt q hq).1
        omega
      refine ⟨MultiBlock.mk (insertB m.Blocks (p.1 >>> BLOCK_IDX_BITS) cur2.Copy)
          NewAccumulationBlock i v, ?_, ?_, ⟨hRne2, hchain2, hvals2⟩, rfl⟩
      · unfold MultiBlock.Append
        rw [hLid, hLval, if_neg (by omega), if_neg (by omega), if_neg hip, hap,
          bind_ok_reduce, if_pos hup, curRep_reset hrep2, bind_ok_reduce]
      · have hBlocks2 : insertB m.Blocks (p.1 >>> BLOCK_IDX_BITS) cur2.Copy =
            (S ++ [(p.1 >>> BLOCK_IDX_BITS, C ++ [(p.1 &&& BLOCK_IDX_MASK, p.2)])]).map
              (fun q => (q.1, frozenOf q.2)) := by
          rw [hBlocks, insertB_of_not_mem _ hkne, curRep_copy hrep2, List.map_append]
          rfl
        refine ⟨S ++ [(p.1 >>> BLOCK_IDX_BITS, C ++ [(p.1 &&& BLOCK_IDX_MASK, p.2)])],
          [], (i, v), getLast_snoc _, rfl, rfl, curRep_new,
          ⟨List.Pairwise.nil, fun q hq => absurd hq (List.not_mem_nil q)⟩,
          fun q hq => absurd hq (List.not_mem_nil q), hBlocks2, ?_, ?_, ?_⟩
        · rw [List.map_append, List.chain'_append]
          refine ⟨hSchain, List.chain'_singleton _, ?_⟩
          intro x hx y hy
          simp only [List.map_cons, List.map_nil, List.head?_cons, Option.mem_def,
            Option.some_inj] at hy
          have hxmem : x ∈ S.map Prod.fst := by
            cases hgl : (S.map Prod.fst).getLast? with
            | none => rw [hgl] at hx; cases hx
            | some a =>
              rw [hgl] at hx
              simp only [Option.mem_def, Option.some_inj] at hx
              rw [hx] at hgl
              exact List.mem_of_mem_getLast? (by rw [hgl]; rfl)
          obtain ⟨r, hr, rfl⟩ := List.mem_map.mp hxmem
          rw [← hy]
          exact (hSlt r hr).1
        · intro q hq
          rcases List.mem_append.mp hq with h | h
          · refine ⟨?_, (hSlt q h).2⟩
            show q.1 < i >>> BLOCK_IDX_BITS
            have := (hSlt q h).1
            omega
          · rw [List.mem_singleton.mp h]
            exact ⟨hpu, hgC2⟩
        · intro id
          show listOr (R ++ [(i, v)]) id =
            if id = i then v
            else if id >>> BLOCK_IDX_BITS = i >>> BLOCK_IDX_BITS then
              listOr [] (id &&& BLOCK_IDX_MASK)
            else shardsOr
              (S ++ [(p.1 >>> BLOCK_IDX_BITS, C ++ [(p.1 &&& BLOCK_IDX_MASK, p.2)])]) id
          rw [listOr_append, listOr_singleton]
          by_cases hidi : id = i
          · rw [if_pos hidi, if_pos hidi.symm, hidi, hR0, Nat.zero_or]
          · rw [if_neg hidi, if_neg (fun h => hidi h.symm), Nat.or_zero, hglue id]
            by_cases hidp : id = p.1
            · rw [if_pos hidp,
                if_neg (fun hc => hup (by rw [← hc, hidp])),
                shardsOr_append_self (hSnone _ (by rw [hidp])) (by rw [hidp]),
                listOr_append, listOr_singleton,
                listOr_eq_zero_of_not_mem
                  (fun q hq => by have := hClt q hq; rw [hidp]; omega),
                if_pos (by rw [hidp]), Nat.zero_or]
            · rw [if_neg hidp]
              by_cases hidup : id >>> BLOCK_IDX_BITS = p.1 >>> BLOCK_IDX_BITS
              · rw [if_pos hidup, if_neg (fun hc => hup (hc.symm.trans hidup)),
                  shardsOr_append_self (hSnone _ (by rw [hidup])) hidup,
                  listOr_append, listOr_singleton,
                  if_neg (fun hc => hidp (eq_of_upper_low hidup hc.symm)),
                  Nat.or_zero]
              · rw [if_neg hidup]
                by_cases hidiu : id >>> BLOCK_IDX_BITS = i >>> BLOCK_IDX_BITS
                · rw [if_pos hidiu,
                    shardsOr_none (hSnone _ (by omega))]
                  rfl
                · rw [if_neg hidiu, shardsOr_append_ne hidup]

theorem lookupE_mem {S : List (Nat × List (Nat × Nat))} {k : Nat} {E : List (Nat × Nat)}
    (h : lookupE S k = some E) : (k, E) ∈ S := by
  induction S with
  | nil => cases h
  | cons q t ih =>
    rw [lookupE] at h
    split at h
    · rename_i hq
      rw [Option.some_inj] at h
      have hqe : (k, E) = q := by rw [← hq, ← h]
      rw [hqe]
      exact List.mem_cons_self q t
    · exact List.mem_cons_of_mem q (ih h)

theorem mbInv_new : MBInv NewMultiBlock [(0, 0)] := by
  refine ⟨[], [], (0, 0), rfl, rfl, rfl, curRep_new,
    ⟨List.Pairwise.nil, fun q hq => absurd hq (List.not_mem_nil q)⟩,
    fun q hq => absurd hq (List.not_mem_nil q), rfl, List.chain'_nil,
    fun q hq => absurd hq (List.not_mem_nil q), ?_⟩
  intro id
  show listOr [(0, 0)] id = if id = 0 then 0
    else if id >>> BLOCK_IDX_BITS = 0 >>> BLOCK_IDX_BITS then listOr [] (id &&& BLOCK_IDX_MASK)
    else shardsOr [] id
  rw [listOr_singleton]
  by_cases h : (0 : Nat) = id
  · rw [if_pos h, if_pos h.symm]
  · rw [if_neg h, if_neg (fun hc => h hc.symm)]
    split
    · rfl
    · rfl

theorem goodR_new : GoodR [(0, 0)] := by
  refine ⟨by simp, List.chain'_singleton _, ?_⟩
  intro p hp
  rw [List.mem_singleton.mp hp]
  exact Nat.zero_le _

/-- Running any appendable input list from an invariant state succeeds and
tracks the record history. -/
theorem mb_run {K : List (Nat × Nat)} :
    ∀ {m : MultiBlock} {R : List (Nat × Nat)}, MBInv m R → GoodR R → GoodK m.LastId K →
    ∃ m2, mbAppendList m K = .ok m2 ∧ MBInv m2 (mbRun R K) ∧ GoodR (mbRun R K) ∧
      List.Chain (fun a b => a ≤ b) m2.LastId [] := by
  induction K with
  | nil =>
    intro m R h1 h2 _
    exact ⟨m, rfl, h1, h2, List.Chain.nil⟩
  | cons q K ih =>
    intro m R h1 h2 hK
    have hc := hK.1
    rw [List.map_cons] at hc
    cases hc with
    | cons hrel hchain =>
      obtain ⟨m2, hstep, hinv2, hR2, hlid2⟩ := mbInv_append h1 h2 hrel (hK.2 q (List.mem_cons_self q K))
      have hK2 : GoodK m2.LastId K := by
        rw [hlid2]
        exact ⟨hchain, fun r hr => hK.2 r (List.mem_cons_of_mem q hr)⟩
      obtain ⟨m3, hrun, hinv3, hR3, _⟩ := ih hinv2 hR2 hK2
      refine ⟨m3, ?_, hinv3, hR3, List.Chain.nil⟩
      show (m.Append q.1 q.2).bind (fun m2 => mbAppendList m2 K) = .ok m3
      rw [hstep]
      exact hrun

/-- Under the invariant, `MultiBlock.Lookup` computes the record history's OR
at every id. -/
theorem mb_lookup {m : MultiBlock} {R : List (Nat × Nat)} (hinv : MBInv m R)
    (hR : GoodR R) (id : Nat) : m.Lookup id = .ok (listOr R id) := by
  obtain ⟨S, C, p, hlast, hLid, hLval, hcur, hgC, hClt, hBlocks, hSchain, hSlt, hglue⟩ := hinv
  unfold MultiBlock.Lookup
  rw [hLid, hLval, hglue id]
  by_cases h1 : id = p.1
  · rw [if_pos h1, if_pos h1]
  · rw [if_neg h1, if_neg h1]
    by_cases h2 : id >>> BLOCK_IDX_BITS = p.1 >>> BLOCK_IDX_BITS
    · rw [if_pos h2, if_pos h2, curRep_lookup hcur hgC (low_le_idxmask id)]
    · rw [if_neg h2, if_neg h2, hBlocks, lookupB_map_frozen]
      unfold shardsOr
      cases hl : lookupE S (id >>> BLOCK_IDX_BITS) with
      | some E =>
        show (frozenOf E).Lookup (id &&& BLOCK_IDX_MASK)
          = Except.ok (listOr E (id &&& BLOCK_IDX_MASK))
        exact lookup_frozenOf ((hSlt _ (lookupE_mem hl)).2) (low_le_idxmask id)
      | none => rfl

theorem listOr_collapseSnoc_ne {R : List (Nat × Nat)} {i v id : Nat} (hne : id ≠ i) :
    listOr (collapseSnoc R i v) id = listOr R id := by
  unfold collapseSnoc
  cases hgl : R.getLast? with
  | none =>
    have hR : R = [] := by
      cases R with
      | nil => rfl
      | cons a t => simp at hgl
    subst hR
    show listOr [(i, v)] id = listOr [] id
    rw [listOr_singleton, if_neg (fun hc => hne hc.symm)]
    rfl
  | some p =>
    have hRne : R ≠ [] := by rintro rfl; simp at hgl
    show listOr (if i = p.1 then R.dropLast ++ [(p.1, p.2 ||| v)] else R ++ [(i, v)]) id
      = listOr R id
    by_cases hq : i = p.1
    · rw [if_pos hq, listOr_append, listOr_singleton,
        if_neg (fun hc => hne (hq.trans hc).symm), Nat.or_zero,
        listOr_dropLast hRne hgl, if_neg (fun hc => hne (hq.trans hc).symm), Nat.or_zero]
    · rw [if_neg hq, listOr_append, listOr_singleton,
        if_neg (fun hc => hne hc.symm), Nat.or_zero]

theorem listOr_mbRun_gt {K : List (Nat × Nat)} :
    ∀ {R : List (Nat × Nat)} {i : Nat}, (∀ q ∈ K, i < q.1) →
    listOr (mbRun R K) i = listOr R i := by
  induction K with
  | nil => intro R i _; rfl
  | cons q K ih =>
    intro R i hlt
    show listOr (mbRun (collapseSnoc R q.1 q.2) K) i = _
    rw [ih (fun r hr => hlt r (List.mem_cons_of_mem _ hr)),
      listOr_collapseSnoc_ne (by have := hlt q (List.mem_cons_self q K); omega)]

/-! ## Claim C5 -/

/-- C5 (amended): for a multi-block built by valid appends, appending
`(i, v1)` then `(i, v2)` under a *strictly larger* id `i` makes `Lookup i`
return `v1 ||| v2`, and the value persists under any further valid appends
with ids beyond `i`.  (With `i` merely equal to the last appended id the OR
additionally folds in the pending value of `i`; see the counterexample.) -/
theorem C5_version_collapse {L : List (Nat × Nat)} {m : MultiBlock} {i v1 v2 : Nat}
    (hL : GoodK 0 L) (hm : mbAppendList NewMultiBlock L = .ok m)
    (hi : m.LastId < i) (hv1 : v1 ≤ BLOCK_VAL_MASK) (hv2 : v2 ≤ BLOCK_VAL_MASK) :
    ∃ m2, mbAppendList m [(i, v1), (i, v2)] = .ok m2 ∧
      m2.Lookup i = .ok (v1 ||| v2) ∧
      ∀ K m3, GoodK i K → (∀ q ∈ K, i < q.1) → mbAppendList m2 K = .ok m3 →
        m3.Lookup i = .ok (v1 ||| v2) := by
  obtain ⟨m', hrun, hinv, hR, -⟩ := mb_run (K := L) mbInv_new goodR_new hL
  rw [hm] at hrun
  have hmm := Except.ok.inj hrun
  subst hmm
  have hinv0 := hinv
  obtain ⟨S, C, p, hlast, hLid, -⟩ := hinv0
  have hplt : p.1 < i := by rw [hLid] at hi; exact hi
  have hni : ¬ i = p.1 := by omega
  have hR1 : collapseSnoc (mbRun [(0, 0)] L) i v1 = mbRun [(0, 0)] L ++ [(i, v1)] := by
    unfold collapseSnoc
    rw [hlast]
    show (if i = p.1 then (mbRun [(0, 0)] L).dropLast ++ [(p.1, p.2 ||| v1)]
      else mbRun [(0, 0)] L ++ [(i, v1)]) = mbRun [(0, 0)] L ++ [(i, v1)]
    rw [if_neg hni]
  obtain ⟨ma, hstep1, hinv1, hGood1, hlid1⟩ :=
    mbInv_append (i := i) (v := v1) hinv hR (by omega) hv1
  rw [hR1] at hinv1 hGood1
  have hR2 : collapseSnoc (mbRun [(0, 0)] L ++ [(i, v1)]) i v2
      = mbRun [(0, 0)] L ++ [(i, v1 ||| v2)] := by
    unfold collapseSnoc
    rw [getLast_snoc]
    show (if i = i then (mbRun [(0, 0)] L ++ [(i, v1)]).dropLast ++ [(i, v1 ||| v2)]
      else mbRun [(0, 0)] L ++ [(i, v1)] ++ [(i, v2)]) = mbRun [(0, 0)] L ++ [(i, v1 ||| v2)]
    rw [if_pos rfl, List.dropLast_concat]
  obtain ⟨m2, hstep2, hinv2, hGood2, hlid2⟩ := mbInv_append hinv1 hGood1 (le_of_eq hlid1) hv2
  rw [hR2] at hinv2 hGood2
  have hzero : listOr (mbRun [(0, 0)] L) i = 0 :=
    listOr_eq_zero_of_not_mem
      (fun q hq => by have := goodR_le_getLast hR hlast q hq; omega)
  have hO : listOr (mbRun [(0, 0)] L ++ [(i, v1 ||| v2)]) i = v1 ||| v2 := by
    rw [listOr_append, listOr_singleton, if_pos rfl, hzero, Nat.zero_or]
  refine ⟨m2, ?_, ?_, ?_⟩
  · show (m.Append i v1).bind (fun b => mbAppendList b [(i, v2)]) = .ok m2
    rw [hstep1]
    show (ma.Append i v2).bind (fun b => mbAppendList b []) = .ok m2
    rw [hstep2]
    rfl
  · rw [mb_lookup hinv2 hGood2 i, hO]
  · intro K m3 hK hgt hm3
    obtain ⟨m3a, hrun3, hinv3, hR3, -⟩ := mb_run hinv2 hGood2 (by rw [hlid2]; exact hK)
    rw [hm3] at hrun3
    have h3 := Except.ok.inj hrun3
    subst h3
    rw [mb_lookup hinv3 hR3 i, listOr_mbRun_gt hgt, hO]

/-- Concrete run for the C5 counterexample: appending `(3, 1)` to a fresh
multi-block flushes the `(0, 0)` sentinel into `Current` and leaves the pair
`(3, 1)` pending. -/
theorem mbAppendList_cons (m : MultiBlock) (p : Nat × Nat) (L : List (Nat × Nat)) :
    mbAppendList m (p :: L) = (m.Append p.1 p.2).bind (fun b => mbAppendList b L) := rfl

theorem mbAppendList_nil (m : MultiBlock) : mbAppendList m [] = .ok m := rfl

theorem except_bind_ok {α β : Type} (a : α) (f : α → Except Err β) :
    (Except.ok a).bind f = f a := rfl

theorem mb_append_31 : mbAppendList NewMultiBlock [(3, 1)]
    = .ok (MultiBlock.mk [] (accOf [(0, 0)]) 3 1) := by
  have h1 : NewMultiBlock.Append 3 1 = .ok (MultiBlock.mk [] (accOf [(0, 0)]) 3 1) := by
    unfold MultiBlock.Append
    rw [if_neg (show ¬ (3 : Nat) < NewMultiBlock.LastId by decide)]
    rw [if_neg (show ¬ (1 : Nat) > BLOCK_VAL_MASK by decide)]
    rw [if_neg (show ¬ (3 : Nat) = NewMultiBlock.LastId by decide)]
    rw [show NewMultiBlock.Current.Append (NewMultiBlock.LastId &&& BLOCK_IDX_MASK)
          NewMultiBlock.LastVal = (accOf []).Append 0 0 by rw [accOf_nil]; rfl]
    rw [accOf_append (E := []) (i := 0) (v := 0)
        (fun q hq => absurd hq (List.not_mem_nil q)) (by decide) (by decide)]
    rw [bind_ok_reduce]
    rw [if_neg (show ¬ ((3 : Nat) >>> BLOCK_IDX_BITS ≠ NewMultiBlock.LastId >>> BLOCK_IDX_BITS)
      by decide)]
    rfl
  rw [mbAppendList_cons, h1, except_bind_ok, mbAppendList_nil]

/-- C5 counterexample: with `(3, 1)` already pending, appending `(3, 2)` then
`(3, 4)` and looking up `3` returns `1 ||| 2 ||| 4 = 7`, not `2 ||| 4 = 6`:
the pending value of the repeated id is folded in. -/
theorem C5_counterexample :
    ∃ m m2, mbAppendList NewMultiBlock [(3, 1)] = .ok m ∧ m.LastId = 3 ∧
      mbAppendList m [(3, 2), (3, 4)] = .ok m2 ∧
      m2.Lookup 3 = .ok 7 ∧ ((2 : Nat) ||| 4 = 6) ∧ (7 : Nat) ≠ 6 := by
  refine ⟨MultiBlock.mk [] (accOf [(0, 0)]) 3 1, MultiBlock.mk [] (accOf [(0, 0)]) 3 7,
    mb_append_31, rfl, ?_, by rfl, by decide, by decide⟩
  have h2 : (MultiBlock.mk [] (accOf [(0, 0)]) 3 1).Append 3 2
      = .ok (MultiBlock.mk [] (accOf [(0, 0)]) 3 3) := by
    unfold MultiBlock.Append
    rw [if_neg (show ¬ (3 : Nat) < 3 by decide),
      if_neg (show ¬ (2 : Nat) > BLOCK_VAL_MASK by decide),
      if_pos (show (3 : Nat) = 3 from rfl)]
    rfl
  have h3 : (MultiBlock.mk [] (accOf [(0, 0)]) 3 3).Append 3 4
      = .ok (MultiBlock.mk [] (accOf [(0, 0)]) 3 7) := by
    unfold MultiBlock.Append
    rw [if_neg (show ¬ (3 : Nat) < 3 by decide),
      if_neg (show ¬ (4 : Nat) > BLOCK_VAL_MASK by decide),
      if_pos (show (3 : Nat) = 3 from rfl)]
    rfl
  rw [mbAppendList_cons, h2, except_bind_ok, mbAppendList_cons, h3, except_bind_ok,
    mbAppendList_nil]

/-- C5 witness: the amended theorem applied at the state with `(3, 1)`
pending and the fresh id `5`. -/
theorem C5_version_collapse_witness :
    ∃ m2, mbAppendList (MultiBlock.mk [] (accOf [(0, 0)]) 3 1) [(5, 2), (5, 4)] = .ok m2 ∧
      m2.Lookup 5 = .ok (2 ||| 4) ∧
      ∀ K m3, GoodK 5 K → (∀ q ∈ K, 5 < q.1) →
        mbAppendList m2 K = .ok m3 → m3.Lookup 5 = .ok (2 ||| 4) :=
  C5_version_collapse (L := [(3, 1)])
    ⟨List.Chain.cons (by omega) List.Chain.nil,
      fun p hp => by rw [List.mem_singleton.mp hp]; decide⟩
    mb_append_31 (by decide) (by decide) (by decide)

/-! ## UnAppend and the push/unpush round trip -/

theorem getD_snoc (l : List Nat) (a d : Nat) : (l ++ [a]).getD l.length d = a := by
  induction l with
  | nil => rfl
  | cons x t ih =>
    show (t ++ [a]).getD t.length d = a
    exact ih

theorem arrayVals_words_lt {E : List (Nat × Nat)}
    (hE : ∀ p ∈ E, p.2 ≤ BLOCK_VAL_MASK) : ∀ w ∈ arrayVals E, w < 2 ^ 32 := by
  unfold arrayVals
  suffices h : ∀ (a : List Nat), (∀ w ∈ a, w < 2 ^ 32) →
      ∀ w ∈ E.foldl (fun a p => writePacked a p.1 p.2) a, w < 2 ^ 32 by
    refine h _ ?_
    intro w hw
    rw [List.eq_of_mem_replicate hw]
    omega
  induction E with
  | nil => exact fun a ha => ha
  | cons p E ih =>
    intro a ha
    refine ih (fun q hq => hE q (List.mem_cons_of_mem p hq)) _ ?_
    intro w hw
    unfold writePacked at hw
    rcases List.mem_or_eq_of_mem_set hw with h | h
    · exact ha w h
    · have hv := hE p (List.mem_cons_self p E)
      have h1 : a.getD (p.1 >>> BLOCK_PACKING_BITS) 0 < 2 ^ 32 := by
        rcases Nat.lt_or_ge (p.1 >>> BLOCK_PACKING_BITS) a.length with hl | hl
        · rw [List.getD_eq_getElem a 0 hl]
          exact ha _ (List.getElem_mem hl)
        · rw [List.getD_eq_default a 0 hl]
          omega
      have h2 : p.2 <<< ((p.1 &&& BLOCK_PACKING_MASK) * BLOCK_VAL_BITS) < 2 ^ 32 := by
        have he : (p.1 &&& BLOCK_PACKING_MASK) * BLOCK_VAL_BITS ≤ 16 := by
          have hm : p.1 &&& BLOCK_PACKING_MASK ≤ 1 := and_one_le p.1
          show _ * 16 ≤ 16
          omega
        rw [Nat.shiftLeft_eq]
        calc p.2 * 2 ^ ((p.1 &&& BLOCK_PACKING_MASK) * BLOCK_VAL_BITS)
            ≤ p.2 * 2 ^ 16 := Nat.mul_le_mul_left _ (Nat.pow_le_pow_right (by omega) he)
          _ < 2 ^ 32 := by
            rw [mask_eq] at hv
            have e1 : (2 : Nat) ^ 16 = 65536 := by norm_num
            have e2 : (2 : Nat) ^ 32 = 4294967296 := by norm_num
            rw [e1, e2]
            rw [e1] at hv
            omega
      rw [h]
      exact Nat.or_lt_two_pow (x := a.getD (p.1 >>> BLOCK_PACKING_BITS) 0)
        (y := p.2 <<< ((p.1 &&& BLOCK_PACKING_MASK) * BLOCK_VAL_BITS)) (n := 32) h1 h2

/-- The backward cell scan of array-mode `UnAppend`: a positive result is a
real cell value at the returned index, a zero result means every scanned word
is zero. -/
theorem unScan_spec {vals : List Nat} (hw : ∀ w ∈ vals, w < 2 ^ 32) :
    ∀ n, n ≤ BLOCK_FULL_LENGTH →
      ((unScan vals n).2 > 0 → (unScan vals n).1 ≤ BLOCK_IDX_MASK ∧
        (unScan vals n).2 = cellVal vals (unScan vals n).1) ∧
      ((unScan vals n).2 = 0 → unScan vals n = (0, 0) ∧
        ∀ i, i < n → vals.getD i 0 = 0) := by
  intro n
  induction n with
  | zero =>
    intro _
    refine ⟨fun h => absurd (show (0 : Nat) > 0 from h) (by omega),
      fun _ => ⟨rfl, fun i hi => absurd hi (by omega)⟩⟩
  | succ n ih =>
    intro hn
    have ihn := ih (by omega)
    have hvb : vals.getD n 0 < 2 ^ 32 := by
      rcases Nat.lt_or_ge n vals.length with hl | hl
      · rw [List.getD_eq_getElem vals 0 hl]
        exact hw _ (List.getElem_mem hl)
      · rw [List.getD_eq_default vals 0 hl]
        omega
    have hun : unScan vals (n + 1) =
        if vals.getD n 0 > 0 then
          match unScanWord (vals.getD n 0) with
          | some (j, vj) => ((n <<< BLOCK_PACKING_BITS) ||| j, vj)
          | none => unScan vals n
        else unScan vals n := rfl
    by_cases hv : vals.getD n 0 > 0
    · rw [if_pos hv] at hun
      by_cases h1 : (vals.getD n 0 >>> BLOCK_VAL_BITS) &&& BLOCK_VAL_MASK > 0
      · have hsw : unScanWord (vals.getD n 0)
            = some (1, (vals.getD n 0 >>> BLOCK_VAL_BITS) &&& BLOCK_VAL_MASK) := by
          unfold unScanWord
          rw [if_pos h1]
        rw [hsw] at hun
        have hun2 : unScan vals (n + 1)
            = ((n <<< BLOCK_PACKING_BITS) ||| 1,
               (vals.getD n 0 >>> BLOCK_VAL_BITS) &&& BLOCK_VAL_MASK) := hun
        rw [hun2]
        constructor
        · intro _
          refine ⟨?_, ?_⟩
          · show (n <<< 1) ||| 1 ≤ BLOCK_IDX_MASK
            rw [cell_pack n 1 (by omega)]
            have hf : BLOCK_FULL_LENGTH = 32768 := rfl
            rw [hf] at hn
            rw [idxmask_eq]
            omega
          · show (vals.getD n 0 >>> BLOCK_VAL_BITS) &&& BLOCK_VAL_MASK
              = cellVal vals ((n <<< 1) ||| 1)
            rw [cellVal_pack vals n 1 (by omega)]
            rfl
        · intro hz
          have hz2 : (vals.getD n 0 >>> BLOCK_VAL_BITS) &&& BLOCK_VAL_MASK = 0 := hz
          omega
      · by_cases h0 : vals.getD n 0 &&& BLOCK_VAL_MASK > 0
        · have hsw : unScanWord (vals.getD n 0)
              = some (0, vals.getD n 0 &&& BLOCK_VAL_MASK) := by
            unfold unScanWord
            rw [if_neg h1, if_pos h0]
          rw [hsw] at hun
          have hun2 : unScan vals (n + 1)
              = ((n <<< BLOCK_PACKING_BITS) ||| 0, vals.getD n 0 &&& BLOCK_VAL_MASK) := hun
          rw [hun2]
          constructor
          · intro _
            refine ⟨?_, ?_⟩
            · show (n <<< 1) ||| 0 ≤ BLOCK_IDX_MASK
              rw [cell_pack n 0 (by omega)]
              have hf : BLOCK_FULL_LENGTH = 32768 := rfl
              rw [hf] at hn
              rw [idxmask_eq]
              omega
            · show vals.getD n 0 &&& BLOCK_VAL_MASK = cellVal vals ((n <<< 1) ||| 0)
              rw [cellVal_pack vals n 0 (by omega)]
              rfl
          · intro hz
            have hz2 : vals.getD n 0 &&& BLOCK_VAL_MASK = 0 := hz
            omega
        · exfalso
          have hlow : vals.getD n 0 &&& BLOCK_IDX_MASK = 0 := by
            show vals.getD n 0 &&& BLOCK_VAL_MASK = 0
            omega
          have hhi2 : vals.getD n 0 >>> BLOCK_IDX_BITS = 0 := by
            have hle : vals.getD n 0 >>> BLOCK_IDX_BITS ≤ BLOCK_IDX_MASK := by
              rw [shiftr_idx_div, idxmask_eq]
              omega
            rw [← and_mask_of_le hle]
            show (vals.getD n 0 >>> BLOCK_VAL_BITS) &&& BLOCK_VAL_MASK = 0
            omega
          have hd := nat_decomp (vals.getD n 0)
          rw [hhi2, hlow] at hd
          have hd2 : (0 : Nat) <<< BLOCK_IDX_BITS ||| 0 = 0 := by decide
          rw [hd2] at hd
          omega
    · have hun2 : unScan vals (n + 1) = unScan vals n := by
        rw [hun, if_neg hv]
      rw [hun2]
      refine ⟨ihn.1, fun hz => ⟨(ihn.2 hz).1, ?_⟩⟩
      intro i hi
      rcases Nat.lt_or_ge i n with h | h
      · exact (ihn.2 hz).2 i h
      · have hin : i = n := by omega
        rw [hin]
        omega

theorem getD_len (l : List Nat) (rest : List Nat) (a d : Nat) :
    (l ++ a :: rest).getD l.length d = a := by
  induction l with
  | nil => rfl
  | cons x t ih =>
    show (t ++ a :: rest).getD t.length d = a
    exact ih

theorem goodE_front {F : List (Nat × Nat)} {q : Nat × Nat} (h : GoodE (F ++ [q])) :
    GoodE F :=
  ⟨(List.pairwise_append.mp h.1).1, fun p hp => h.2 p (List.mem_append_left _ hp)⟩

theorem unAppend_pairsB_nil {junk : List Nat} :
    (pairsB [] junk).UnAppend = .ok (0, 0, pairsB [] junk) := rfl

theorem unAppend_pairsB_snoc {F : List (Nat × Nat)} {q : Nat × Nat} {junk : List Nat}
    (hq1 : q.1 ≤ BLOCK_IDX_MASK) (hq2 : q.2 ≤ BLOCK_VAL_MASK)
    (hlen : (F ++ [q]).length ≤ BLOCK_FULL_LENGTH) :
    (pairsB (F ++ [q]) junk).UnAppend
      = .ok (q.1, q.2, pairsB F (((q.1 <<< BLOCK_VAL_BITS) ||| q.2) :: junk)) := by
  have hkv : (pairsVals (F ++ [q]) ++ junk).getD (F.length + 1 - 1) 0
      = (q.1 <<< BLOCK_VAL_BITS) ||| q.2 := by
    have h1 : pairsVals (F ++ [q]) ++ junk
        = pairsVals F ++ ((q.1 <<< BLOCK_VAL_BITS) ||| q.2) :: junk := by
      unfold pairsVals
      rw [List.map_append, List.append_assoc]
      rfl
    have h2 : F.length + 1 - 1 = (pairsVals F).length := by
      rw [pairsVals_length]
      omega
    rw [h1, h2]
    exact getD_len _ _ _ _
  rw [List.length_append, List.length_singleton] at hlen
  unfold Block.UnAppend
  simp only [pairsB, List.length_append, List.length_singleton]
  rw [if_neg (show ¬ false = true by simp),
    if_neg (show ¬ F.length + 1 > BLOCK_FULL_LENGTH by omega),
    if_pos (show F.length + 1 > 0 by omega)]
  dsimp only
  rw [hkv, pack_hi hq2, pack_lo hq2,
    if_neg (show ¬ q.1 > BLOCK_IDX_MASK by omega),
    if_neg (show ¬ q.2 > BLOCK_VAL_MASK by omega)]
  have hL : F.length + 1 - 1 = F.length := by omega
  have hV : pairsVals (F ++ [q]) ++ junk
      = pairsVals F ++ ((q.1 <<< BLOCK_VAL_BITS) ||| q.2) :: junk := by
    unfold pairsVals
    rw [List.map_append, List.append_assoc]
    rfl
  rw [hL, hV]

theorem unAppend_arrayB {E : List (Nat × Nat)}
    (hE : ∀ p ∈ E, p.1 ≤ BLOCK_IDX_MASK ∧ p.2 ≤ BLOCK_VAL_MASK) :
    ∃ I V, (arrayB E).UnAppend = .ok (I, V, arrayB E) ∧ I ≤ BLOCK_IDX_MASK ∧
      V = cellVal (arrayVals E) I := by
  have spec := unScan_spec (arrayVals_words_lt (fun p hp => (hE p hp).2))
    BLOCK_FULL_LENGTH (le_refl _)
  have hmach : ∀ r : Nat × Nat, unScan (arrayVals E) BLOCK_FULL_LENGTH = r →
      r.1 ≤ BLOCK_IDX_MASK → r.2 ≤ BLOCK_VAL_MASK →
      (arrayB E).UnAppend = .ok (r.1, r.2, arrayB E) := by
    intro r hr hr1 hr2
    unfold Block.UnAppend
    simp only [arrayB]
    rw [if_neg (show ¬ false = true by simp),
      if_pos (show (1 : Nat) <<< BLOCK_IDX_BITS > BLOCK_FULL_LENGTH by decide), hr,
      if_neg (show ¬ r.1 > BLOCK_IDX_MASK by omega),
      if_neg (show ¬ r.2 > BLOCK_VAL_MASK by omega)]
  by_cases hz : (unScan (arrayVals E) BLOCK_FULL_LENGTH).2 > 0
  · obtain ⟨hI, hV⟩ := spec.1 hz
    exact ⟨_, _, hmach _ rfl hI (by rw [hV]; exact cellVal_le _ _), hI, hV⟩
  · have h0 : (unScan (arrayVals E) BLOCK_FULL_LENGTH).2 = 0 := by omega
    obtain ⟨hr, hall⟩ := spec.2 h0
    refine ⟨0, 0, ?_, by decide, ?_⟩
    · have := hmach (0, 0) hr (by decide) (by decide)
      exact this
    · unfold cellVal
      rw [show (0 : Nat) >>> BLOCK_PACKING_BITS = 0 from rfl,
        hall 0 (by decide)]
      rw [show (0 : Nat) &&& BLOCK_PACKING_MASK = 0 from rfl]
      exact (extractCell_zero 0).symm

/-- `Block.UnAppend` on a canonical accumulation block: the returned value is
the block's OR at the returned index, and every *other* id still looks up
unchanged in the updated block. -/
theorem unAppend_accOf {E : List (Nat × Nat)} (hE : GoodE E) :
    ∃ I V b2, (accOf E).UnAppend = .ok (I, V, b2) ∧ I ≤ BLOCK_IDX_MASK ∧
      V = listOr E I ∧
      ∀ id, id ≤ BLOCK_IDX_MASK → id ≠ I → b2.Lookup id = .ok (listOr E id) := by
  rcases le_or_lt E.length BLOCK_FULL_LENGTH with hle | hgt
  · have hacc : accOf E = pairsB E (List.replicate (BLOCK_FULL_LENGTH - E.length) 0) := by
      unfold accOf
      rw [if_pos hle]
    rcases List.eq_nil_or_concat E with rfl | ⟨F, q, hEq⟩
    · refine ⟨0, 0, accOf [], by rw [hacc]; exact hacc ▸ unAppend_pairsB_nil, by decide, rfl, ?_⟩
      intro id hid _
      rw [lookup_accOf hE hid]
    · rw [List.concat_eq_append] at hEq
      subst hEq
      have hmem : q ∈ F ++ [q] := List.mem_append_right _ (List.mem_singleton_self q)
      have hq := hE.2 q hmem
      have hFlt : ∀ p ∈ F, p.1 < q.1 := by
        intro p hp
        have := List.pairwise_append.mp hE.1
        exact this.2.2 p hp q (List.mem_singleton_self q)
      refine ⟨q.1, q.2,
        pairsB F (((q.1 <<< BLOCK_VAL_BITS) ||| q.2)
          :: List.replicate (BLOCK_FULL_LENGTH - (F ++ [q]).length) 0),
        by rw [hacc]; exact unAppend_pairsB_snoc hq.1 hq.2 hle, hq.1, ?_, ?_⟩
      · have hq' : (q.1, q.2) ∈ F ++ [q] := by
          have : q = (q.1, q.2) := rfl
          rw [← this]
          exact hmem
        rw [listOr_eq_of_mem_strict hE.1 hq']
      · intro id hid hne
        rw [lookup_pairsB (goodE_front hE) (by rw [List.length_append] at hle; omega) hid,
          listOr_append, listOr_singleton, if_neg (fun hc => hne hc.symm), Nat.or_zero]
  · have hacc : accOf E = arrayB E := by
      unfold accOf
      rw [if_neg (by omega)]
    obtain ⟨I, V, hun, hI, hV⟩ := unAppend_arrayB hE.2
    refine ⟨I, V, arrayB E, by rw [hacc]; exact hun, hI, ?_, ?_⟩
    · rw [hV, cellVal_arrayVals hE.2 hI]
    · intro id hid _
      exact lookup_arrayB hE.2 hid

theorem map_fst_map_frozen (S2 : List (Nat × List (Nat × Nat))) :
    (S2.map (fun q => (q.1, frozenOf q.2))).map Prod.fst = S2.map Prod.fst := by
  rw [List.map_map]
  rfl

theorem lookupE_of_mem_keys {S2 : List (Nat × List (Nat × Nat))} {k : Nat}
    (h : k ∈ S2.map Prod.fst) : ∃ E, lookupE S2 k = some E := by
  induction S2 with
  | nil => exact absurd h (List.not_mem_nil k)
  | cons q t ih =>
    by_cases hq : q.1 = k
    · exact ⟨q.2, by rw [lookupE, if_pos hq]⟩
    · rcases List.mem_cons.mp h with h2 | h2
      · exact absurd h2.symm hq
      · obtain ⟨E, hE⟩ := ih h2
        exact ⟨E, by rw [lookupE, if_neg hq, hE]⟩

/-- `pushCurrent` from an invariant state: the whole record history lands in
the frozen shard map, keyed by ascending shard uppers. -/
theorem mbInv_push {m : MultiBlock} {R : List (Nat × Nat)} (hinv : MBInv m R)
    (hR : GoodR R) :
    ∃ S2 : List (Nat × List (Nat × Nat)),
      m.pushCurrent = .ok (MultiBlock.mk
        (S2.map (fun q => (q.1, frozenOf q.2))) NewAccumulationBlock maxLastId 0) ∧
      (S2.map Prod.fst).Nodup ∧ (∀ q ∈ S2, GoodE q.2) ∧ S2 ≠ [] ∧
      (∀ id, shardsOr S2 id = listOr R id) := by
  obtain ⟨S, C, p, hlast, hLid, hLval, hcur, hgC, hClt, hBlocks, hSchain, hSlt, hglue⟩ := hinv
  have hp2 : p.2 ≤ BLOCK_VAL_MASK :=
    hR.2.2 p (List.mem_of_mem_getLast? (by rw [hlast]; rfl))
  obtain ⟨cur2, hap, hrep2⟩ := curRep_append hcur hgC (low_le_idxmask p.1) hp2
  have hgC2 : GoodE (C ++ [(p.1 &&& BLOCK_IDX_MASK, p.2)]) :=
    goodE_append hgC hClt (low_le_idxmask p.1) hp2
  have hkne : ∀ q ∈ S.map (fun q => (q.1, frozenOf q.2)),
      q.1 ≠ p.1 >>> BLOCK_IDX_BITS := by
    intro q hq
    obtain ⟨r, hr, rfl⟩ := List.mem_map.mp hq
    have := (hSlt r hr).1
    omega
  have hSnone : ∀ u, p.1 >>> BLOCK_IDX_BITS ≤ u → lookupE S u = none := by
    intro u hu
    refine lookupE_eq_none (fun q hq => ?_)
    have := (hSlt q hq).1
    omega
  refine ⟨S ++ [(p.1 >>> BLOCK_IDX_BITS, C ++ [(p.1 &&& BLOCK_IDX_MASK, p.2)])],
    ?_, ?_, ?_, by simp, ?_⟩
  · unfold MultiBlock.pushCurrent
    rw [hLid, hLval, hap, bind_ok_reduce, curRep_reset hrep2, bind_ok_reduce,
      curRep_copy hrep2, hBlocks, insertB_of_not_mem _ hkne, List.map_append]
    rfl
  · rw [List.map_append]
    have hchain : List.Chain' (fun a b => a < b)
        (S.map Prod.fst ++ [p.1 >>> BLOCK_IDX_BITS]) := by
      rw [List.chain'_append]
      refine ⟨hSchain, List.chain'_singleton _, ?_⟩
      intro x hx y hy
      simp only [List.head?_cons, Option.mem_def, Option.some_inj] at hy
      have hxmem : x ∈ S.map Prod.fst := by
        cases hgl : (S.map Prod.fst).getLast? with
        | none => rw [hgl] at hx; cases hx
        | some a =>
          rw [hgl] at hx
          simp only [Option.mem_def, Option.some_inj] at hx
          rw [hx] at hgl
          exact List.mem_of_mem_getLast? (by rw [hgl]; rfl)
      obtain ⟨r, hr, rfl⟩ := List.mem_map.mp hxmem
      rw [← hy]
      exact (hSlt r hr).1
    show (S.map Prod.fst ++ [p.1 >>> BLOCK_IDX_BITS]).Nodup
    exact (List.chain'_iff_pairwise.mp hchain).imp (fun hlt => Nat.ne_of_lt hlt)
  · intro q hq
    rcases List.mem_append.mp hq with h | h
    · exact (hSlt q h).2
    · rw [List.mem_singleton.mp h]
      exact hgC2
  · intro id
    rw [hglue id]
    by_cases hidp : id = p.1
    · rw [if_pos hidp,
        shardsOr_append_self (hSnone _ (by rw [hidp])) (by rw [hidp]),
        listOr_append, listOr_singleton,
        listOr_eq_zero_of_not_mem
          (fun q hq => by have := hClt q hq; rw [hidp]; omega),
        if_pos (by rw [hidp]), Nat.zero_or]
    · rw [if_neg hidp]
      by_cases hidup : id >>> BLOCK_IDX_BITS = p.1 >>> BLOCK_IDX_BITS
      · rw [if_pos hidup,
          shardsOr_append_self (hSnone _ (by rw [hidup])) hidup,
          listOr_append, listOr_singleton,
          if_neg (fun hc => hidp (eq_of_upper_low hidup hc.symm)),
          Nat.or_zero]
      · rw [if_neg hidup, shardsOr_append_ne hidup]

/-- `unPushCurrent` on a pushed-shape state: it succeeds and the result's
`Lookup` computes exactly the pushed shard map's OR. -/
theorem mbInv_unpush {S2 : List (Nat × List (Nat × Nat))} {lid lval : Nat}
    (hg : ∀ q ∈ S2, GoodE q.2) (hne : S2 ≠ []) :
    ∃ mt, (MultiBlock.mk (S2.map (fun q => (q.1, frozenOf q.2)))
        NewAccumulationBlock lid lval).unPushCurrent = .ok mt ∧
      ∀ id, mt.Lookup id = .ok (shardsOr S2 id) := by
  have hkeys : ((S2.map (fun q => (q.1, frozenOf q.2))).map Prod.fst).mergeSort
      (fun a b => a ≤ b) = (S2.map Prod.fst).mergeSort (fun a b => a ≤ b) := by
    rw [map_fst_map_frozen]
  have hslen : ((S2.map Prod.fst).mergeSort (fun a b => a ≤ b)).length
      = S2.length := by
    rw [(List.mergeSort_perm (S2.map Prod.fst) (fun a b => a ≤ b)).length_eq, List.length_map]
  have hpos : 0 < S2.length := by
    cases S2 with
    | nil => exact absurd rfl hne
    | cons a t => exact Nat.succ_pos _
  have hmemk : ((S2.map Prod.fst).mergeSort (fun a b => a ≤ b)).getD
      (((S2.map Prod.fst).mergeSort (fun a b => a ≤ b)).length - 1) 0 ∈ S2.map Prod.fst := by
    refine (List.mergeSort_perm (S2.map Prod.fst) (fun a b => a ≤ b)).mem_iff.mp ?_
    rw [List.getD_eq_getElem _ 0 (by rw [hslen]; omega)]
    exact List.getElem_mem _
  obtain ⟨E, hlook⟩ := lookupE_of_mem_keys hmemk
  have hgE : GoodE E := hg _ (lookupE_mem hlook)
  obtain ⟨I, V, b2, hun, hI, hV, hlk⟩ := unAppend_accOf hgE
  refine ⟨MultiBlock.mk (eraseB (S2.map (fun q => (q.1, frozenOf q.2)))
      (((S2.map Prod.fst).mergeSort (fun a b => a ≤ b)).getD
        (((S2.map Prod.fst).mergeSort (fun a b => a ≤ b)).length - 1) 0)) b2
      (((((S2.map Prod.fst).mergeSort (fun a b => a ≤ b)).getD
        (((S2.map Prod.fst).mergeSort (fun a b => a ≤ b)).length - 1) 0)
          <<< BLOCK_IDX_BITS) ||| I) V, ?_, ?_⟩
  · unfold MultiBlock.unPushCurrent MultiBlock.sortedBlockKeys
    dsimp only
    rw [hkeys,
      if_pos (show ((S2.map Prod.fst).mergeSort (fun a b => a ≤ b)).length > 0 by
        rw [hslen]; omega),
      lookupB_map_frozen, hlook]
    rw [show Option.map frozenOf (some E) = some (frozenOf E) from rfl]
    dsimp only
    rw [copyFrom_frozenOf E, bind_ok_reduce, hun, bind_ok_reduce]
  · intro id
    have hup : (((((S2.map Prod.fst).mergeSort (fun a b => a ≤ b)).getD
        (((S2.map Prod.fst).mergeSort (fun a b => a ≤ b)).length - 1) 0)
          <<< BLOCK_IDX_BITS) ||| I) >>> BLOCK_IDX_BITS
        = (((S2.map Prod.fst).mergeSort (fun a b => a ≤ b)).getD
          (((S2.map Prod.fst).mergeSort (fun a b => a ≤ b)).length - 1) 0) := upper_pack hI
    have hlow : (((((S2.map Prod.fst).mergeSort (fun a b => a ≤ b)).getD
        (((S2.map Prod.fst).mergeSort (fun a b => a ≤ b)).length - 1) 0)
          <<< BLOCK_IDX_BITS) ||| I) &&& BLOCK_IDX_MASK = I := low_pack hI
    unfold MultiBlock.Lookup
    dsimp only
    by_cases h1 : id = ((((S2.map Prod.fst).mergeSort (fun a b => a ≤ b)).getD
        (((S2.map Prod.fst).mergeSort (fun a b => a ≤ b)).length - 1) 0)
          <<< BLOCK_IDX_BITS) ||| I
    · rw [if_pos h1]
      unfold shardsOr
      rw [h1, hup, hlook, hlow, hV]
    · rw [if_neg h1]
      by_cases h2 : id >>> BLOCK_IDX_BITS
          = (((((S2.map Prod.fst).mergeSort (fun a b => a ≤ b)).getD
            (((S2.map Prod.fst).mergeSort (fun a b => a ≤ b)).length - 1) 0)
              <<< BLOCK_IDX_BITS) ||| I) >>> BLOCK_IDX_BITS
      · rw [if_pos h2]
        have h2k : id >>> BLOCK_IDX_BITS
            = (((S2.map Prod.fst).mergeSort (fun a b => a ≤ b)).getD
              (((S2.map Prod.fst).mergeSort (fun a b => a ≤ b)).length - 1) 0) := by
          rw [h2, hup]
        have hne2 : id &&& BLOCK_IDX_MASK ≠ I := by
          intro hc
          refine h1 (eq_of_upper_low (by rw [h2]) ?_)
          rw [hlow]
          exact hc
        rw [hlk (id &&& BLOCK_IDX_MASK) (low_le_idxmask id) hne2]
        unfold shardsOr
        rw [h2k, hlook]
      · rw [if_neg h2]
        have hnk : id >>> BLOCK_IDX_BITS
            ≠ (((S2.map Prod.fst).mergeSort (fun a b => a ≤ b)).getD
              (((S2.map Prod.fst).mergeSort (fun a b => a ≤ b)).length - 1) 0) := by
          intro hc
          exact h2 (by rw [hup]; exact hc)
        rw [lookupB_eraseB_ne _ hnk, lookupB_map_frozen]
        unfold shardsOr
        cases hl2 : lookupE S2 (id >>> BLOCK_IDX_BITS) with
        | some E2 =>
          show (frozenOf E2).Lookup (id &&& BLOCK_IDX_MASK)
            = Except.ok (listOr E2 (id &&& BLOCK_IDX_MASK))
          exact lookup_frozenOf (hg _ (lookupE_mem hl2)) (low_le_idxmask id)
        | none => rfl

/-! ## Claim C4 -/

/-- C4: on any multi-block state reached by a sequence of valid appends,
`pushCurrent` followed by `unPushCurrent` succeeds and yields a state whose
`Lookup` agrees with the original on every id. -/
theorem C4_push_unpush {L : List (Nat × Nat)} {m : MultiBlock}
    (hL : GoodK 0 L) (hm : mbAppendList NewMultiBlock L = .ok m) :
    ∃ m1 m2, m.pushCurrent = .ok m1 ∧ m1.unPushCurrent = .ok m2 ∧
      ∀ id, m2.Lookup id = m.Lookup id := by
  obtain ⟨m', hrun, hinv, hR, -⟩ := mb_run (K := L) mbInv_new goodR_new hL
  rw [hm] at hrun
  have heq := Except.ok.inj hrun
  subst heq
  obtain ⟨S2, hpush, hnd, hgood, hne, hor⟩ := mbInv_push hinv hR
  obtain ⟨mt, hunp, hlook⟩ := mbInv_unpush hgood hne
  refine ⟨_, mt, hpush, hunp, ?_⟩
  intro id
  rw [hlook id, hor id, mb_lookup hinv hR id]

/-- C4 witness: the round trip on the concrete state reached by appending
`(3, 1)` to a fresh multi-block. -/
theorem C4_push_unpush_witness :
    ∃ m1 m2, (MultiBlock.mk [] (accOf [(0, 0)]) 3 1).pushCurrent = .ok m1 ∧
      m1.unPushCurrent = .ok m2 ∧
      ∀ id, m2.Lookup id = (MultiBlock.mk [] (accOf [(0, 0)]) 3 1).Lookup id :=
  C4_push_unpush (L := [(3, 1)])
    ⟨List.Chain.cons (by omega) List.Chain.nil,
      fun p hp => by rw [List.mem_singleton.mp hp]; decide⟩
    mb_append_31

/-! ## Claim C2: Merge -/

/-- Abstract-shard counterpart of the Go map write. -/
def insertE : List (Nat × List (Nat × Nat)) → Nat → List (Nat × Nat) →
    List (Nat × List (Nat × Nat))
  | [], k, E => [(k, E)]
  | q :: t, k, E => if q.1 = k then (k, E) :: t else q :: insertE t k E

theorem insertB_map_frozen (S2 : List (Nat × List (Nat × Nat))) (k : Nat)
    (E : List (Nat × Nat)) :
    insertB (S2.map (fun q => (q.1, frozenOf q.2))) k (frozenOf E)
      = (insertE S2 k E).map (fun q => (q.1, frozenOf q.2)) := by
  induction S2 with
  | nil => rfl
  | cons q t ih =>
    by_cases h : q.1 = k
    · rw [List.map_cons, insertB, insertE]
      show (if q.1 = k then _ else _) = _
      rw [if_pos h, if_pos h]
      rfl
    · rw [List.map_cons, insertB, insertE]
      show (if q.1 = k then _ else _) = _
      rw [if_neg h, if_neg h, List.map_cons, ih]

theorem lookupE_insertE_self (S2 : List (Nat × List (Nat × Nat))) (k : Nat)
    (E : List (Nat × Nat)) : lookupE (insertE S2 k E) k = some E := by
  induction S2 with
  | nil => simp [insertE, lookupE]
  | cons q t ih =>
    by_cases h : q.1 = k
    · rw [insertE, if_pos h, lookupE, if_pos rfl]
    · rw [insertE, if_neg h, lookupE, if_neg h, ih]

theorem lookupE_insertE_ne (S2 : List (Nat × List (Nat × Nat))) {k k2 : Nat}
    (E : List (Nat × Nat)) (hne : k2 ≠ k) :
    lookupE (insertE S2 k E) k2 = lookupE S2 k2 := by
  induction S2 with
  | nil =>
    show lookupE [(k, E)] k2 = lookupE [] k2
    rw [show lookupE [(k, E)] k2 = if k = k2 then some E else lookupE [] k2 from rfl,
      if_neg (fun h => hne h.symm)]
  | cons q t ih =>
    by_cases h : q.1 = k
    · rw [insertE, if_pos h, lookupE, if_neg (by omega), lookupE, if_neg (by omega)]
    · by_cases h2 : q.1 = k2
      · rw [insertE, if_neg h, lookupE, if_pos h2, lookupE, if_pos h2]
      · rw [insertE, if_neg h, lookupE, if_neg h2, lookupE, if_neg h2, ih]

theorem mem_insertE {S2 : List (Nat × List (Nat × Nat))} {k : Nat}
    {E : List (Nat × Nat)} {q : Nat × List (Nat × Nat)}
    (h : q ∈ insertE S2 k E) : q = (k, E) ∨ q ∈ S2 := by
  induction S2 with
  | nil =>
    rw [insertE, List.mem_singleton] at h
    exact Or.inl h
  | cons r t ih =>
    rw [insertE] at h
    split at h
    · rcases List.mem_cons.mp h with h | h
      · exact Or.inl h
      · exact Or.inr (List.mem_cons_of_mem r h)
    · rcases List.mem_cons.mp h with h | h
      · exact Or.inr (h ▸ List.mem_cons_self r t)
      · rcases ih h with h | h
        · exact Or.inl h
        · exact Or.inr (List.mem_cons_of_mem r h)

theorem insertE_ne_nil (S2 : List (Nat × List (Nat × Nat))) (k : Nat)
    (E : List (Nat × Nat)) : insertE S2 k E ≠ [] := by
  cases S2 with
  | nil => simp [insertE]
  | cons q t =>
    rw [insertE]
    split <;> simp

theorem shardsOr_cons (q : Nat × List (Nat × Nat)) (src : List (Nat × List (Nat × Nat)))
    (id : Nat) :
    shardsOr (q :: src) id = if q.1 = id >>> BLOCK_IDX_BITS then
      listOr q.2 (id &&& BLOCK_IDX_MASK) else shardsOr src id := by
  unfold shardsOr
  rw [show lookupE (q :: src) (id >>> BLOCK_IDX_BITS)
      = if q.1 = id >>> BLOCK_IDX_BITS then some q.2
        else lookupE src (id >>> BLOCK_IDX_BITS) from rfl]
  by_cases h : q.1 = id >>> BLOCK_IDX_BITS
  · rw [if_pos h, if_pos h]
  · rw [if_neg h, if_neg h]

theorem shardsOr_insertE (S2 : List (Nat × List (Nat × Nat))) (k : Nat)
    (E : List (Nat × Nat)) (id : Nat) :
    shardsOr (insertE S2 k E) id = if id >>> BLOCK_IDX_BITS = k then
      listOr E (id &&& BLOCK_IDX_MASK) else shardsOr S2 id := by
  unfold shardsOr
  by_cases h : id >>> BLOCK_IDX_BITS = k
  · rw [if_pos h, h, lookupE_insertE_self]
  · rw [if_neg h, lookupE_insertE_ne _ _ h]

theorem newEmpty_lookup {id : Nat} (hid : id ≤ BLOCK_IDX_MASK) :
    NewEmptyBlock.Lookup id = .ok 0 := by
  have h := @lookup_pairsB [] [] id
    ⟨List.Pairwise.nil, fun p hp => absurd hp (List.not_mem_nil p)⟩
    (Nat.zero_le _) hid
  rw [show listOr [] id = 0 from rfl] at h
  rw [show NewEmptyBlock.Lookup id
    = Block.Lookup { Length := 0, Frozen := true, Values := [] } id from rfl,
    lookup_frozen_irrel 0 true false []]
  exact h

/-- The merge loop over the source's shard map: each key is merged into the
receiver's map (OR of the two shard blocks when the key exists, transfer when
it does not), and the reused accumulation block keeps its shape. -/
theorem mergeBlocksLoop_spec {src : List (Nat × List (Nat × Nat))} :
    ∀ {acc : List (Nat × List (Nat × Nat))} {nb : Block},
      (∀ q ∈ src, GoodE q.2) → (∀ q ∈ acc, GoodE q.2) →
      (src.map Prod.fst).Nodup →
      nb.Frozen = false → nb.Values.length = BLOCK_FULL_LENGTH →
      ∃ S3 nb2, mergeBlocksLoop (src.map (fun q => (q.1, frozenOf q.2)))
          (acc.map (fun q => (q.1, frozenOf q.2))) nb
        = .ok (S3.map (fun q => (q.1, frozenOf q.2)), nb2) ∧
        (∀ q ∈ S3, GoodE q.2) ∧
        (acc ≠ [] → S3 ≠ []) ∧
        ∀ id, shardsOr S3 id = shardsOr acc id ||| shardsOr src id := by
  induction src with
  | nil =>
    intro acc nb hs ha hnd hf hlen
    refine ⟨acc, nb, rfl, ha, fun h => h, fun id => ?_⟩
    rw [show shardsOr [] id = 0 from rfl, Nat.or_zero]
  | cons q src ih =>
    intro acc nb hs ha hnd hf hlen
    have hs2 : ∀ r ∈ src, GoodE r.2 := fun r hr => hs r (List.mem_cons_of_mem q hr)
    have hnd2 : (src.map Prod.fst).Nodup := by
      rw [List.map_cons] at hnd
      exact hnd.of_cons
    have hq1src : ∀ r ∈ src, r.1 ≠ q.1 := by
      intro r hr hc
      rw [List.map_cons] at hnd
      have := (List.nodup_cons.mp hnd).1
      exact this (hc ▸ List.mem_map.mpr ⟨r, hr, rfl⟩)
    rw [List.map_cons]
    unfold mergeBlocksLoop
    rw [lookupB_map_frozen]
    cases hl : lookupE acc q.1 with
    | some E1 =>
      rw [show Option.map frozenOf (some E1) = some (frozenOf E1) from rfl]
      dsimp only
      obtain ⟨EM, hmerge, hgm, horm⟩ := resetAndMergeFrom_full hf hlen
        (rep_frozenOf E1) (rep_frozenOf q.2) (ha _ (lookupE_mem hl))
        (hs q (List.mem_cons_self q src))
      rw [hmerge, bind_ok_reduce,
        show (accOf EM).Copy = frozenOf EM from rfl, insertB_map_frozen]
      obtain ⟨S3, nb2, hrec, hg3, hne3, hor3⟩ := @ih
        (insertE acc q.1 EM) (accOf EM) hs2
        (fun r hr => by
          rcases mem_insertE hr with h | h
          · rw [h]
            exact hgm
          · exact ha r h)
        hnd2 (accOf_frozen EM) (accOf_values_length EM)
      refine ⟨S3, nb2, hrec, hg3, fun _ => hne3 (insertE_ne_nil _ _ _), fun id => ?_⟩
      rw [hor3 id, shardsOr_insertE, shardsOr_cons]
      by_cases h : id >>> BLOCK_IDX_BITS = q.1
      · rw [if_pos h, if_pos h.symm, horm,
          show shardsOr src id = 0 from shardsOr_none (lookupE_eq_none
            (fun r hr hc => hq1src r hr (hc.trans h))),
          Nat.or_zero]
        unfold shardsOr
        rw [h, hl]
      · rw [if_neg h, if_neg (fun hc => h hc.symm)]
    | none =>
      rw [show Option.map frozenOf (none : Option (List (Nat × Nat))) = none from rfl]
      dsimp only
      rw [show frozenOf q.2 = frozenOf q.2 from rfl, insertB_map_frozen]
      obtain ⟨S3, nb2, hrec, hg3, hne3, hor3⟩ := @ih
        (insertE acc q.1 q.2) nb hs2
        (fun r hr => by
          rcases mem_insertE hr with h | h
          · rw [h]
            exact hs q (List.mem_cons_self q src)
          · exact ha r h)
        hnd2 hf hlen
      refine ⟨S3, nb2, hrec, hg3, fun _ => hne3 (insertE_ne_nil _ _ _), fun id => ?_⟩
      rw [hor3 id, shardsOr_insertE, shardsOr_cons]
      by_cases h : id >>> BLOCK_IDX_BITS = q.1
      · rw [if_pos h, if_pos h.symm,
          show shardsOr acc id = 0 from shardsOr_none (by rw [h]; exact hl),
          show shardsOr src id = 0 from shardsOr_none (lookupE_eq_none
            (fun r hr hc => hq1src r hr (hc.trans h))),
          Nat.zero_or, Nat.or_zero]
      · rw [if_neg h, if_neg (fun hc => h hc.symm)]

/-- C2: merging Y into X makes every lookup the OR of the two pre-merge
lookups; the drained Y afterwards looks up 0 everywhere; and merging into a
freshly constructed empty X reproduces Y's lookups. -/
theorem C2_merge {LX LY : List (Nat × Nat)} {mx my : MultiBlock}
    (hLX : GoodK 0 LX) (hLY : GoodK 0 LY)
    (hmx : mbAppendList NewMultiBlock LX = .ok mx)
    (hmy : mbAppendList NewMultiBlock LY = .ok my) :
    ∃ mx2 my2, mx.Merge my = .ok (mx2, my2) ∧
      (∀ id, ∃ vx vy, mx.Lookup id = .ok vx ∧ my.Lookup id = .ok vy ∧
        mx2.Lookup id = .ok (vx ||| vy)) ∧
      (∀ id, my2.Lookup id = .ok 0) ∧
      (LX = [] → ∀ id, ∃ vy, my.Lookup id = .ok vy ∧ mx2.Lookup id = .ok vy) := by
  obtain ⟨mx', hrunx, hinvx, hRx, -⟩ := mb_run (K := LX) mbInv_new goodR_new hLX
  rw [hmx] at hrunx
  have h1 := Except.ok.inj hrunx
  subst h1
  obtain ⟨my', hruny, hinvy, hRy, -⟩ := mb_run (K := LY) mbInv_new goodR_new hLY
  rw [hmy] at hruny
  have h2 := Except.ok.inj hruny
  subst h2
  obtain ⟨SX, hpushX, hndX, hgoodX, hneX, horX⟩ := mbInv_push hinvx hRx
  obtain ⟨SY, hpushY, hndY, hgoodY, hneY, horY⟩ := mbInv_push hinvy hRy
  obtain ⟨S3, nb2, hloop, hg3, hne3, hor3⟩ := @mergeBlocksLoop_spec SY SX
    NewAccumulationBlock hgoodY hgoodX hndY rfl
    (by rw [show NewAccumulationBlock.Values = List.replicate BLOCK_FULL_LENGTH 0 from rfl,
      List.length_replicate])
  obtain ⟨mt, hunp, hlookT⟩ := @mbInv_unpush S3 maxLastId 0 hg3 (hne3 hneX)
  refine ⟨mt, MultiBlock.mk [] NewEmptyBlock 0 0, ?_, ?_, ?_, ?_⟩
  · unfold MultiBlock.Merge
    rw [hpushX, bind_ok_reduce, hpushY, bind_ok_reduce]
    dsimp only
    rw [hloop, bind_ok_reduce]
    dsimp only
    rw [hunp, bind_ok_reduce]
  · intro id
    refine ⟨listOr (mbRun [(0, 0)] LX) id, listOr (mbRun [(0, 0)] LY) id,
      mb_lookup hinvx hRx id, mb_lookup hinvy hRy id, ?_⟩
    rw [hlookT id, hor3 id, horX id, horY id]
  · intro id
    unfold MultiBlock.Lookup
    dsimp only
    by_cases h0 : id = 0
    · rw [if_pos h0]
    · rw [if_neg h0]
      by_cases hu : id >>> BLOCK_IDX_BITS = 0 >>> BLOCK_IDX_BITS
      · rw [if_pos hu]
        exact newEmpty_lookup (low_le_idxmask id)
      · rw [if_neg hu]
        rfl
  · intro hnil id
    subst hnil
    refine ⟨listOr (mbRun [(0, 0)] LY) id, mb_lookup hinvy hRy id, ?_⟩
    rw [hlookT id, hor3 id, horX id, horY id]
    have hz : listOr (mbRun [(0, 0)] []) id = 0 := by
      show listOr [(0, 0)] id = 0
      rw [listOr_singleton]
      split <;> rfl
    rw [hz, Nat.zero_or]

/-- C2 witness: merging two concrete one-record multi-blocks. -/
theorem C2_merge_witness :
    ∃ mx2 my2, (MultiBlock.mk [] (accOf [(0, 0)]) 3 1).Merge
        (MultiBlock.mk [] (accOf [(0, 0)]) 3 1) = .ok (mx2, my2) ∧
      (∀ id, ∃ vx vy, (MultiBlock.mk [] (accOf [(0, 0)]) 3 1).Lookup id = .ok vx ∧
        (MultiBlock.mk [] (accOf [(0, 0)]) 3 1).Lookup id = .ok vy ∧
        mx2.Lookup id = .ok (vx ||| vy)) ∧
      (∀ id, my2.Lookup id = .ok 0) ∧
      (([(3, 1)] : List (Nat × Nat)) = [] → ∀ id, ∃ vy,
        (MultiBlock.mk [] (accOf [(0, 0)]) 3 1).Lookup id = .ok vy ∧
        mx2.Lookup id = .ok vy) :=
  @C2_merge [(3, 1)] [(3, 1)]
    (MultiBlock.mk [] (accOf [(0, 0)]) 3 1) (MultiBlock.mk [] (accOf [(0, 0)]) 3 1)
    ⟨List.Chain.cons (by omega) List.Chain.nil,
      fun p hp => by rw [List.mem_singleton.mp hp]; decide⟩
    ⟨List.Chain.cons (by omega) List.Chain.nil,
      fun p hp => by rw [List.mem_singleton.mp hp]; decide⟩
    mb_append_31 mb_append_31

/-! ## Claim C8: frozen blocks -/

/-- Every block resident in the shard map is frozen. -/
def BlocksFrozen (m : MultiBlock) : Prop := ∀ q ∈ m.Blocks, q.2.Frozen = true

theorem blocksFrozen_new : BlocksFrozen NewMultiBlock :=
  fun q hq => absurd hq (List.not_mem_nil q)

theorem frozen_append_guard {b : Block} {i v : Nat} (hi : i ≤ BLOCK_IDX_MASK)
    (hv : v ≤ BLOCK_VAL_MASK) (h : b.Frozen = true) : b.Append i v = .error .frozen := by
  unfold Block.Append
  rw [if_neg (by omega), if_neg (by omega), if_pos h]

theorem frozen_reset_guard {b : Block} (h : b.Frozen = true) : b.Reset = .error .frozen := by
  unfold Block.Reset
  rw [if_pos h]

theorem frozen_copyFrom_guard {b b2 : Block} (h : b.Frozen = true) :
    b.CopyFrom b2 = .error .frozen := by
  unfold Block.CopyFrom
  rw [if_pos h]

theorem frozen_unAppend_guard {b : Block} (h : b.Frozen = true) :
    b.UnAppend = .error .frozen := by
  unfold Block.UnAppend
  rw [if_pos h]

theorem copy_frozen (b : Block) : b.Copy.Frozen = true := rfl

theorem blocksFrozen_append {m m2 : MultiBlock} {i v : Nat} (hm : BlocksFrozen m)
    (happ : m.Append i v = .ok m2) : BlocksFrozen m2 := by
  unfold MultiBlock.Append at happ
  split at happ
  · cases happ
  split at happ
  · cases happ
  split at happ
  · have := Except.ok.inj happ
    subst this
    exact hm
  cases hca : m.Current.Append (m.LastId &&& BLOCK_IDX_MASK) m.LastVal with
  | error e =>
    rw [hca] at happ
    cases happ
  | ok cur =>
    rw [hca, bind_ok_reduce] at happ
    split at happ
    · cases hcr : cur.Reset with
      | error e =>
        rw [hcr] at happ
        cases happ
      | ok cur2 =>
        rw [hcr, bind_ok_reduce] at happ
        have := Except.ok.inj happ
        subst this
        intro q hq
        rcases mem_insertB hq with h | h
        · rw [h]
          exact copy_frozen cur
        · exact hm q h
    · have := Except.ok.inj happ
      subst this
      exact hm

theorem blocksFrozen_push {m m2 : MultiBlock} (hm : BlocksFrozen m)
    (hp : m.pushCurrent = .ok m2) : BlocksFrozen m2 := by
  unfold MultiBlock.pushCurrent at hp
  cases hca : m.Current.Append (m.LastId &&& BLOCK_IDX_MASK) m.LastVal with
  | error e =>
    rw [hca] at hp
    cases hp
  | ok cur =>
    rw [hca, bind_ok_reduce] at hp
    cases hcr : cur.Reset with
    | error e =>
      rw [hcr] at hp
      cases hp
    | ok cur2 =>
      rw [hcr, bind_ok_reduce] at hp
      have := Except.ok.inj hp
      subst this
      intro q hq
      rcases mem_insertB hq with h | h
      · rw [h]
        exact copy_frozen cur
      · exact hm q h

theorem blocksFrozen_unpush {m m2 : MultiBlock} (hm : BlocksFrozen m)
    (hp : m.unPushCurrent = .ok m2) : BlocksFrozen m2 := by
  unfold MultiBlock.unPushCurrent at hp
  dsimp only at hp
  split at hp
  · split at hp
    · cases hp
    · rename_i lastBlock hlb
      cases hcf : m.Current.CopyFrom lastBlock with
      | error e =>
        rw [hcf] at hp
        cases hp
      | ok cur =>
        rw [hcf, bind_ok_reduce] at hp
        cases hua : cur.UnAppend with
        | error e =>
          rw [hua] at hp
          cases hp
        | ok r =>
          rw [hua, bind_ok_reduce] at hp
          obtain ⟨a, b, c⟩ := r
          have := Except.ok.inj hp
          subst this
          intro q hq
          exact hm q (mem_eraseB hq)
  · cases hcr : m.Current.Reset with
    | error e =>
      rw [hcr] at hp
      cases hp
    | ok cur =>
      rw [hcr, bind_ok_reduce] at hp
      have := Except.ok.inj hp
      subst this
      exact hm

theorem blocksFrozen_mergeLoop :
    ∀ (src acc : List (Nat × Block)) (nb : Block) (out : List (Nat × Block) × Block),
      (∀ q ∈ src, q.2.Frozen = true) → (∀ q ∈ acc, q.2.Frozen = true) →
      mergeBlocksLoop src acc nb = .ok out → ∀ q ∈ out.1, q.2.Frozen = true := by
  intro src
  induction src with
  | nil =>
    intro acc nb out _ ha hml
    have := Except.ok.inj hml
    subst this
    exact ha
  | cons p src ih =>
    intro acc nb out hs ha hml
    unfold mergeBlocksLoop at hml
    split at hml
    · rename_i block hblock
      cases hrm : nb.ResetAndMergeFrom block p.2 with
      | error e =>
        rw [hrm] at hml
        cases hml
      | ok nb2 =>
        rw [hrm, bind_ok_reduce] at hml
        refine ih _ _ out (fun q hq => hs q (List.mem_cons_of_mem p hq)) ?_ hml
        intro q hq
        rcases mem_insertB hq with h | h
        · rw [h]
          exact copy_frozen nb2
        · exact ha q h
    · refine ih _ _ out (fun q hq => hs q (List.mem_cons_of_mem p hq)) ?_ hml
      intro q hq
      rcases mem_insertB hq with h | h
      · rw [h]
        exact hs p (List.mem_cons_self p src)
      · exact ha q h

theorem blocksFrozen_merge {m1 m2 : MultiBlock} {r : MultiBlock × MultiBlock}
    (h1 : BlocksFrozen m1) (h2 : BlocksFrozen m2) (hm : m1.Merge m2 = .ok r) :
    BlocksFrozen r.1 ∧ BlocksFrozen r.2 := by
  unfold MultiBlock.Merge at hm
  cases hp1 : m1.pushCurrent with
  | error e =>
    rw [hp1] at hm
    cases hm
  | ok p1 =>
    rw [hp1, bind_ok_reduce] at hm
    cases hp2 : m2.pushCurrent with
    | error e =>
      rw [hp2] at hm
      cases hm
    | ok p2 =>
      rw [hp2, bind_ok_reduce] at hm
      cases hml : mergeBlocksLoop p2.Blocks p1.Blocks NewAccumulationBlock with
      | error e =>
        rw [hml] at hm
        cases hm
      | ok br =>
        rw [hml, bind_ok_reduce] at hm
        cases hup : MultiBlock.unPushCurrent { p1 with Blocks := br.1 } with
        | error e =>
          rw [hup] at hm
          cases hm
        | ok mt =>
          rw [hup, bind_ok_reduce] at hm
          have := Except.ok.inj hm
          subst this
          constructor
          · refine blocksFrozen_unpush ?_ hup
            intro q hq
            exact blocksFrozen_mergeLoop p2.Blocks p1.Blocks NewAccumulationBlock br
              (blocksFrozen_push h2 hp2) (blocksFrozen_push h1 hp1) hml q hq
          · exact fun q hq => absurd hq (List.not_mem_nil q)

/-- C8: blocks resident in a multi-block's map are always frozen — the
invariant holds for a fresh multi-block and is preserved by `Append`,
`pushCurrent`, `unPushCurrent` and `Merge` (on both results); `Lookup` takes
the state apart without producing a new one, so there is nothing to preserve;
and no operation mutates a frozen block: `Block.Append` (on in-range
arguments), `Block.Reset`, `Block.CopyFrom` and `Block.UnAppend` all refuse a
frozen receiver with the `frozen` panic. -/
theorem C8_frozen_invariant :
    BlocksFrozen NewMultiBlock ∧
    (∀ (m m2 : MultiBlock) (i v : Nat), BlocksFrozen m → m.Append i v = .ok m2 →
      BlocksFrozen m2) ∧
    (∀ m m2 : MultiBlock, BlocksFrozen m → m.pushCurrent = .ok m2 → BlocksFrozen m2) ∧
    (∀ m m2 : MultiBlock, BlocksFrozen m → m.unPushCurrent = .ok m2 → BlocksFrozen m2) ∧
    (∀ (m1 m2 : MultiBlock) (r : MultiBlock × MultiBlock), BlocksFrozen m1 →
      BlocksFrozen m2 → m1.Merge m2 = .ok r → BlocksFrozen r.1 ∧ BlocksFrozen r.2) ∧
    (∀ (b : Block) (i v : Nat), i ≤ BLOCK_IDX_MASK → v ≤ BLOCK_VAL_MASK →
      b.Frozen = true → b.Append i v = .error .frozen) ∧
    (∀ b : Block, b.Frozen = true → b.Reset = .error .frozen) ∧
    (∀ b b2 : Block, b.Frozen = true → b.CopyFrom b2 = .error .frozen) ∧
    (∀ b : Block, b.Frozen = true → b.UnAppend = .error .frozen) :=
  ⟨blocksFrozen_new,
    fun _ _ _ _ hm happ => blocksFrozen_append hm happ,
    fun _ _ hm hp => blocksFrozen_push hm hp,
    fun _ _ hm hp => blocksFrozen_unpush hm hp,
    fun _ _ _ h1 h2 hm => blocksFrozen_merge h1 h2 hm,
    fun _ _ _ hi hv h => frozen_append_guard hi hv h,
    fun _ h => frozen_reset_guard h,
    fun _ _ h => frozen_copyFrom_guard h,
    fun _ h => frozen_unAppend_guard h⟩

/-- C8 witness: the invariant applied to a concrete frozen block and a
concrete map-preservation step. -/
theorem C8_frozen_invariant_witness :
    NewEmptyBlock.Reset = .error .frozen ∧
    ((0 : Nat) ≤ BLOCK_IDX_MASK ∧ (0 : Nat) ≤ BLOCK_VAL_MASK ∧
      NewEmptyBlock.Append 0 0 = .error .frozen) ∧
    (BlocksFrozen NewMultiBlock ∧
      mbAppendList NewMultiBlock [(3, 1)] = .ok (MultiBlock.mk [] (accOf [(0, 0)]) 3 1) ∧
      BlocksFrozen (MultiBlock.mk [] (accOf [(0, 0)]) 3 1)) := by
  refine ⟨C8_frozen_invariant.2.2.2.2.2.2.1 NewEmptyBlock rfl,
    ⟨by decide, by decide, C8_frozen_invariant.2.2.2.2.2.1 NewEmptyBlock 0 0
      (by decide) (by decide) rfl⟩,
    C8_frozen_invariant.1, mb_append_31, ?_⟩
  intro q hq
  exact absurd hq (List.not_mem_nil q)

/-! ## Claim C7: primitive-block kinds at the Sorter

The worker pools, channels and goroutines of `Sorter` are out of scope of the
kind-dispatch logic; the embedding keeps what the claim is about: the counts
of each element type in a PBF primitive block, `primCount`,
`primitiveBlockKind` (whose mixed-kind branch is a Go `panic`, modelled as
`SorterFailure.panicMixed`), and the kind-order check of `Sorter.Append`
(whose violation is a returned `fmt.Errorf`, modelled as
`SorterFailure.orderError`).  `Sorter.Append` returns the updated
`lastKind`. -/

structure PrimitiveGroup : Type where
  nodes : Nat
  dense : Nat
  ways : Nat
  relations : Nat
  deriving DecidableEq, Repr

structure PrimitiveBlock : Type where
  Primitivegroup : List PrimitiveGroup
  deriving DecidableEq, Repr

def PKIND_NODE : Nat := 0
def PKIND_WAY : Nat := 1
def PKIND_REL : Nat := 2

/-- `primCount` from the source: `(nodes, ways, relations)` totals, with the
dense nodes counted into the node total. -/
def primCount (p : PrimitiveBlock) : Nat × Nat × Nat :=
  p.Primitivegroup.foldl
    (fun acc g => (acc.1 + g.nodes + g.dense, acc.2.1 + g.ways, acc.2.2 + g.relations))
    (0, 0, 0)

/-- The two failure modes of the kind logic: the mixed-kind `panic` (process
abort) and the structured error returned for out-of-order kinds. -/
inductive SorterFailure : Type
  | panicMixed
  | orderError
  deriving DecidableEq, Repr

/-- `primitiveBlockKind` from the source: panics when a block mixes kinds. -/
def primitiveBlockKind (p : PrimitiveBlock) : Except SorterFailure Nat :=
  let c := primCount p
  if c.1 > 0 then
    if c.2.1 > 0 ∨ c.2.2 > 0 then .error .panicMixed else .ok PKIND_NODE
  else if c.2.1 > 0 then
    if c.2.2 > 0 then .error .panicMixed else .ok PKIND_WAY
  else .ok PKIND_REL

/-- The kind bookkeeping of `Sorter.Append` from the source: `fmt.Errorf`
when the kind goes backwards, otherwise the new `lastKind`. -/
def Sorter.Append (lastKind : Nat) (p : PrimitiveBlock) : Except SorterFailure Nat := do
  let kind ← primitiveBlockKind p
  if kind ≠ lastKind then
    if kind < lastKind then .error .orderError
    else .ok kind
  else .ok kind

/-- C7 (amended): a primitive block mixing kinds — any two of the three
counts positive, so also a ways-and-relations block with no nodes — makes
`Sorter.Append` abort through a `panic` in `primitiveBlockKind`; it is not
surfaced as the structured returned error.  The structured error with a
contextual message is produced for the *kind-order* violation (a kind
smaller than the last one). -/
theorem C7_mixed_kind_panic :
    (∀ (lastKind : Nat) (p : PrimitiveBlock),
      ((primCount p).1 > 0 ∧ (primCount p).2.1 > 0) ∨
      ((primCount p).1 > 0 ∧ (primCount p).2.2 > 0) ∨
      ((primCount p).2.1 > 0 ∧ (primCount p).2.2 > 0) →
      Sorter.Append lastKind p = .error .panicMixed) ∧
    (∀ (lastKind : Nat) (p : PrimitiveBlock) (kind : Nat),
      primitiveBlockKind p = .ok kind → kind < lastKind →
      Sorter.Append lastKind p = .error .orderError) ∧
    SorterFailure.panicMixed ≠ SorterFailure.orderError := by
  refine ⟨?_, ?_, by decide⟩
  · intro lastKind p hmix
    have hk : primitiveBlockKind p = .error .panicMixed := by
      unfold primitiveBlockKind
      by_cases hn : (primCount p).1 > 0
      · rcases hmix with ⟨-, hw⟩ | ⟨-, hr⟩ | ⟨hw, -⟩
        · rw [if_pos hn, if_pos (Or.inl hw)]
        · rw [if_pos hn, if_pos (Or.inr hr)]
        · rw [if_pos hn, if_pos (Or.inl hw)]
      · have hwr : (primCount p).2.1 > 0 ∧ (primCount p).2.2 > 0 := by
          rcases hmix with ⟨hn2, -⟩ | ⟨hn2, -⟩ | h
          · exact absurd hn2 hn
          · exact absurd hn2 hn
          · exact h
        rw [if_neg hn, if_pos hwr.1, if_pos hwr.2]
    unfold Sorter.Append
    rw [hk]
    rfl
  · intro lastKind p kind hk hlt
    unfold Sorter.Append
    rw [hk, bind_ok_reduce, if_pos (by omega), if_pos hlt]

/-- C7 counterexample: a block with one node and one way panics in
`primitiveBlockKind`; the abort is not the structured order error. -/
theorem C7_counterexample :
    Sorter.Append PKIND_NODE (PrimitiveBlock.mk [PrimitiveGroup.mk 1 0 1 0])
      = .error .panicMixed ∧
    SorterFailure.panicMixed ≠ SorterFailure.orderError := by
  refine ⟨?_, by decide⟩
  rfl

/-- C7 witness: the amended theorem applied at a nodes-and-ways block, at a
ways-and-relations block (no nodes, the second `panic` branch), and at an
out-of-order way-after-relation block. -/
theorem C7_mixed_kind_panic_witness :
    Sorter.Append PKIND_NODE (PrimitiveBlock.mk [PrimitiveGroup.mk 2 0 3 0])
      = .error .panicMixed ∧
    Sorter.Append PKIND_NODE (PrimitiveBlock.mk [PrimitiveGroup.mk 0 0 4 1])
      = .error .panicMixed ∧
    Sorter.Append PKIND_REL (PrimitiveBlock.mk [PrimitiveGroup.mk 0 0 4 0])
      = .error .orderError :=
  ⟨C7_mixed_kind_panic.1 PKIND_NODE _ (by decide),
   C7_mixed_kind_panic.1 PKIND_NODE _ (by decide),
   C7_mixed_kind_panic.2.1 PKIND_REL _ PKIND_WAY rfl (by decide)⟩

/-! ## Claim C10: the node worker's mask construction

`putNode` projects the node's coordinates (via `go.geo`'s Mercator
projection) and buckets each projected coordinate into one of four quadrant
cells.  The claim is about the integer mask construction from the quadrant
outputs, independent of the floating-point details, so the projection is an
abstract parameter and real arithmetic is modelled over `ℚ`. -/

def SCALE : ℚ := 1 / 10000000

def MAX_LAT : Int := 850511287

/-- `quadrant` from the source: the cell index in `[0, 4)`, or `-1` when the
coordinate is outside the range.  Go's `int(i)` truncation agrees with the
floor on the guarded branch since there `i ≥ 0`. -/
def quadrant (coordRange : ℚ × ℚ) (coord : ℚ) : Int :=
  let i := 4 * (coord - coordRange.1) / (coordRange.2 - coordRange.1)
  if 0 ≤ i ∧ i < 4 then Int.floor i else -1

/-- `nodeWorker.putNode` from the source, with the Mercator projection
abstracted as `proj`. -/
def putNode (proj : ℚ → ℚ → ℚ × ℚ) (xRange yRange : ℚ × ℚ) (nodes : MultiBlock)
    (id : Nat) (lon lat : Int) : Except Err MultiBlock :=
  if -MAX_LAT < lat ∧ lat < MAX_LAT then
    let p := proj ((lon : ℚ) * SCALE) ((lat : ℚ) * SCALE)
    let x := quadrant xRange p.1
    let y := quadrant yRange p.2
    if 0 ≤ x ∧ 0 ≤ y then
      nodes.Append id ((1 : Nat) <<< (x + 4 * y).toNat)
    else .ok nodes
  else .ok nodes

theorem quadrant_range (coordRange : ℚ × ℚ) (coord : ℚ) :
    quadrant coordRange coord = -1 ∨
    (0 ≤ quadrant coordRange coord ∧ quadrant coordRange coord < 4) := by
  unfold quadrant
  by_cases h : 0 ≤ 4 * (coord - coordRange.1) / (coordRange.2 - coordRange.1) ∧
      4 * (coord - coordRange.1) / (coordRange.2 - coordRange.1) < 4
  · rw [if_pos h]
    refine Or.inr ⟨?_, ?_⟩
    · exact Int.le_floor.mpr (by exact_mod_cast h.1)
    · exact Int.floor_lt.mpr (by exact_mod_cast h.2)
  · rw [if_neg h]
    exact Or.inl rfl

theorem blockAppend_not_mbValRange {b : Block} {i v : Nat} {e : Err}
    (h : b.Append i v = .error e) : e ≠ .mbValRange := by
  unfold Block.Append at h
  split at h
  · cases h
    decide
  split at h
  · cases h
    decide
  split at h
  · cases h
    decide
  split at h
  · split at h
    · cases h
      decide
    · cases h
  split at h
  · split at h
    · cases h
    · cases h
      decide
  · cases h

theorem blockReset_not_mbValRange {b : Block} {e : Err}
    (h : b.Reset = .error e) : e ≠ .mbValRange := by
  unfold Block.Reset at h
  split at h
  · cases h
    decide
  · cases h

theorem mbAppend_small_not_mbValRange {m : MultiBlock} {i v : Nat} {e : Err}
    (hv : v ≤ BLOCK_VAL_MASK) (h : m.Append i v = .error e) : e ≠ .mbValRange := by
  unfold MultiBlock.Append at h
  split at h
  · cases h
    decide
  split at h
  · omega
  split at h
  · cases h
  cases hca : m.Current.Append (m.LastId &&& BLOCK_IDX_MASK) m.LastVal with
  | error e2 =>
    rw [hca] at h
    cases h
    exact blockAppend_not_mbValRange hca
  | ok cur =>
    rw [hca, bind_ok_reduce] at h
    split at h
    · cases hcr : cur.Reset with
      | error e2 =>
        rw [hcr] at h
        cases h
        exact blockReset_not_mbValRange hcr
      | ok cur2 =>
        rw [hcr, bind_ok_reduce] at h
        cases h
    · cases h

/-- C10: whenever `putNode` passes the latitude guard and both quadrant
checks, the value appended to the multi-block is exactly
`1 <<< (x + 4*y)` for quadrants `x, y ∈ [0, 4)` — a power of two at most
`0x8000` — so `MultiBlock.Append`'s `val` precondition always holds and the
oversized-value panic is unreachable from `putNode`: `putNode` never
produces the `mbValRange` error, on any state. -/
theorem C10_putnode_mask_safety (proj : ℚ → ℚ → ℚ × ℚ) (xRange yRange : ℚ × ℚ)
    (nodes : MultiBlock) (id : Nat) (lon lat : Int) :
    putNode proj xRange yRange nodes id lon lat ≠ .error .mbValRange ∧
    (-MAX_LAT < lat → lat < MAX_LAT →
      0 ≤ quadrant xRange (proj ((lon : ℚ) * SCALE) ((lat : ℚ) * SCALE)).1 →
      0 ≤ quadrant yRange (proj ((lon : ℚ) * SCALE) ((lat : ℚ) * SCALE)).2 →
      quadrant xRange (proj ((lon : ℚ) * SCALE) ((lat : ℚ) * SCALE)).1 < 4 ∧
      quadrant yRange (proj ((lon : ℚ) * SCALE) ((lat : ℚ) * SCALE)).2 < 4 ∧
      putNode proj xRange yRange nodes id lon lat
        = nodes.Append id ((1 : Nat) <<<
            (quadrant xRange (proj ((lon : ℚ) * SCALE) ((lat : ℚ) * SCALE)).1 +
             4 * quadrant yRange (proj ((lon : ℚ) * SCALE) ((lat : ℚ) * SCALE)).2).toNat) ∧
      (∃ k : Nat, k ≤ 15 ∧ (1 : Nat) <<<
            (quadrant xRange (proj ((lon : ℚ) * SCALE) ((lat : ℚ) * SCALE)).1 +
             4 * quadrant yRange (proj ((lon : ℚ) * SCALE) ((lat : ℚ) * SCALE)).2).toNat
          = 2 ^ k ∧ 2 ^ k ≤ 0x8000)) := by
  have hx := quadrant_range xRange (proj ((lon : ℚ) * SCALE) ((lat : ℚ) * SCALE)).1
  have hy := quadrant_range yRange (proj ((lon : ℚ) * SCALE) ((lat : ℚ) * SCALE)).2
  constructor
  · intro hc
    unfold putNode at hc
    split at hc
    · dsimp only at hc
      split at hc
      · rename_i hguard hquad
        have hxlt : quadrant xRange (proj ((lon : ℚ) * SCALE) ((lat : ℚ) * SCALE)).1 < 4 := by
          rcases hx with h | h
          · omega
          · exact h.2
        have hylt : quadrant yRange (proj ((lon : ℚ) * SCALE) ((lat : ℚ) * SCALE)).2 < 4 := by
          rcases hy with h | h
          · omega
          · exact h.2
        have hk : (quadrant xRange (proj ((lon : ℚ) * SCALE) ((lat : ℚ) * SCALE)).1 +
            4 * quadrant yRange (proj ((lon : ℚ) * SCALE) ((lat : ℚ) * SCALE)).2).toNat
              ≤ 15 := by
          omega
        have hvb : (1 : Nat) <<< (quadrant xRange (proj ((lon : ℚ) * SCALE)
            ((lat : ℚ) * SCALE)).1 + 4 * quadrant yRange (proj ((lon : ℚ) * SCALE)
            ((lat : ℚ) * SCALE)).2).toNat ≤ BLOCK_VAL_MASK := by
          rw [Nat.one_shiftLeft, mask_eq]
          calc (2 : Nat) ^ _ ≤ 2 ^ 15 := Nat.pow_le_pow_right (by omega) hk
            _ ≤ 2 ^ 16 - 1 := by omega
        exact mbAppend_small_not_mbValRange hvb hc rfl
      · cases hc
    · cases hc
  · intro hg1 hg2 hx0 hy0
    have hxlt : quadrant xRange (proj ((lon : ℚ) * SCALE) ((lat : ℚ) * SCALE)).1 < 4 := by
      rcases hx with h | h
      · omega
      · exact h.2
    have hylt : quadrant yRange (proj ((lon : ℚ) * SCALE) ((lat : ℚ) * SCALE)).2 < 4 := by
      rcases hy with h | h
      · omega
      · exact h.2
    have hk : (quadrant xRange (proj ((lon : ℚ) * SCALE) ((lat : ℚ) * SCALE)).1 +
        4 * quadrant yRange (proj ((lon : ℚ) * SCALE) ((lat : ℚ) * SCALE)).2).toNat
          ≤ 15 := by
      omega
    refine ⟨hxlt, hylt, ?_, ?_⟩
    · unfold putNode
      rw [if_pos ⟨hg1, hg2⟩]
      dsimp only
      rw [if_pos ⟨hx0, hy0⟩]
    · refine ⟨_, hk, Nat.one_shiftLeft _, ?_⟩
      calc (2 : Nat) ^ _ ≤ 2 ^ 15 := Nat.pow_le_pow_right (by omega) hk
        _ ≤ 0x8000 := by norm_num

/-- C10 witness: the identity projection with ranges `[0, 4)`; the node at
`(lon, lat) = (1.5, 2.5)` after scaling lands in quadrant `(1, 2)`. -/
theorem C10_putnode_mask_safety_witness :
    putNode (fun a b => (a, b)) ((0 : ℚ), 4) ((0 : ℚ), 4) NewMultiBlock 200
        15000000 25000000 ≠ .error .mbValRange ∧
    putNode (fun a b => (a, b)) ((0 : ℚ), 4) ((0 : ℚ), 4) NewMultiBlock 200
        15000000 25000000
      = NewMultiBlock.Append 200 ((1 : Nat) <<<
          (quadrant ((0 : ℚ), 4) (((15000000 : Int) : ℚ) * SCALE) +
           4 * quadrant ((0 : ℚ), 4) (((25000000 : Int) : ℚ) * SCALE)).toNat) :=
  ⟨(C10_putnode_mask_safety (fun a b => (a, b)) ((0 : ℚ), 4) ((0 : ℚ), 4)
      NewMultiBlock 200 15000000 25000000).1,
   ((C10_putnode_mask_safety (fun a b => (a, b)) ((0 : ℚ), 4) ((0 : ℚ), 4)
      NewMultiBlock 200 15000000 25000000).2 (by decide) (by decide)
      (by
        show (0 : Int) ≤ quadrant ((0 : ℚ), 4) (((15000000 : Int) : ℚ) * SCALE)
        have h : quadrant ((0 : ℚ), 4) (((15000000 : Int) : ℚ) * SCALE) = 1 := by
          unfold quadrant SCALE
          norm_num
        rw [h]
        decide)
      (by
        show (0 : Int) ≤ quadrant ((0 : ℚ), 4) (((25000000 : Int) : ℚ) * SCALE)
        have h : quadrant ((0 : ℚ), 4) (((25000000 : Int) : ℚ) * SCALE) = 2 := by
          unfold quadrant SCALE
          norm_num
        rw [h]
        decide)).2.2.1⟩

/-! ## C6: the way worker -/

/-- The `wayWorker` struct from the source; the Go map `ExtraNodes` is
modelled as an association list and the log-only `Id` field is dropped. -/
structure wayWorker : Type where
  Ways : MultiBlock
  ExtraNodes : List (Nat × Nat)
  Nodes : MultiBlock

/-- Association-list read for the `ExtraNodes` map. -/
def lookupN : List (Nat × Nat) → Nat → Option Nat
  | [], _ => none
  | q :: t, k => if q.1 = k then some q.2 else lookupN t k

/-- Association-list write for the `ExtraNodes` map. -/
def insertN : List (Nat × Nat) → Nat → Nat → List (Nat × Nat)
  | [], k, v => [(k, v)]
  | q :: t, k, v => if q.1 = k then (k, v) :: t else q :: insertN t k v

/-- A Go map read defaults to the zero value for a missing key. -/
def getExtra (X : List (Nat × Nat)) (k : Nat) : Nat := (lookupN X k).getD 0

/-- The first loop of `putWay`: collect the refs' node masks in order and
their running OR. -/
def wayMasks (nodes : MultiBlock) : List Nat → List Nat → Nat →
    Except Err (List Nat × Nat)
  | [], acc, mask => .ok (acc, mask)
  | n :: t, acc, mask => do
    let v ← nodes.Lookup n
    wayMasks nodes t (acc ++ [v]) (mask ||| v)

/-- The second loop of `putWay`: every ref whose own mask differs from the
way mask gets the missing bits OR-ed into its `ExtraNodes` entry (`^` on a
`uint32` is complement against 32 one-bits). -/
def extraLoop (mask : Nat) : List Nat → List Nat → List (Nat × Nat) →
    List (Nat × Nat)
  | m :: ms, n :: ns, X =>
    extraLoop mask ms ns
      (if m = mask then X
       else insertN X n (getExtra X n ||| (mask &&& (m ^^^ 0xFFFFFFFF))))
  | _, _, X => X

/-- `wayWorker.putWay` from the source. -/
def wayWorker.putWay (w : wayWorker) (id : Nat) (nds : List Nat) :
    Except Err wayWorker := do
  let r ← wayMasks w.Nodes nds [] 0
  let ways ← w.Ways.Append id r.2
  .ok { w with Ways := ways, ExtraNodes := extraLoop r.2 r.1 nds w.ExtraNodes }

/-- The global nodes MultiBlock of the C6 scenario, after appending
`(10, 1)`, `(11, 2)`, `(12, 1)` to a fresh multi-block: the first two pairs
sit in `Current` behind the `(0, 0)` sentinel and `(12, 1)` is pending. -/
def nodesC6 : MultiBlock := MultiBlock.mk [] (accOf [(0, 0), (10, 1), (11, 2)]) 12 1

theorem nodes_build_scenario :
    mbAppendList NewMultiBlock [(10, 1), (11, 2), (12, 1)] = .ok nodesC6 := by
  have h1 : NewMultiBlock.Append 10 1 = .ok (MultiBlock.mk [] (accOf [(0, 0)]) 10 1) := by
    unfold MultiBlock.Append
    rw [if_neg (show ¬ (10 : Nat) < NewMultiBlock.LastId by decide)]
    rw [if_neg (show ¬ (1 : Nat) > BLOCK_VAL_MASK by decide)]
    rw [if_neg (show ¬ (10 : Nat) = NewMultiBlock.LastId by decide)]
    rw [show NewMultiBlock.Current.Append (NewMultiBlock.LastId &&& BLOCK_IDX_MASK)
          NewMultiBlock.LastVal = (accOf []).Append 0 0 by rw [accOf_nil]; rfl]
    rw [accOf_append (E := []) (i := 0) (v := 0)
        (fun q hq => absurd hq (List.not_mem_nil q)) (by decide) (by decide)]
    rw [bind_ok_reduce]
    rw [if_neg (show ¬ ((10 : Nat) >>> BLOCK_IDX_BITS ≠ NewMultiBlock.LastId >>> BLOCK_IDX_BITS)
      by decide)]
    rfl
  have h2 : (MultiBlock.mk [] (accOf [(0, 0)]) 10 1).Append 11 2
      = .ok (MultiBlock.mk [] (accOf [(0, 0), (10, 1)]) 11 2) := by
    unfold MultiBlock.Append
    rw [if_neg (show ¬ (11 : Nat) < (MultiBlock.mk [] (accOf [(0, 0)]) 10 1).LastId by decide)]
    rw [if_neg (show ¬ (2 : Nat) > BLOCK_VAL_MASK by decide)]
    rw [if_neg (show ¬ (11 : Nat) = (MultiBlock.mk [] (accOf [(0, 0)]) 10 1).LastId by decide)]
    rw [show (MultiBlock.mk [] (accOf [(0, 0)]) 10 1).Current.Append
          ((MultiBlock.mk [] (accOf [(0, 0)]) 10 1).LastId &&& BLOCK_IDX_MASK)
          (MultiBlock.mk [] (accOf [(0, 0)]) 10 1).LastVal
        = (accOf [(0, 0)]).Append 10 1 from rfl]
    rw [accOf_append (E := [(0, 0)]) (i := 10) (v := 1) (by decide) (by decide) (by decide)]
    rw [bind_ok_reduce]
    rw [if_neg (show ¬ ((11 : Nat) >>> BLOCK_IDX_BITS
        ≠ (MultiBlock.mk [] (accOf [(0, 0)]) 10 1).LastId >>> BLOCK_IDX_BITS) by decide)]
    rfl
  have h3 : (MultiBlock.mk [] (accOf [(0, 0), (10, 1)]) 11 2).Append 12 1 = .ok nodesC6 := by
    unfold MultiBlock.Append
    rw [if_neg (show ¬ (12 : Nat) < (MultiBlock.mk [] (accOf [(0, 0), (10, 1)]) 11 2).LastId
      by decide)]
    rw [if_neg (show ¬ (1 : Nat) > BLOCK_VAL_MASK by decide)]
    rw [if_neg (show ¬ (12 : Nat) = (MultiBlock.mk [] (accOf [(0, 0), (10, 1)]) 11 2).LastId
      by decide)]
    rw [show (MultiBlock.mk [] (accOf [(0, 0), (10, 1)]) 11 2).Current.Append
          ((MultiBlock.mk [] (accOf [(0, 0), (10, 1)]) 11 2).LastId &&& BLOCK_IDX_MASK)
          (MultiBlock.mk [] (accOf [(0, 0), (10, 1)]) 11 2).LastVal
        = (accOf [(0, 0), (10, 1)]).Append 11 2 from rfl]
    rw [accOf_append (E := [(0, 0), (10, 1)]) (i := 11) (v := 2)
        (by decide) (by decide) (by decide)]
    rw [bind_ok_reduce]
    rw [if_neg (show ¬ ((12 : Nat) >>> BLOCK_IDX_BITS
        ≠ (MultiBlock.mk [] (accOf [(0, 0), (10, 1)]) 11 2).LastId >>> BLOCK_IDX_BITS)
      by decide)]
    rfl
  rw [mbAppendList_cons, h1, except_bind_ok, mbAppendList_cons, h2, except_bind_ok,
    mbAppendList_cons, h3, except_bind_ok, mbAppendList_nil]

theorem nodesC6_lookup_ten : nodesC6.Lookup 10 = .ok 1 := by
  unfold MultiBlock.Lookup
  rw [if_neg (show ¬ (10 : Nat) = nodesC6.LastId by decide)]
  rw [if_pos (show (10 : Nat) >>> BLOCK_IDX_BITS = nodesC6.LastId >>> BLOCK_IDX_BITS by decide)]
  show (accOf [(0, 0), (10, 1), (11, 2)]).Lookup (10 &&& BLOCK_IDX_MASK) = .ok 1
  rw [show (10 : Nat) &&& BLOCK_IDX_MASK = 10 from rfl]
  rw [lookup_accOf (by decide) (by decide)]
  rw [show listOr [(0, 0), (10, 1), (11, 2)] 10 = 1 by decide]

theorem nodesC6_lookup_eleven : nodesC6.Lookup 11 = .ok 2 := by
  unfold MultiBlock.Lookup
  rw [if_neg (show ¬ (11 : Nat) = nodesC6.LastId by decide)]
  rw [if_pos (show (11 : Nat) >>> BLOCK_IDX_BITS = nodesC6.LastId >>> BLOCK_IDX_BITS by decide)]
  show (accOf [(0, 0), (10, 1), (11, 2)]).Lookup (11 &&& BLOCK_IDX_MASK) = .ok 2
  rw [show (11 : Nat) &&& BLOCK_IDX_MASK = 11 from rfl]
  rw [lookup_accOf (by decide) (by decide)]
  rw [show listOr [(0, 0), (10, 1), (11, 2)] 11 = 2 by decide]

theorem nodesC6_lookup_twelve : nodesC6.Lookup 12 = .ok 1 := by
  unfold MultiBlock.Lookup
  rw [if_pos (show (12 : Nat) = nodesC6.LastId from rfl)]
  rfl

theorem wayMasks_cons (nodes : MultiBlock) (n : Nat) (t : List Nat) (acc : List Nat)
    (mask : Nat) :
    wayMasks nodes (n :: t) acc mask
      = (nodes.Lookup n).bind (fun v => wayMasks nodes t (acc ++ [v]) (mask ||| v)) := rfl

theorem wayMasks_nil (nodes : MultiBlock) (acc : List Nat) (mask : Nat) :
    wayMasks nodes [] acc mask = .ok (acc, mask) := rfl

theorem wayMasks_scenario : wayMasks nodesC6 [10, 11, 12] [] 0 = .ok ([1, 2, 1], 3) := by
  rw [wayMasks_cons, nodesC6_lookup_ten, except_bind_ok]
  rw [wayMasks_cons, nodesC6_lookup_eleven, except_bind_ok]
  rw [wayMasks_cons, nodesC6_lookup_twelve, except_bind_ok]
  rfl

theorem ways_append_scenario :
    NewMultiBlock.Append 100 3 = .ok (MultiBlock.mk [] (accOf [(0, 0)]) 100 3) := by
  unfold MultiBlock.Append
  rw [if_neg (show ¬ (100 : Nat) < NewMultiBlock.LastId by decide)]
  rw [if_neg (show ¬ (3 : Nat) > BLOCK_VAL_MASK by decide)]
  rw [if_neg (show ¬ (100 : Nat) = NewMultiBlock.LastId by decide)]
  rw [show NewMultiBlock.Current.Append (NewMultiBlock.LastId &&& BLOCK_IDX_MASK)
        NewMultiBlock.LastVal = (accOf []).Append 0 0 by rw [accOf_nil]; rfl]
  rw [accOf_append (E := []) (i := 0) (v := 0)
      (fun q hq => absurd hq (List.not_mem_nil q)) (by decide) (by decide)]
  rw [bind_ok_reduce]
  rw [if_neg (show ¬ ((100 : Nat) >>> BLOCK_IDX_BITS ≠ NewMultiBlock.LastId >>> BLOCK_IDX_BITS)
    by decide)]
  rfl

theorem putWay_eq (w : wayWorker) (id : Nat) (nds : List Nat) :
    wayWorker.putWay w id nds
      = (wayMasks w.Nodes nds [] 0).bind (fun r =>
          (w.Ways.Append id r.2).bind (fun ways =>
            .ok (wayWorker.mk ways (extraLoop r.2 r.1 nds w.ExtraNodes) w.Nodes))) := rfl

theorem putWay_scenario :
    wayWorker.putWay (wayWorker.mk NewMultiBlock [] nodesC6) 100 [10, 11, 12]
      = .ok (wayWorker.mk (MultiBlock.mk [] (accOf [(0, 0)]) 100 3)
          [(10, 2), (11, 1), (12, 2)] nodesC6) := by
  rw [putWay_eq]
  dsimp only
  rw [wayMasks_scenario, except_bind_ok]
  dsimp only
  rw [ways_append_scenario, except_bind_ok]
  rfl

/-- C6 (amended): seeding a fresh nodes MultiBlock with `(10, 0x0001)`,
`(11, 0x0002)`, `(12, 0x0001)` and processing way 100 with refs
`[10, 11, 12]` through `putWay` appends `(100, 0x0003)` to `Ways`, and the
extra-nodes map afterwards holds `10 ↦ 0x0002` and `12 ↦ 0x0002` — but,
contrary to the claim, it also holds an entry `11 ↦ 0x0001`: node 11 misses
bit 0 of the way mask `0x0003`, so the second loop of `putWay` records it
too. -/
theorem C6_way_scenario :
    ∃ w1, mbAppendList NewMultiBlock [(10, 1), (11, 2), (12, 1)] = .ok nodesC6 ∧
      wayWorker.putWay (wayWorker.mk NewMultiBlock [] nodesC6) 100 [10, 11, 12] = .ok w1 ∧
      w1.Ways.Lookup 100 = .ok 3 ∧
      lookupN w1.ExtraNodes 10 = some 2 ∧
      lookupN w1.ExtraNodes 12 = some 2 ∧
      lookupN w1.ExtraNodes 11 = some 1 ∧
      w1.ExtraNodes = [(10, 2), (11, 1), (12, 2)] :=
  ⟨wayWorker.mk (MultiBlock.mk [] (accOf [(0, 0)]) 100 3) [(10, 2), (11, 1), (12, 2)] nodesC6,
    nodes_build_scenario, putWay_scenario, rfl, rfl, rfl, rfl, rfl⟩

/-- C6 counterexample: in the claim scenario the extra-nodes map does end up
with an entry for node 11 (value `0x0001`), contradicting "no entry for node
11". -/
theorem C6_counterexample :
    ∃ w1, mbAppendList NewMultiBlock [(10, 1), (11, 2), (12, 1)] = .ok nodesC6 ∧
      wayWorker.putWay (wayWorker.mk NewMultiBlock [] nodesC6) 100 [10, 11, 12] = .ok w1 ∧
      lookupN w1.ExtraNodes 11 = some 1 ∧ lookupN w1.ExtraNodes 11 ≠ none :=
  ⟨wayWorker.mk (MultiBlock.mk [] (accOf [(0, 0)]) 100 3) [(10, 2), (11, 1), (12, 2)] nodesC6,
    nodes_build_scenario, putWay_scenario, rfl, by decide⟩

end Neatlacoche
